import Mathlib

/-!
# Verification of the rootconnect tree store and layout engine

This file gives a shallow embedding, in Lean 4, of the genealogy-graph
core of the rootconnect repository: the data model (`Person`,
`Partnership`, `TreeData`), the state-transition function
(`treeReducer` from `src/state/treeReducer.ts`), the stateless graph
query helpers (`resolveDefaultPartnerIds`, `isDescendant` from
`src/utils/svgExport.ts`), and the layout engine (`computeTreeLayout`
from `src/utils/layout.ts`).

JavaScript records (`Record<string, Person>`) are modelled as
insertion-ordered association lists (`List (String × Person)`); a real
JavaScript record always has pairwise-distinct keys, so theorems that
quantify over arbitrary snapshots may assume `Nodup` of the key list.
JavaScript `Map` objects are also association lists; `Map.set` on a
fresh key appends, and on an existing key updates the value in place,
which is exactly what the helpers below implement.  Numbers computed by
the layout engine are dyadic rationals (integers divided by powers of
two), which IEEE doubles represent exactly, so coordinates are modelled
as `Rat`.
-/

/-- One side of a marriage-like relationship (`Partnership` in `types.ts`). -/
structure Partnership where
  spouseId : String
  marriageDate : Option String
  unionId : String
deriving DecidableEq, Repr

/-- A node of the genealogical graph (`Person` in `types.ts`). -/
structure Person where
  id : String
  firstName : String
  lastName : String
  birthDate : Option String
  birthPlace : String
  deathDate : Option String
  deathPlace : Option String
  gender : String
  notes : String
  parents : List String
  spouses : List Partnership
  children : List String
deriving DecidableEq, Repr

/-- The aggregate graph snapshot (`TreeData` in `types.ts`).  The people
record is modelled as an insertion-ordered association list. -/
structure TreeData where
  rootPersonId : Option String
  people : List (String × Person)
deriving DecidableEq, Repr

/-- Lookup in a JavaScript record / Map: the value at the first matching
key, `none` when absent (models `obj[key]` / `map.get(key)`). -/
def mget {α : Type} (m : List (String × α)) (k : String) : Option α :=
  (m.find? (fun kv => kv.1 = k)).map (fun kv => kv.2)

/-- Key-presence test (models `key in obj` / `map.has(key)`). -/
def mhas {α : Type} (m : List (String × α)) (k : String) : Bool :=
  (m.find? (fun kv => kv.1 = k)).isSome

/-- Record update (models `{ ...obj, [k]: v }` and `map.set(k, v)`):
replaces the value at the first occurrence of `k` keeping its position,
otherwise appends the new entry at the end. -/
def mset {α : Type} (m : List (String × α)) (k : String) (v : α) : List (String × α) :=
  match m with
  | [] => [(k, v)]
  | kv :: rest => if kv.1 = k then (k, v) :: rest else kv :: mset rest k v

/-- Walks the item list keeping the first occurrence of each element:
`seen` holds the elements already emitted. -/
def ensureUniqueAux (seen : List String) : List String → List String
  | [] => []
  | x :: xs => if x ∈ seen then ensureUniqueAux seen xs else x :: ensureUniqueAux (x :: seen) xs

/-- `ensureUnique` from `treeReducer.ts`: `Array.from(new Set(items))`,
i.e. de-duplication keeping the first occurrence of each element. -/
def ensureUnique (items : List String) : List String :=
  ensureUniqueAux [] items

/-- `ensurePartnershipUnique` from `treeReducer.ts`: replaces the first
Partnership with the same union id in place, otherwise appends. -/
def ensurePartnershipUnique (spouses : List Partnership) (partnership : Partnership) :
    List Partnership :=
  match spouses.findIdx? (fun item => item.unionId = partnership.unionId) with
  | some i => spouses.set i partnership
  | none => spouses ++ [partnership]

/-- The body of `dedupePartnerships`' loop: `uniqueMap.set(entry.unionId, {...entry})`
on a JavaScript Map (update in place at the first entry with this union id,
else append). -/
def partnershipMapSet (acc : List Partnership) (entry : Partnership) : List Partnership :=
  match acc.findIdx? (fun item => item.unionId = entry.unionId) with
  | some i => acc.set i entry
  | none => acc ++ [entry]

/-- `dedupePartnerships` from `treeReducer.ts`: de-duplication by union id
via a JavaScript Map — first-insertion key order, last written value wins. -/
def dedupePartnerships (spouses : List Partnership) : List Partnership :=
  spouses.foldl partnershipMapSet []

/-- The whitespace characters relevant to `String.prototype.trim` for the
date strings this code base handles. -/
def jsWhitespace (c : Char) : Bool :=
  c = ' ' || c = '\t' || c = '\n' || c = '\r'

/-- `value.trim()`: drops leading and trailing whitespace. -/
def jsTrim (s : String) : String :=
  String.mk (((s.data.dropWhile jsWhitespace).reverse.dropWhile jsWhitespace).reverse)

/-- `normalizeDateValue` from `treeReducer.ts`: `null`/`undefined`/empty
becomes `none`, otherwise the value is trimmed and a blank result becomes
`none`. -/
def normalizeDateValue (value : Option String) : Option String :=
  match value with
  | none => none
  | some v =>
    if v = "" then none
    else if (jsTrim v).length = 0 then none else some (jsTrim v)

/-- `sanitizePerson` from `treeReducer.ts`. -/
def sanitizePerson (person : Person) : Person :=
  { person with
    birthDate := normalizeDateValue person.birthDate
    deathDate := normalizeDateValue person.deathDate
    parents := ensureUnique person.parents
    children := ensureUnique person.children
    spouses := dedupePartnerships person.spouses }

/-- The action vocabulary (`TreeAction` in `types.ts`).  The extra
`unknownAction` constructor models a dispatch of an action value outside
the typed vocabulary, which the reducer's `default` branch handles. -/
inductive TreeAction where
  | setTree (payload : TreeData)
  | upsertPerson (payload : Person)
  | linkParentChild (parentId childId : String)
  | linkSpouse (personId spouseId : String) (marriageDate : Option String) (unionId : String)
  | setRootPerson (payload : Option String)
  | deletePersonAct (personId : String)
  | reassignParentsAct (childId : String) (parentIds : List String)
  | unknownAction
deriving DecidableEq, Repr

/-- `deletePerson` from `treeReducer.ts`.  Note the JavaScript truthiness
in the root computation: `state.rootPersonId && state.rootPersonId === personId`
is false when the root is the empty string. -/
def deletePerson (state : TreeData) (personId : String) : TreeData :=
  match mget state.people personId with
  | none => state
  | some _ =>
    let remainingEntries := state.people.filter (fun kv => kv.1 ≠ personId)
    let updatedPeople := remainingEntries.map (fun kv =>
      (kv.1, sanitizePerson
        { kv.2 with
          parents := kv.2.parents.filter (fun parentId => parentId ≠ personId)
          children := kv.2.children.filter (fun childId => childId ≠ personId)
          spouses := kv.2.spouses.filter (fun spouse => spouse.spouseId ≠ personId) }))
    let firstRemaining : Option String := (remainingEntries.head?).map (fun kv => kv.1)
    let nextRoot : Option String :=
      match state.rootPersonId with
      | some r => if r ≠ "" ∧ r = personId then firstRemaining else some r
      | none => firstRemaining
    { rootPersonId := nextRoot, people := updatedPeople }

/-- The second loop of `reassignParents`: for each id in the new parent
set, re-insert that parent with the child appended to its children. -/
def addChildToParents (childId : String) (base : List (String × Person))
    (nextParentIds : List String) : List (String × Person) :=
  nextParentIds.foldl (fun acc parentId =>
    match mget acc parentId with
    | none => acc
    | some parent =>
      mset acc parentId (sanitizePerson
        { parent with children := ensureUnique (parent.children ++ [childId]) })) base

/-- `reassignParents` from `treeReducer.ts`. -/
def reassignParents (state : TreeData) (childId : String) (parentIds : List String) :
    TreeData :=
  match mget state.people childId with
  | none => state
  | some child =>
    let nextParentIds := ensureUnique (parentIds.filter
      (fun parentId => parentId ≠ childId ∧ mhas state.people parentId))
    let base := (state.people.filter (fun kv => kv.1 ≠ childId)).map (fun kv =>
      (kv.1, sanitizePerson
        { kv.2 with
          children := kv.2.children.filter (fun existingChildId => existingChildId ≠ childId) }))
    let withParents := addChildToParents childId base nextParentIds
    let updatedPeople := mset withParents childId
      (sanitizePerson { child with parents := nextParentIds })
    { state with people := updatedPeople }

/-- `treeReducer` from `treeReducer.ts`: the Store's pure, total
state-transition function. -/
def treeReducer (state : TreeData) (action : TreeAction) : TreeData :=
  match action with
  | .setTree payload => payload
  | .upsertPerson payload =>
    let person := sanitizePerson payload
    { state with people := mset state.people person.id person }
  | .linkParentChild parentId childId =>
    match mget state.people parentId, mget state.people childId with
    | some parent, some child =>
      let updatedParent : Person :=
        { parent with children := ensureUnique (parent.children ++ [childId]) }
      let updatedChild : Person :=
        { child with parents := ensureUnique (child.parents ++ [parentId]) }
      { state with
        people := mset (mset state.people parentId updatedParent) childId updatedChild }
    | _, _ => state
  | .linkSpouse personId spouseId marriageDate unionId =>
    match mget state.people personId, mget state.people spouseId with
    | some personA, some personB =>
      let partnershipForA : Partnership :=
        { spouseId := spouseId, marriageDate := marriageDate, unionId := unionId }
      let partnershipForB : Partnership :=
        { spouseId := personId, marriageDate := marriageDate, unionId := unionId }
      { state with
        people := mset
          (mset state.people personId
            { personA with spouses := ensurePartnershipUnique personA.spouses partnershipForA })
          spouseId
          { personB with spouses := ensurePartnershipUnique personB.spouses partnershipForB } }
    | _, _ => state
  | .setRootPerson payload => { state with rootPersonId := payload }
  | .deletePersonAct personId => deletePerson state personId
  | .reassignParentsAct childId parentIds => reassignParents state childId parentIds
  | .unknownAction => state

/-- `EMPTY_TREE` from `treeReducer.ts`. -/
def EMPTY_TREE : TreeData := { rootPersonId := none, people := [] }

/-- `resolveDefaultPartnerIds` from `svgExport.ts`. -/
def resolveDefaultPartnerIds (tree : TreeData) (personId : String) : List String :=
  match mget tree.people personId with
  | none => []
  | some person =>
    if person.spouses.length ≠ 1 then [person.id]
    else
      match person.spouses.head? with
      | none => [person.id]
      | some spouseRecord =>
        match mget tree.people spouseRecord.spouseId with
        | none => [person.id]
        | some partner => [person.id, partner.id]

/-- The number of ids in `keys` not yet marked visited; the primary
termination measure of the breadth-first traversals. -/
def unvisitedCount (keys : List String) (visited : List String) : Nat :=
  (keys.filter (fun k => decide (k ∉ visited))).length

/-- The loop of `isDescendant` from `svgExport.ts`: pop the queue head;
return true on the candidate; skip already-visited ids; otherwise mark
visited and push the current person's children (ids whose person is
absent contribute nothing). -/
def descendLoop (people : List (String × Person)) (target : String)
    (visited queue : List String) : Bool :=
  match queue with
  | [] => false
  | currentId :: rest =>
    if currentId = target then true
    else if currentId ∈ visited then descendLoop people target visited rest
    else
      match h : mget people currentId with
      | none => descendLoop people target (currentId :: visited) rest
      | some current => descendLoop people target (currentId :: visited) (rest ++ current.children)
termination_by (unvisitedCount (people.map Prod.fst) visited, queue.length)
decreasing_by
· exact Prod.Lex.right _ (Nat.lt_succ_self _)
· have hx : x ∉ people.map Prod.fst := by
    intro hmem
    obtain ⟨kv, hkv, hfst⟩ := List.mem_map.mp hmem
    have hnone : people.find? (fun kv => kv.1 = x) = none := by
      unfold mget at h
      cases hh : people.find? (fun kv => kv.1 = x) with
      | none => rfl
      | some v => rw [hh] at h; simp at h
    have := List.find?_eq_none.mp hnone kv hkv
    simp [hfst] at this
  have heq : unvisitedCount (people.map Prod.fst) (x :: visited)
      = unvisitedCount (people.map Prod.fst) visited := by
    unfold unvisitedCount
    congr 1
    apply List.filter_congr
    intro a ha
    have hax : a ≠ x := fun hc => hx (hc ▸ ha)
    simp [List.mem_cons, hax]
  rw [heq]
  exact Prod.Lex.right _ (Nat.lt_succ_self _)
· apply Prod.Lex.left
  have hxk : x ∈ people.map Prod.fst := by
    unfold mget at h
    cases hh : people.find? (fun kv => kv.1 = x) with
    | none => rw [hh] at h; simp at h
    | some kv =>
      have hmem := List.mem_of_find?_eq_some hh
      have hpred := List.find?_some hh
      simp at hpred
      exact List.mem_map.mpr ⟨kv, hmem, hpred⟩
  unfold unvisitedCount
  have : ∀ l : List String, x ∈ l →
      ((l.filter (fun k => decide (k ∉ x :: visited))).length
        < (l.filter (fun k => decide (k ∉ visited))).length) := by
    intro l
    induction l with
    | nil => intro hc; simp at hc
    | cons a as ih =>
      intro hmem
      by_cases hax : a = x
      · subst hax
        simp only [List.filter_cons]
        have h1 : (decide (a ∉ a :: visited)) = false := by simp
        have h2 : (decide (a ∉ visited)) = true := by simp [*]
        rw [h1, h2]
        simp only [Bool.false_eq_true, if_false, if_true, List.length_cons]
        have hmono : (as.filter (fun k => decide (k ∉ a :: visited))).length
            ≤ (as.filter (fun k => decide (k ∉ visited))).length := by
          apply List.Sublist.length_le
          apply List.monotone_filter_right
          intro k hk
          simp at hk ⊢
          exact hk.2
        omega
      · have hmem' : x ∈ as := by
          cases hmem with
          | head => exact absurd rfl hax
          | tail _ hm => exact hm
        simp only [List.filter_cons]
        by_cases hav : a ∈ visited
        · have h1 : (decide (a ∉ x :: visited)) = false := by simp [hav]
          have h2 : (decide (a ∉ visited)) = false := by simp [hav]
          rw [h1, h2]
          exact ih hmem'
        · have h1 : (decide (a ∉ x :: visited)) = true := by simp [hax, hav]
          have h2 : (decide (a ∉ visited)) = true := by simp [hav]
          rw [h1, h2]
          simpa using Nat.succ_lt_succ (ih hmem')
  exact this _ hxk

/-- `isDescendant` from `svgExport.ts`: breadth-first search along
children edges, seeded with the ancestor's direct children. -/
def isDescendant (tree : TreeData) (ancestorId : String) (possibleDescendantId : String) : Bool :=
  let queue := match mget tree.people ancestorId with
    | none => []
    | some p => p.children
  descendLoop tree.people possibleDescendantId [] queue

/-!
## The layout engine (`src/utils/layout.ts`)

Every number the layout engine computes is a dyadic rational (the only
divisions are by two), which IEEE doubles represent exactly, so the
JavaScript number values are modelled by exact unnormalized fractions
with value-based comparison.
-/

/-- An exact fraction modelling a JavaScript number value of the layout
engine.  Fractions are left unnormalized (the denominator, always
positive by construction, is a product of twos); every comparison the
engine performs is value-based, via `jle`. -/
structure JsNum where
  num : Int
  den : Nat
deriving DecidableEq, Repr

/-- Embeds an integer quantity. -/
def jofNat (n : Nat) : JsNum := ⟨(n : Int), 1⟩

/-- Exact addition of JavaScript numbers. -/
def jadd (a b : JsNum) : JsNum := ⟨a.num * (b.den : Int) + b.num * (a.den : Int), a.den * b.den⟩

/-- Exact division by two (`x / 2`). -/
def jhalf (a : JsNum) : JsNum := ⟨a.num, a.den * 2⟩

/-- Exact subtraction of JavaScript numbers. -/
def jsub (a b : JsNum) : JsNum := ⟨a.num * (b.den : Int) - b.num * (a.den : Int), a.den * b.den⟩

/-- Value comparison `a <= b` of two fractions with positive denominators. -/
def jle (a b : JsNum) : Bool := a.num * (b.den : Int) ≤ b.num * (a.den : Int)

/-- `Math.max` / the `if (x > m) m = x` update pattern: both return the
larger value. -/
def jmaxOf (a b : JsNum) : JsNum := if jle a b then b else a

/-- `HORIZONTAL_GAP` from `layout.ts`. -/
def HORIZONTAL_GAP : JsNum := jofNat 80

/-- `VERTICAL_GAP` from `layout.ts`. -/
def VERTICAL_GAP : JsNum := jofNat 180

/-- `CANVAS_PADDING` from `layout.ts`. -/
def CANVAS_PADDING : JsNum := jofNat 160

/-- `UNION_NODE_SIZE` from `layout.ts`. -/
def UNION_NODE_SIZE : JsNum := jofNat 24

/-- `BASE_HEIGHT` from `layout.ts`. -/
def BASE_HEIGHT : Nat := 100

/-- `MIN_WIDTH` from `layout.ts`. -/
def MIN_WIDTH : Nat := 220

/-- `MAX_WIDTH` from `layout.ts`. -/
def MAX_WIDTH : Nat := 320

/-- `CHARACTER_WIDTH` from `layout.ts`. -/
def CHARACTER_WIDTH : Nat := 8

/-- `LINE_HEIGHT` from `layout.ts`. -/
def LINE_HEIGHT : Nat := 24

/-- `estimateWrappedLines` from `layout.ts`: zero for an empty line,
otherwise the ceiling of length over the effective characters per line
(all quantities are integers, so `Math.floor` and `Math.ceil` are exact
integer division and ceiling division). -/
def estimateWrappedLines (content : String) (width : Nat) : Nat :=
  if content = "" then 0
  else
    let effectiveCharsPerLine := max 18 (width / CHARACTER_WIDTH)
    (content.length + effectiveCharsPerLine - 1) / effectiveCharsPerLine

/-- `measurePersonNode` from `layout.ts`: estimated (width, height), both
integers. -/
def measurePersonNode (person : Person) : Nat × Nat :=
  let nameLine := jsTrim (person.firstName ++ " " ++ person.lastName)
  let birthLine := if person.birthPlace ≠ "" then "Born: " ++ person.birthPlace else ""
  let deathLine := match person.deathPlace with
    | some dp => if dp ≠ "" then "Died: " ++ dp else ""
    | none => ""
  let longestLine := max (max nameLine.length birthLine.length) (max deathLine.length 18)
  let estimatedWidth := min MAX_WIDTH (max MIN_WIDTH (longestLine * 7))
  let birthLines := estimateWrappedLines birthLine estimatedWidth
  let deathLines := estimateWrappedLines deathLine estimatedWidth
  let totalLines := 2 + birthLines + deathLines
  let height := max BASE_HEIGHT (totalLines * LINE_HEIGHT)
  (estimatedWidth, height)

/-- A person node of the layout output (`PersonLayoutNode` in `layout.ts`). -/
structure PersonLayoutNode where
  person : Person
  x : JsNum
  y : JsNum
  width : JsNum
  height : JsNum
deriving DecidableEq, Repr

/-- A union marker of the layout output (`UnionLayoutNode` in `layout.ts`). -/
structure UnionLayoutNode where
  id : String
  partners : String × String
  x : JsNum
  y : JsNum
  children : List String
deriving DecidableEq, Repr

/-- An edge of the layout output (`LayoutEdge` in `layout.ts`); `from`
is a Lean keyword, so the two endpoints are `src` and `dst`. -/
structure LayoutEdge where
  id : String
  src : JsNum × JsNum
  dst : JsNum × JsNum
deriving DecidableEq, Repr

/-- The layout output (`TreeLayout` in `layout.ts`). -/
structure TreeLayout where
  personNodes : List PersonLayoutNode
  unionNodes : List UnionLayoutNode
  edges : List LayoutEdge
  width : JsNum
  height : JsNum
deriving DecidableEq, Repr

/-- The state of the breadth-first placement traversal of
`computePlacementMaps`: depth per id, visitation order per id, the
visited set, the pending queue and the order counter. -/
structure BfsState where
  depthMap : List (String × Int)
  orderMap : List (String × Nat)
  visited : List String
  queue : List String
  counter : Nat
deriving DecidableEq, Repr

/-- The neighbor list of one person in the placement traversal: children
at depth +1, then parents at depth −1, then spouses at depth 0. -/
def neighborsOf (person : Person) : List (String × Int) :=
  person.children.map (fun childId => (childId, (1 : Int)))
    ++ person.parents.map (fun parentId => (parentId, (-1 : Int)))
    ++ person.spouses.map (fun spouse => (spouse.spouseId, (0 : Int)))

/-- Processing of one neighbor in `computePlacementMaps`: assign a depth
the first time the id is seen, and on first visit record the visitation
order and enqueue it. -/
def visitNeighbor (currentDepth : Int) (st : BfsState) (n : String × Int) : BfsState :=
  let nextDepth := currentDepth + n.2
  let st1 := if mhas st.depthMap n.1 then st
    else { st with depthMap := mset st.depthMap n.1 nextDepth }
  if n.1 ∈ st1.visited then st1
  else
    { st1 with
      visited := st1.visited ++ [n.1]
      orderMap := mset st1.orderMap n.1 st1.counter
      queue := st1.queue ++ [n.1]
      counter := st1.counter + 1 }

/-- One iteration of the `while (queue.length > 0)` loop of
`computePlacementMaps`: pop the queue head; if the person exists, fold
its neighbors through `visitNeighbor` at the popped person's depth. -/
def placementStep (people : List (String × Person)) (st : BfsState) (currentId : String)
    (rest : List String) : BfsState :=
  let currentDepth := (mget st.depthMap currentId).getD 0
  match mget people currentId with
  | none => { st with queue := rest }
  | some person => (neighborsOf person).foldl (visitNeighbor currentDepth) { st with queue := rest }

/-- The placement traversal loop, driven by fuel.  `placementLoop` below
always supplies enough fuel (see `placementLoopF_fuel_irrelevant`), so
this is the source's `while` loop. -/
def placementLoopF (people : List (String × Person)) : Nat → BfsState → BfsState
  | 0, st => st
  | fuel + 1, st =>
    match st.queue with
    | [] => st
    | currentId :: rest => placementLoopF people fuel (placementStep people st currentId rest)

/-- All the ids the placement traversal can ever enqueue: the record's
keys and every id referenced from a person record, plus the start id. -/
def allPlacementIds (people : List (String × Person)) : List String :=
  people.map Prod.fst ++ people.flatMap (fun kv =>
    kv.2.children ++ kv.2.parents ++ kv.2.spouses.map (fun sp => sp.spouseId))

/-- An upper bound on the remaining iterations of the placement loop
from a given state. -/
def placementFuel (people : List (String × Person)) (st : BfsState) : Nat :=
  2 * unvisitedCount (allPlacementIds people) st.visited + st.queue.length

/-- The `while` loop of `computePlacementMaps`, run with enough fuel to
reach the empty queue. -/
def placementLoop (people : List (String × Person)) (st : BfsState) : BfsState :=
  placementLoopF people (placementFuel people st) st

/-- `computePlacementMaps` from `layout.ts`: seeds the traversal at the
root id (depth 0, order 0), runs the loop, then defaults every unreached
person key to depth 0 and appends its order after all reached ones. -/
def computePlacementMaps (tree : TreeData) (rootId : String) :
    (List (String × Int)) × (List (String × Nat)) :=
  let st0 : BfsState :=
    { depthMap := [(rootId, 0)], orderMap := [(rootId, 0)],
      visited := [rootId], queue := [rootId], counter := 1 }
  let stF := placementLoop tree.people st0
  let depthMap := tree.people.foldl
    (fun dm kv => if mhas dm kv.1 then dm else mset dm kv.1 0) stF.depthMap
  let orderAcc := tree.people.foldl
    (fun oc kv => if mhas oc.1 kv.1 then oc else (mset oc.1 kv.1 oc.2, oc.2 + 1))
    (stF.orderMap, stF.counter)
  (depthMap, orderAcc.1)

/-- One step of grouping the depth map into rows: a JavaScript Map keyed
by depth, pushing onto an existing group's list in place or appending a
new group. -/
def addToLevelGroups : List (Int × List String) → Int → String → List (Int × List String)
  | [], depth, id => [(depth, [id])]
  | g :: gs, depth, id =>
    if g.1 = depth then (g.1, g.2 ++ [id]) :: gs else g :: addToLevelGroups gs depth id

/-- The `levelGroups` Map of `computeTreeLayout`: every (id, depth) entry
of the depth map, grouped by depth in depth-first-seen order. -/
def levelGroupsOf (depthMap : List (String × Int)) : List (Int × List String) :=
  depthMap.foldl (fun groups kv => addToLevelGroups groups kv.2 kv.1) []

/-- Stable insertion used by `sortByLe`: the new element goes after every
existing element strictly smaller than it. -/
def insertByLe {α : Type} (le : α → α → Bool) (x : α) : List α → List α
  | [] => [x]
  | y :: ys => if le y x && !(le x y) then y :: insertByLe le x ys else x :: y :: ys

/-- A stable ascending sort modelling `Array.prototype.sort` (the layout
engine only sorts by keys that are pairwise distinct, for which every
comparison sort returns the same list). -/
def sortByLe {α : Type} (le : α → α → Bool) (l : List α) : List α :=
  l.foldr (insertByLe le) []

/-- The accumulator of the in-row partner-adjacency pass: the final
left-to-right sequence and the set of already-placed ids. -/
structure AdjState where
  ordered : List String
  taken : List String
deriving DecidableEq, Repr

/-- One step of the partner-adjacency pass (`ids.forEach` inside
`computeTreeLayout`): place the id unless already placed, then place all
its not-yet-placed spouses assigned to the same depth.  Note that, as in
the source, the spouse list is filtered against the `taken` set as it
stands before any of this id's spouses are placed (the `.filter` runs to
completion before the `.forEach` that places them). -/
def pullSpouses (tree : TreeData) (depthMap : List (String × Int)) (level : Int)
    (st : AdjState) (id : String) : AdjState :=
  if id ∈ st.taken then st
  else
    let st1 : AdjState := { ordered := st.ordered ++ [id], taken := st.taken ++ [id] }
    match mget tree.people id with
    | none => st1
    | some person =>
      let partners := (person.spouses.map (fun sp => mget tree.people sp.spouseId)).filterMap
        (fun partnerOpt =>
          match partnerOpt with
          | none => none
          | some partner =>
            if partner.id ∉ st1.taken ∧ (mget depthMap partner.id).getD 0 = level
            then some partner else none)
      partners.foldl
        (fun acc partner =>
          { ordered := acc.ordered ++ [partner.id], taken := acc.taken ++ [partner.id] })
        st1

/-- The accumulator of one row's horizontal packing. -/
structure RowAccum where
  personNodes : List PersonLayoutNode
  positionMap : List (String × PersonLayoutNode)
  currentX : JsNum
  levelMaxHeight : JsNum
deriving DecidableEq, Repr

/-- The accumulator of the row-by-row placement. -/
structure RowState where
  personNodes : List PersonLayoutNode
  positionMap : List (String × PersonLayoutNode)
  currentY : JsNum
  maxRowWidth : JsNum
deriving DecidableEq, Repr

/-- Emission of one id of a row (`ordered.forEach` inside
`computeTreeLayout`): skip ids with no person record, otherwise place a
node at the running x offset and advance it. -/
def emitRowNode (tree : TreeData) (sizeMap : List (String × (Nat × Nat))) (rowY : JsNum)
    (acc : RowAccum) (id : String) : RowAccum :=
  match mget tree.people id with
  | none => acc
  | some person =>
    let size := (mget sizeMap id).getD (MIN_WIDTH, BASE_HEIGHT)
    let node : PersonLayoutNode :=
      { person := person, x := acc.currentX, y := rowY,
        width := jofNat size.1, height := jofNat size.2 }
    { personNodes := acc.personNodes ++ [node]
      positionMap := mset acc.positionMap id node
      currentX := jadd acc.currentX (jadd (jofNat size.1) HORIZONTAL_GAP)
      levelMaxHeight := jmaxOf acc.levelMaxHeight (jofNat size.2) }

/-- Processing of one row (`sortedLevels.forEach` inside
`computeTreeLayout`): sort the row's members by visitation order, run the
partner-adjacency pass, pack the resulting sequence left to right, then
update the canvas running measures. -/
def processLevel (tree : TreeData) (depthMap : List (String × Int))
    (orderMap : List (String × Nat)) (sizeMap : List (String × (Nat × Nat)))
    (st : RowState) (grp : Int × List String) : RowState :=
  let ids := sortByLe (fun a b => (mget orderMap a).getD 0 ≤ (mget orderMap b).getD 0) grp.2
  let adj := ids.foldl (pullSpouses tree depthMap grp.1) { ordered := [], taken := [] }
  let acc := adj.ordered.foldl (emitRowNode tree sizeMap st.currentY)
    { personNodes := st.personNodes, positionMap := st.positionMap,
      currentX := CANVAS_PADDING, levelMaxHeight := jofNat 0 }
  { personNodes := acc.personNodes
    positionMap := acc.positionMap
    currentY := jadd st.currentY (jadd acc.levelMaxHeight VERTICAL_GAP)
    maxRowWidth := jmaxOf st.maxRowWidth acc.currentX }

/-- `findUnionChildren` from `layout.ts`: the ids of every person whose
parent list contains both partner ids. -/
def findUnionChildren (tree : TreeData) (parentAId parentBId : String) : List String :=
  ((tree.people.map (fun kv => kv.2)).filter
    (fun person => parentAId ∈ person.parents ∧ parentBId ∈ person.parents)).map
    (fun person => person.id)

/-- The center point of a placed person node. -/
def nodeCenter (node : PersonLayoutNode) : JsNum × JsNum :=
  (jadd node.x (jhalf node.width), jadd node.y (jhalf node.height))

/-- The union-to-child edges of one processed union: one edge from the
bottom of the union marker to the top center of each placed child. -/
def unionChildEdgeList (positionMap : List (String × PersonLayoutNode)) (unionId : String)
    (unionCenter : JsNum × JsNum) (children : List String) : List LayoutEdge :=
  children.filterMap (fun childId =>
    match mget positionMap childId with
    | none => none
    | some childNode => some
      { id := unionId ++ "-child-" ++ childId
        src := (unionCenter.1, jadd unionCenter.2 (jhalf UNION_NODE_SIZE))
        dst := (jadd childNode.x (jhalf childNode.width), childNode.y) })

/-- The `unionChildLinks` entries of one processed union: for each placed
child, the `partner-child` keys of both partners. -/
def unionChildLinkAdds (positionMap : List (String × PersonLayoutNode))
    (partners : String × String) (children : List String) : List String :=
  children.flatMap (fun childId =>
    match mget positionMap childId with
    | none => []
    | some _ => [partners.1 ++ "-" ++ childId, partners.2 ++ "-" ++ childId])

/-- The accumulator of the union synthesis pass. -/
structure UnionPassState where
  unionNodes : List UnionLayoutNode
  edges : List LayoutEdge
  processedUnions : List String
  unionChildLinks : List String
deriving DecidableEq, Repr

/-- Processing of one Partnership entry in the union pass: skip already
processed union ids, missing partners and missing positions; otherwise
emit the union marker at the midpoint of the two partner centers, one
edge from each partner center to the marker center, and one edge from
the marker to each placed child of the union. -/
def processSpouseEntry (tree : TreeData) (positionMap : List (String × PersonLayoutNode))
    (person : Person) (st : UnionPassState) (spouse : Partnership) : UnionPassState :=
  if spouse.unionId ∈ st.processedUnions then st
  else
    match mget tree.people spouse.spouseId with
    | none => st
    | some partner =>
      match mget positionMap person.id, mget positionMap partner.id with
      | some personNode, some partnerNode =>
        let unionCenter : JsNum × JsNum :=
          (jhalf (jadd (nodeCenter personNode).1 (nodeCenter partnerNode).1),
           jhalf (jadd (nodeCenter personNode).2 (nodeCenter partnerNode).2))
        let partners := (person.id, partner.id)
        let children := findUnionChildren tree person.id partner.id
        let unionNode : UnionLayoutNode :=
          { id := spouse.unionId, partners := partners,
            x := jsub unionCenter.1 (jhalf UNION_NODE_SIZE),
            y := jsub unionCenter.2 (jhalf UNION_NODE_SIZE),
            children := children }
        let partnerEdges : List LayoutEdge :=
          [ { id := spouse.unionId ++ "-partner-0",
              src := nodeCenter personNode, dst := unionCenter },
            { id := spouse.unionId ++ "-partner-1",
              src := nodeCenter partnerNode, dst := unionCenter } ]
        { unionNodes := st.unionNodes ++ [unionNode]
          edges := st.edges ++ partnerEdges
            ++ unionChildEdgeList positionMap spouse.unionId unionCenter children
          processedUnions := st.processedUnions ++ [spouse.unionId]
          unionChildLinks := st.unionChildLinks ++ unionChildLinkAdds positionMap partners children }
      | _, _ => st

/-- The union synthesis pass of `computeTreeLayout`: every person's
Partnership entries in record order. -/
def unionPass (tree : TreeData) (positionMap : List (String × PersonLayoutNode)) :
    UnionPassState :=
  (tree.people.map (fun kv => kv.2)).foldl
    (fun st person => person.spouses.foldl (processSpouseEntry tree positionMap person) st)
    { unionNodes := [], edges := [], processedUnions := [], unionChildLinks := [] }

/-- The candidate direct edge of one parent/child pair: emitted unless
the pair is covered by a union edge or the child has no position. -/
def directEdgeFor (positionMap : List (String × PersonLayoutNode)) (links : List String)
    (parent : Person) (parentNode : PersonLayoutNode) (childId : String) : Option LayoutEdge :=
  if parent.id ++ "-" ++ childId ∈ links then none
  else
    match mget positionMap childId with
    | none => none
    | some childNode => some
      { id := "direct-" ++ parent.id ++ "-" ++ childId
        src := (jadd parentNode.x (jhalf parentNode.width), jadd parentNode.y parentNode.height)
        dst := (jadd childNode.x (jhalf childNode.width), childNode.y) }

/-- The direct edges contributed by one parent: none when the parent has
no position, else one candidate per child id. -/
def directEdgesForParent (positionMap : List (String × PersonLayoutNode)) (links : List String)
    (parent : Person) : List LayoutEdge :=
  match mget positionMap parent.id with
  | none => []
  | some parentNode => parent.children.filterMap (directEdgeFor positionMap links parent parentNode)

/-- The direct parent-to-child edge pass of `computeTreeLayout`. -/
def directPass (tree : TreeData) (positionMap : List (String × PersonLayoutNode))
    (links : List String) : List LayoutEdge :=
  (tree.people.map (fun kv => kv.2)).flatMap (directEdgesForParent positionMap links)

/-- The `rootId` of `computeTreeLayout`: the root pointer if set (`??` is
nullish coalescing, so an empty-string root is kept), else the id field
of the first person value; only consulted on non-empty graphs. -/
def layoutRootId (tree : TreeData) : String :=
  match tree.rootPersonId with
  | some r => r
  | none =>
    match tree.people.head? with
    | some kv => kv.2.id
    | none => ""

/-- The size map of `computeTreeLayout`, keyed by each person value's id
field. -/
def layoutSizeMap (tree : TreeData) : List (String × (Nat × Nat)) :=
  tree.people.foldl (fun sm kv => mset sm kv.2.id (measurePersonNode kv.2)) []

/-- The depth and order maps of the layout of a tree. -/
def layoutMaps (tree : TreeData) : (List (String × Int)) × (List (String × Nat)) :=
  computePlacementMaps tree (layoutRootId tree)

/-- The depth-sorted row groups of the layout of a tree. -/
def layoutSortedLevels (tree : TreeData) : List (Int × List String) :=
  sortByLe (fun a b => a.1 ≤ b.1) (levelGroupsOf (layoutMaps tree).1)

/-- The row placement phase of the layout of a tree. -/
def layoutRows (tree : TreeData) : RowState :=
  (layoutSortedLevels tree).foldl
    (processLevel tree (layoutMaps tree).1 (layoutMaps tree).2 (layoutSizeMap tree))
    { personNodes := [], positionMap := [], currentY := CANVAS_PADDING, maxRowWidth := jofNat 0 }

/-- The position map of the layout of a tree. -/
def layoutPositionMap (tree : TreeData) : List (String × PersonLayoutNode) :=
  (layoutRows tree).positionMap

/-- The union pass of the layout of a tree. -/
def layoutUnions (tree : TreeData) : UnionPassState :=
  unionPass tree (layoutPositionMap tree)

/-- The direct-edge pass of the layout of a tree. -/
def layoutDirectEdges (tree : TreeData) : List LayoutEdge :=
  directPass tree (layoutPositionMap tree) (layoutUnions tree).unionChildLinks

/-- `computeTreeLayout` from `layout.ts`. -/
def computeTreeLayout (tree : TreeData) : TreeLayout :=
  if tree.people.isEmpty then
    { personNodes := [], unionNodes := [], edges := [], width := jofNat 0, height := jofNat 0 }
  else
    let rows := layoutRows tree
    let up := layoutUnions tree
    let maxX1 := rows.personNodes.foldl (fun m n => jmaxOf m (jadd n.x n.width)) (jofNat 0)
    let maxY1 := rows.personNodes.foldl (fun m n => jmaxOf m (jadd n.y n.height)) (jofNat 0)
    let maxX := up.unionNodes.foldl (fun m n => jmaxOf m (jadd n.x UNION_NODE_SIZE)) maxX1
    let maxY := up.unionNodes.foldl (fun m n => jmaxOf m (jadd n.y UNION_NODE_SIZE)) maxY1
    { personNodes := rows.personNodes
      unionNodes := up.unionNodes
      edges := up.edges ++ layoutDirectEdges tree
      width := jmaxOf (jadd rows.maxRowWidth CANVAS_PADDING) (jadd maxX CANVAS_PADDING)
      height := jadd maxY CANVAS_PADDING }

/-- One children-edge of the raw id graph: `x`'s person record exists
and lists `y` among its children.  (Ids in children lists need not
themselves resolve to persons; the final node of a path may dangle.) -/
def childStep (people : List (String × Person)) (x y : String) : Prop :=
  ∃ p, mget people x = some p ∧ y ∈ p.children

/-- Reachability of `target` from a node along children edges whose
intermediate sources avoid the `visited` set: either the node is the
target, or it steps (from an unvisited node) to a node from which the
target is avoid-reachable. -/
inductive AvoidReach (people : List (String × Person)) (visited : List String)
    (target : String) : String → Prop
  | refl : AvoidReach people visited target target
  | step {a b : String} : a ∉ visited → childStep people a b →
      AvoidReach people visited target b → AvoidReach people visited target a

/-!
## Concrete snapshots for witnesses and counterexamples
-/

/-- A person record with the given relations and neutral remaining fields. -/
def mkPerson (id : String) (parents : List String) (spouses : List Partnership)
    (children : List String) : Person :=
  { id := id, firstName := "First", lastName := "Last", birthDate := none, birthPlace := "",
    deathDate := none, deathPlace := none, gender := "", notes := "",
    parents := parents, spouses := spouses, children := children }

/-- A snapshot holding one person `x` with no relations. -/
def selfLinkTree : TreeData :=
  { rootPersonId := none, people := [("x", mkPerson "x" [] [] [])] }

/-- A snapshot holding one person whose sole Partnership references an
absent spouse id. -/
def soleSpouseTree : TreeData :=
  { rootPersonId := none, people := [("p", mkPerson "p" [] [⟨"gone", none, "u"⟩] [])] }

/-- The record of person `a` in `marriedPairTree`. -/
def marriedA : Person := mkPerson "a" [] [⟨"b", none, "u1"⟩] []

/-- The record of person `a` in `linkUnsanitizedTree`. -/
def linkSourceA : Person := mkPerson "a" ["z", "z"] [] []

/-- A snapshot holding persons `a` (with a duplicated parents list) and
`b`. -/
def linkUnsanitizedTree : TreeData :=
  { rootPersonId := none, people := [("a", linkSourceA), ("b", mkPerson "b" [] [] [])] }

/-- The record that `LINK_PARENT_CHILD("a", "b")` writes for `a` in
`linkUnsanitizedTree`: the duplicated parents list is left as is. -/
def linkWrittenA : Person := mkPerson "a" ["z", "z"] [] ["b"]

/-- A snapshot whose root is the empty-string id. -/
def emptyRootTree : TreeData :=
  { rootPersonId := some "",
    people := [("", mkPerson "" [] [] []), ("a", mkPerson "a" [] [] [])] }

/-- A snapshot where person `a` already holds two Partnership entries
with the same union id `u` (possible in externally supplied data, which
the Store accepts verbatim through `SET_TREE`). -/
def dupUnionTree : TreeData :=
  { rootPersonId := none,
    people := [("a", mkPerson "a" [] [⟨"z", none, "u"⟩, ⟨"w", none, "u"⟩] []),
               ("b", mkPerson "b" [] [] [])] }

/-- The record of person `a` in `linkSpouseWitnessTree`. -/
def spouseWitnessA : Person := mkPerson "a" [] [] []

/-- A snapshot with two unrelated persons `a` and `b`. -/
def linkSpouseWitnessTree : TreeData :=
  { rootPersonId := none,
    people := [("a", spouseWitnessA), ("b", mkPerson "b" [] [] [])] }

/-- The record of person `c` in `reassignWitnessTree`. -/
def reassignWitnessC : Person := mkPerson "c" ["p0"] [] []

/-- A snapshot for the reassignment scenario: child `c` with former
parent `p0`, and `p1` the only existing id among the new parents. -/
def reassignWitnessTree : TreeData :=
  { rootPersonId := some "p0",
    people := [("p0", mkPerson "p0" [] [] ["c"]), ("p1", mkPerson "p1" [] [] []),
               ("c", reassignWitnessC)] }

/-- The record of person `x` in `deleteWitnessTree`. -/
def deleteWitnessX : Person := mkPerson "x" ["r"] [⟨"r", none, "u"⟩] []

/-- A snapshot with root `r` married to `x`, their child; used to witness
the deletion cascade. -/
def deleteWitnessTree : TreeData :=
  { rootPersonId := some "r",
    people := [("r", mkPerson "r" [] [⟨"x", none, "u"⟩] ["x"]), ("x", deleteWitnessX)] }

/-- A snapshot holding a married pair `a`, `b` sharing union `u1`. -/
def marriedPairTree : TreeData :=
  { rootPersonId := some "a",
    people := [("a", marriedA), ("b", mkPerson "b" [] [⟨"a", none, "u1"⟩] [])] }


/-!
## Definitions supporting the layout phase specifications
-/

/-- The `unionCenter` midpoint computed by `processSpouseEntry` for two
placed partner nodes. -/
def ucOf (x y : PersonLayoutNode) : JsNum × JsNum :=
  (jhalf (jadd (nodeCenter x).1 (nodeCenter y).1),
   jhalf (jadd (nodeCenter x).2 (nodeCenter y).2))

/-- Whether an edge is one of the two partner edges of union `u1`. -/
def isU1PartnerEdge (e : LayoutEdge) : Bool :=
  e.id = "u1-partner-0" ∨ e.id = "u1-partner-1"

/-- The married-couple scenario of the union-pass specification: `a` and
`b` reference each other through their sole Partnership entry with union
id `u1`, `c` is their child, keys are unique, every value's id field
matches its key, and no other person holds a Partnership with union id
`u1`. -/
abbrev C9Scenario (tree : TreeData) (a b c : String) (PA PB PC : Person)
    (da db : Option String) : Prop :=
  (tree.people.map Prod.fst).Nodup ∧
  (∀ kv ∈ tree.people, kv.2.id = kv.1) ∧
  (a, PA) ∈ tree.people ∧ (b, PB) ∈ tree.people ∧ (c, PC) ∈ tree.people ∧
  PA.spouses = [⟨b, da, "u1"⟩] ∧ PB.spouses = [⟨a, db, "u1"⟩] ∧
  PC.parents = [a, b] ∧
  a ≠ b ∧ a ≠ c ∧ b ≠ c ∧
  (∀ kv ∈ tree.people, ∀ sp ∈ kv.2.spouses, sp.unionId = "u1" → kv.1 = a ∨ kv.1 = b)

/-- What the union pass owes the `u1` couple once the union has been
processed: the node list holds exactly one `u1` union marker, offset
half the marker size up-left of the common center point, which is the
midpoint of the two partner centers; the edge list holds exactly the two
partner edges ending at that midpoint and all the union's child edges;
and both partner-child link keys are recorded. -/
def C9Post (tree : TreeData) (pm : List (String × PersonLayoutNode)) (a b c : String)
    (na nb : PersonLayoutNode) (nodes : List UnionLayoutNode) (edges : List LayoutEdge)
    (links : List String) : Prop :=
  ∃ u uc,
    nodes.filter (fun u2 => u2.id = "u1") = [u] ∧ u.id = "u1" ∧
    ((u.partners = (a, b) ∧ uc = ucOf na nb ∧
        edges.filter isU1PartnerEdge =
          [⟨"u1-partner-0", nodeCenter na, uc⟩, ⟨"u1-partner-1", nodeCenter nb, uc⟩]) ∨
      (u.partners = (b, a) ∧ uc = ucOf nb na ∧
        edges.filter isU1PartnerEdge =
          [⟨"u1-partner-0", nodeCenter nb, uc⟩, ⟨"u1-partner-1", nodeCenter na, uc⟩])) ∧
    u.x = jsub uc.1 (jhalf UNION_NODE_SIZE) ∧
    u.y = jsub uc.2 (jhalf UNION_NODE_SIZE) ∧
    u.children = findUnionChildren tree a b ∧
    (∀ e ∈ unionChildEdgeList pm "u1" uc u.children, e ∈ edges) ∧
    a ++ "-" ++ c ∈ links ∧ b ++ "-" ++ c ∈ links

/-- The running invariant of the union pass in the married-couple
scenario: either union `u1` is still unprocessed and no `u1` artifacts
exist, or it has been processed and the full `u1` package is present. -/
def C9Inv (tree : TreeData) (pm : List (String × PersonLayoutNode)) (a b c : String)
    (na nb : PersonLayoutNode) (st : UnionPassState) : Prop :=
  ("u1" ∉ st.processedUnions ∧ st.edges.filter isU1PartnerEdge = [] ∧
      ∀ u ∈ st.unionNodes, u.id ≠ "u1") ∨
  ("u1" ∈ st.processedUnions ∧
      C9Post tree pm a b c na nb st.unionNodes st.edges st.unionChildLinks)

/-- A snapshot where `d` and `e` carry union id `u1` ahead of the
married couple `a`, `b` whose child is `c`. -/
def foreignUnionTree : TreeData :=
  { rootPersonId := some "a",
    people := [("d", mkPerson "d" [] [⟨"e", none, "u1"⟩] []),
               ("e", mkPerson "e" [] [⟨"d", none, "u1"⟩] []),
               ("a", mkPerson "a" [] [⟨"b", none, "u1"⟩] ["c"]),
               ("b", mkPerson "b" [] [⟨"a", none, "u1"⟩] ["c"]),
               ("c", mkPerson "c" ["a", "b"] [] [])] }

/-- A snapshot with `a` and `b` married under union `u1` and their
child `c`. -/
def marriedChildTree : TreeData :=
  { rootPersonId := some "a",
    people := [("a", mkPerson "a" [] [⟨"b", none, "u1"⟩] ["c"]),
               ("b", mkPerson "b" [] [⟨"a", none, "u1"⟩] ["c"]),
               ("c", mkPerson "c" ["a", "b"] [] [])] }

/-- The final state of the placement traversal of `computeTreeLayout`. -/
def layoutBfs (tree : TreeData) : BfsState :=
  placementLoop tree.people
    { depthMap := [(layoutRootId tree, 0)], orderMap := [(layoutRootId tree, 0)],
      visited := [layoutRootId tree], queue := [layoutRootId tree], counter := 1 }

/-- The well-formedness hypotheses of the person-node specification:
unique keys, id fields matching keys, and no duplicate spouse ids within
one person's Partnership list. -/
abbrev C10Scenario (tree : TreeData) : Prop :=
  (tree.people.map Prod.fst).Nodup ∧
  (∀ kv ∈ tree.people, kv.2.id = kv.1) ∧
  (∀ kv ∈ tree.people, (kv.2.spouses.map (fun sp => sp.spouseId)).Nodup)

/-- The invariant of the placement traversal: unique depth and order
keys, the order map keyed exactly by the visited set, all recorded
orders below the counter, and every id with a depth already visited. -/
def BfsInv (st : BfsState) : Prop :=
  (st.depthMap.map Prod.fst).Nodup ∧
  (st.orderMap.map Prod.fst).Nodup ∧
  (∀ k, mhas st.orderMap k = true ↔ k ∈ st.visited) ∧
  (∀ kd ∈ st.orderMap, kd.2 < st.counter) ∧
  (∀ k, mhas st.depthMap k = true → k ∈ st.visited)

/-- The concatenation of the member lists of a level-group list. -/
def flattenGroups (gs : List (Int × List String)) : List String :=
  gs.flatMap (fun g => g.2)

/-- The invariant of one row's partner-adjacency pass: the taken set
mirrors the ordered sequence, the sequence has no duplicates, and every
member is assigned the row's depth. -/
def AdjInv (dm : List (String × Int)) (lv : Int) (st : AdjState) : Prop :=
  st.taken = st.ordered ∧ st.ordered.Nodup ∧ ∀ x ∈ st.ordered, (x, lv) ∈ dm

/-- The left-to-right sequence of one placed row of the layout. -/
def rowOrderOf (tree : TreeData) (grp : Int × List String) : List String :=
  ((sortByLe (fun a b =>
      (mget (layoutMaps tree).2 a).getD 0 ≤ (mget (layoutMaps tree).2 b).getD 0) grp.2).foldl
    (pullSpouses tree (layoutMaps tree).1 grp.1) { ordered := [], taken := [] }).ordered

/-- The concatenation of all placed row sequences of the layout. -/
def bigRowOrder (tree : TreeData) : List String :=
  (layoutSortedLevels tree).flatMap (fun grp => rowOrderOf tree grp)

/-- A snapshot where `a` and `b` hold two Partnership entries for each
other, under union ids `u1` and `u2`. -/
def dupSpouseTree : TreeData :=
  { rootPersonId := some "a",
    people := [("a", mkPerson "a" [] [⟨"b", none, "u1"⟩, ⟨"b", none, "u2"⟩] []),
               ("b", mkPerson "b" [] [⟨"a", none, "u1"⟩, ⟨"a", none, "u2"⟩] [])] }

/-- A snapshot whose person `z` is unreachable from the root `r`. -/
def disconnectedTree : TreeData :=
  { rootPersonId := some "r",
    people := [("r", mkPerson "r" [] [] []), ("z", mkPerson "z" [] [] [])] }

/-!
## Supporting lemmas
-/

theorem mget_cons {α : Type} (kv : String × α) (rest : List (String × α)) (k : String) :
    mget (kv :: rest) k = if kv.1 = k then some kv.2 else mget rest k := by
  unfold mget
  by_cases h : kv.1 = k
  · rw [List.find?_cons_of_pos _ (by simp [h]), if_pos h]
    rfl
  · rw [List.find?_cons_of_neg _ (by simp [h]), if_neg h]

theorem mget_eq_none_iff {α : Type} (m : List (String × α)) (k : String) :
    mget m k = none ↔ ∀ kv ∈ m, kv.1 ≠ k := by
  unfold mget
  constructor
  · intro h kv hkv
    cases hf : m.find? (fun kv => kv.1 = k) with
    | none => exact fun hc => by simpa [hc] using List.find?_eq_none.mp hf kv hkv
    | some v => rw [hf] at h; simp at h
  · intro h
    have : m.find? (fun kv => kv.1 = k) = none :=
      List.find?_eq_none.mpr (fun kv hkv => by simpa using h kv hkv)
    simp [this]

theorem mhas_eq_true_exists {α : Type} {m : List (String × α)} {k : String}
    (h : mhas m k = true) : ∃ v, mget m k = some v := by
  unfold mhas at h
  unfold mget
  cases hf : m.find? (fun kv => kv.1 = k) with
  | none => rw [hf] at h; simp at h
  | some v => exact ⟨v.2, rfl⟩

theorem mget_eq_some_mem {α : Type} {m : List (String × α)} {k : String} {v : α}
    (h : mget m k = some v) : (k, v) ∈ m := by
  unfold mget at h
  cases hf : m.find? (fun kv => kv.1 = k) with
  | none => rw [hf] at h; simp at h
  | some kv =>
    rw [hf] at h
    have hmem := List.mem_of_find?_eq_some hf
    have hpred := List.find?_some hf
    simp at hpred h
    rw [← h, ← hpred]
    exact hmem

theorem mget_mset_self {α : Type} (m : List (String × α)) (k : String) (v : α) :
    mget (mset m k v) k = some v := by
  induction m with
  | nil => simp [mset, mget]
  | cons kv rest ih =>
    by_cases h : kv.1 = k
    · simp [mset, h, mget]
    · simp [mset, h, mget, List.find?]
      simpa [mget] using ih

theorem mget_mset_ne {α : Type} (m : List (String × α)) (k k' : String) (v : α)
    (h : k' ≠ k) : mget (mset m k v) k' = mget m k' := by
  induction m with
  | nil => simp [mset, mget, List.find?, Ne.symm h]
  | cons kv rest ih =>
    by_cases hk : kv.1 = k
    · rw [mset, if_pos hk, mget_cons, mget_cons, if_neg (by simpa using Ne.symm h),
        if_neg (by rw [hk]; exact Ne.symm h)]
    · rw [mset, if_neg hk, mget_cons, mget_cons]
      by_cases hk' : kv.1 = k'
      · rw [if_pos hk', if_pos hk']
      · rw [if_neg hk', if_neg hk', ih]

theorem mem_mset {α : Type} {m : List (String × α)} {k : String} {v : α} {kv : String × α}
    (h : kv ∈ mset m k v) : kv ∈ m ∨ kv = (k, v) := by
  induction m with
  | nil => simpa [mset] using h
  | cons hd rest ih =>
    by_cases hk : hd.1 = k
    · simp [mset, hk] at h
      rcases h with h | h
      · exact Or.inr (by simp [h])
      · exact Or.inl (List.mem_cons_of_mem _ h)
    · simp [mset, hk] at h
      rcases h with h | h
      · exact Or.inl (by simp [h])
      · rcases ih h with h' | h'
        · exact Or.inl (List.mem_cons_of_mem _ h')
        · exact Or.inr h'

theorem keys_mset_of_mhas {α : Type} (m : List (String × α)) (k : String) (v : α)
    (h : mhas m k = true) : (mset m k v).map Prod.fst = m.map Prod.fst := by
  induction m with
  | nil => simp [mhas, mget, List.find?] at h
  | cons hd rest ih =>
    by_cases hk : hd.1 = k
    · simp [mset, hk]
    · have : mhas rest k = true := by
        simpa [mhas, List.find?_cons, hk] using h
      simp [mset, hk, ih this]

theorem keys_mset_of_not_mhas {α : Type} (m : List (String × α)) (k : String) (v : α)
    (h : mhas m k = false) : (mset m k v).map Prod.fst = m.map Prod.fst ++ [k] := by
  induction m with
  | nil => simp [mset]
  | cons hd rest ih =>
    by_cases hk : hd.1 = k
    · simp [mhas, List.find?_cons, hk] at h
    · have : mhas rest k = false := by
        simpa [mhas, List.find?_cons, hk] using h
      simp [mset, hk, ih this]

theorem mhas_iff_mem_keys {α : Type} (m : List (String × α)) (k : String) :
    mhas m k = true ↔ k ∈ m.map Prod.fst := by
  unfold mhas
  constructor
  · intro h
    cases hf : m.find? (fun kv => kv.1 = k) with
    | none => rw [hf] at h; simp at h
    | some kv =>
      have hmem := List.mem_of_find?_eq_some hf
      have hpred := List.find?_some hf
      simp at hpred
      exact List.mem_map.mpr ⟨kv, hmem, hpred⟩
  · intro h
    obtain ⟨kv, hkv, hfst⟩ := List.mem_map.mp h
    cases hf : m.find? (fun kv => kv.1 = k) with
    | none =>
      have := List.find?_eq_none.mp hf kv hkv
      simp [hfst] at this
    | some v => simp

theorem mget_of_mem_nodup {α : Type} {m : List (String × α)} {kv : String × α}
    (hnd : (m.map Prod.fst).Nodup) (h : kv ∈ m) : mget m kv.1 = some kv.2 := by
  induction m with
  | nil => simp at h
  | cons hd rest ih =>
    simp only [List.map_cons, List.nodup_cons] at hnd
    rcases List.mem_cons.mp h with h | h
    · simp [h, mget, List.find?]
    · have hne : hd.1 ≠ kv.1 := by
        intro hc
        exact hnd.1 (hc ▸ List.mem_map.mpr ⟨kv, h, rfl⟩)
      simp [mget, List.find?, hne]
      simpa [mget] using ih hnd.2 h

theorem mem_ensureUniqueAux {x : String} :
    ∀ (l : List String) (seen : List String),
      x ∈ ensureUniqueAux seen l ↔ x ∈ l ∧ x ∉ seen := by
  intro l
  induction l with
  | nil => intro seen; simp [ensureUniqueAux]
  | cons a as ih =>
    intro seen
    by_cases ha : a ∈ seen
    · rw [ensureUniqueAux, if_pos ha, ih]
      constructor
      · rintro ⟨hx, hs⟩
        exact ⟨List.mem_cons_of_mem _ hx, hs⟩
      · rintro ⟨hx, hs⟩
        rcases List.mem_cons.mp hx with rfl | hx
        · exact absurd ha hs
        · exact ⟨hx, hs⟩
    · rw [ensureUniqueAux, if_neg ha]
      by_cases hxa : x = a
      · subst hxa
        simp [ha]
      · simp only [List.mem_cons, hxa, false_or]
        rw [ih]
        simp [hxa, Ne.symm hxa]

theorem mem_ensureUnique {x : String} {l : List String} :
    x ∈ ensureUnique l ↔ x ∈ l := by
  unfold ensureUnique
  rw [mem_ensureUniqueAux]
  simp

theorem nodup_ensureUniqueAux :
    ∀ (l : List String) (seen : List String), (ensureUniqueAux seen l).Nodup := by
  intro l
  induction l with
  | nil => intro seen; simp [ensureUniqueAux]
  | cons a as ih =>
    intro seen
    by_cases ha : a ∈ seen
    · rw [ensureUniqueAux, if_pos ha]; exact ih seen
    · rw [ensureUniqueAux, if_neg ha]
      refine List.nodup_cons.mpr ⟨?_, ih (a :: seen)⟩
      intro hmem
      exact ((mem_ensureUniqueAux as (a :: seen)).mp hmem).2 (List.mem_cons_self a seen)

theorem nodup_ensureUnique (l : List String) : (ensureUnique l).Nodup :=
  nodup_ensureUniqueAux l []

theorem ensureUniqueAux_eq_self :
    ∀ (l : List String) (seen : List String), l.Nodup → (∀ x ∈ l, x ∉ seen) →
      ensureUniqueAux seen l = l := by
  intro l
  induction l with
  | nil => intro seen _ _; rfl
  | cons a as ih =>
    intro seen hnd hdis
    have ha : a ∉ seen := hdis a (List.mem_cons_self a as)
    rw [ensureUniqueAux, if_neg ha]
    congr 1
    refine ih (a :: seen) (List.nodup_cons.mp hnd).2 ?_
    intro x hx
    simp only [List.mem_cons, not_or]
    exact ⟨fun hc => (List.nodup_cons.mp hnd).1 (hc ▸ hx), hdis x (List.mem_cons_of_mem _ hx)⟩

theorem ensureUnique_idem (l : List String) :
    ensureUnique (ensureUnique l) = ensureUnique l := by
  unfold ensureUnique
  exact ensureUniqueAux_eq_self _ [] (nodup_ensureUnique l) (by simp)

theorem mem_partnershipMapSet {acc : List Partnership} {e q : Partnership}
    (h : q ∈ partnershipMapSet acc e) : q ∈ acc ∨ q = e := by
  unfold partnershipMapSet at h
  cases hf : acc.findIdx? (fun item => item.unionId = e.unionId) with
  | some i =>
    rw [hf] at h
    exact List.mem_or_eq_of_mem_set h
  | none =>
    rw [hf] at h
    rcases List.mem_append.mp h with h | h
    · exact Or.inl h
    · exact Or.inr (by simpa using h)

theorem mem_dedupePartnerships_foldl {q : Partnership} :
    ∀ (l acc : List Partnership), q ∈ l.foldl partnershipMapSet acc → q ∈ acc ∨ q ∈ l := by
  intro l
  induction l with
  | nil => intro acc h; exact Or.inl (by simpa using h)
  | cons e es ih =>
    intro acc h
    rcases ih (partnershipMapSet acc e) (by simpa using h) with h' | h'
    · rcases mem_partnershipMapSet h' with h'' | h''
      · exact Or.inl h''
      · exact Or.inr (by simp [h''])
    · exact Or.inr (List.mem_cons_of_mem _ h')

theorem mem_dedupePartnerships {q : Partnership} {l : List Partnership}
    (h : q ∈ dedupePartnerships l) : q ∈ l := by
  rcases mem_dedupePartnerships_foldl l [] h with h' | h'
  · simp at h'
  · exact h'

theorem unionIds_partnershipMapSet_found {acc : List Partnership} {e : Partnership} {i : Nat}
    (hf : acc.findIdx? (fun item => item.unionId = e.unionId) = some i) :
    (partnershipMapSet acc e).map Partnership.unionId = acc.map Partnership.unionId := by
  unfold partnershipMapSet
  rw [hf]
  obtain ⟨hi, hpi, _⟩ := List.findIdx?_eq_some_iff_getElem.mp hf
  have hval : acc[i].unionId = e.unionId := by simpa using hpi
  apply List.ext_getElem
  · simp
  · intro n h1 h2
    simp only [List.getElem_map]
    by_cases hn : n = i
    · subst hn
      rw [List.getElem_set_self, hval]
    · rw [List.getElem_set_ne (fun hc => hn hc.symm)]

theorem partnershipMapSet_not_found {acc : List Partnership} {e : Partnership}
    (hf : acc.findIdx? (fun item => item.unionId = e.unionId) = none) :
    partnershipMapSet acc e = acc ++ [e] := by
  unfold partnershipMapSet
  rw [hf]

theorem nodup_unionIds_partnershipMapSet (acc : List Partnership) (e : Partnership)
    (h : (acc.map Partnership.unionId).Nodup) :
    ((partnershipMapSet acc e).map Partnership.unionId).Nodup := by
  cases hf : acc.findIdx? (fun item => item.unionId = e.unionId) with
  | some i => rw [unionIds_partnershipMapSet_found hf]; exact h
  | none =>
    rw [partnershipMapSet_not_found hf]
    rw [List.map_append]
    refine List.Nodup.append h (by simp) ?_
    intro a ha hb
    simp only [List.map_cons, List.map_nil, List.mem_singleton] at hb
    subst hb
    rcases List.mem_map.mp ha with ⟨p, hp, hpu⟩
    have hall := List.findIdx?_eq_none_iff.mp hf p hp
    simp [hpu] at hall

theorem nodup_unionIds_dedupePartnerships_foldl :
    ∀ (l acc : List Partnership), (acc.map Partnership.unionId).Nodup →
      ((l.foldl partnershipMapSet acc).map Partnership.unionId).Nodup := by
  intro l
  induction l with
  | nil => intro acc h; simpa using h
  | cons e es ih =>
    intro acc h
    simp only [List.foldl_cons]
    exact ih _ (nodup_unionIds_partnershipMapSet acc e h)

theorem nodup_unionIds_dedupePartnerships (l : List Partnership) :
    ((dedupePartnerships l).map Partnership.unionId).Nodup :=
  nodup_unionIds_dedupePartnerships_foldl l [] (by simp)

theorem dedupePartnerships_foldl_eq_append :
    ∀ (l acc : List Partnership), ((acc ++ l).map Partnership.unionId).Nodup →
      l.foldl partnershipMapSet acc = acc ++ l := by
  intro l
  induction l with
  | nil => intro acc _; simp
  | cons e es ih =>
    intro acc h
    simp only [List.foldl_cons]
    have hf : acc.findIdx? (fun item => item.unionId = e.unionId) = none := by
      rw [List.findIdx?_eq_none_iff]
      intro p hp
      simp only [decide_eq_false_iff_not]
      intro hc
      have h1 : e.unionId ∈ (acc.map Partnership.unionId) := hc ▸ List.mem_map.mpr ⟨p, hp, rfl⟩
      have h2 : e.unionId ∈ ((e :: es).map Partnership.unionId) := by simp
      have := (List.nodup_append.mp (by simpa [List.map_append] using h)).2.2
      exact this h1 h2
    rw [partnershipMapSet_not_found hf]
    have := ih (acc ++ [e]) (by simpa using h)
    rw [this]
    simp

theorem dedupePartnerships_idem (l : List Partnership) :
    dedupePartnerships (dedupePartnerships l) = dedupePartnerships l := by
  have := dedupePartnerships_foldl_eq_append (dedupePartnerships l) []
    (by simpa using nodup_unionIds_dedupePartnerships l)
  simpa [dedupePartnerships] using this

theorem dedupePartnerships_eq_self {l : List Partnership}
    (h : (l.map Partnership.unionId).Nodup) : dedupePartnerships l = l := by
  have := dedupePartnerships_foldl_eq_append l [] (by simpa using h)
  simpa [dedupePartnerships] using this

theorem dropWhile_self_idem {α : Type} (p : α → Bool) (l : List α) :
    (l.dropWhile p).dropWhile p = l.dropWhile p := by
  induction l with
  | nil => rfl
  | cons a as ih =>
    by_cases h : p a
    · rw [List.dropWhile_cons, if_pos h, ih]
    · rw [List.dropWhile_cons, if_neg h, List.dropWhile_cons, if_neg h]

theorem dropWhile_reverse_dropWhile {α : Type} (p : α → Bool) (l : List α) :
    ((l.dropWhile p).reverse.dropWhile p).reverse.dropWhile p
      = ((l.dropWhile p).reverse.dropWhile p).reverse := by
  set d := l.dropWhile p with hd
  set e := d.reverse.dropWhile p with he
  by_cases hene : e = []
  · simp [hene]
  · have hrne : e.reverse ≠ [] := by simpa using hene
    have hdne : d ≠ [] := by
      intro hc
      rw [hc] at he
      simp at he
      exact hene he
    have hlast : e.getLast hene = d.head hdne := by
      obtain ⟨t, ht⟩ := List.dropWhile_suffix (l := d.reverse) p
      have ht' : t ++ e = d.reverse := by rw [← he] at ht; exact ht
      have h1 : e.getLast hene = (t ++ e).getLast (by simp [hene]) := by
        rw [List.getLast_append]
        simp [hene]
      rw [h1]
      have h2 : (t ++ e).getLast (by simp [hene]) = (d.reverse).getLast (by simp [hdne]) := by
        congr 1
      rw [h2, List.getLast_reverse]
    have hfail : p (e.reverse.head hrne) = false := by
      rw [← List.getLast_eq_head_reverse, hlast]
      have := List.head_dropWhile_not p l hdne
      simpa [← hd] using this
    cases hrv : e.reverse with
    | nil => exact absurd hrv hrne
    | cons y ys =>
      have hy : p y = false := by
        have : e.reverse.head hrne = y := by
          have := congrArg (fun l => List.head? l) hrv
          simpa [List.head?_eq_head, hrne] using this
        rw [← this]
        exact hfail
      rw [List.dropWhile_cons, hy]
      simp

theorem jsTrim_idem (s : String) : jsTrim (jsTrim s) = jsTrim s := by
  unfold jsTrim
  congr 1
  show ((((((s.data.dropWhile jsWhitespace).reverse.dropWhile
      jsWhitespace).reverse).dropWhile jsWhitespace).reverse).dropWhile jsWhitespace).reverse
    = ((s.data.dropWhile jsWhitespace).reverse.dropWhile jsWhitespace).reverse
  rw [dropWhile_reverse_dropWhile jsWhitespace s.data]
  rw [List.reverse_reverse]
  rw [dropWhile_self_idem jsWhitespace ((s.data.dropWhile jsWhitespace).reverse)]

theorem normalizeDateValue_idem (value : Option String) :
    normalizeDateValue (normalizeDateValue value) = normalizeDateValue value := by
  cases value with
  | none => rfl
  | some v =>
    rw [normalizeDateValue]
    by_cases hv : v = ""
    · rw [if_pos hv]; rfl
    · rw [if_neg hv]
      by_cases hl : (jsTrim v).length = 0
      · rw [if_pos hl]; rfl
      · rw [if_neg hl]
        rw [normalizeDateValue]
        have hne : jsTrim v ≠ "" := by
          intro hc
          rw [hc] at hl
          exact hl rfl
        rw [if_neg hne, jsTrim_idem, if_neg hl]

theorem sanitizePerson_idem (p : Person) :
    sanitizePerson (sanitizePerson p) = sanitizePerson p := by
  unfold sanitizePerson
  simp [normalizeDateValue_idem, ensureUnique_idem, dedupePartnerships_idem]

theorem mhas_mset_self {α : Type} (m : List (String × α)) (k : String) (v : α) :
    mhas (mset m k v) k = true := by
  unfold mhas
  have := mget_mset_self m k v
  unfold mget at this
  cases hf : (mset m k v).find? (fun kv => kv.1 = k) with
  | none => rw [hf] at this; simp at this
  | some w => simp

theorem mhas_eq_isSome {α : Type} (m : List (String × α)) (k : String) :
    mhas m k = (mget m k).isSome := by
  unfold mhas mget
  cases m.find? (fun kv => kv.1 = k) <;> rfl

theorem mhas_mset_mono {α : Type} {m : List (String × α)} {k' : String}
    (h : mhas m k' = true) (k : String) (v : α) : mhas (mset m k v) k' = true := by
  by_cases hk : k' = k
  · subst hk
    exact mhas_mset_self m k' v
  · rw [mhas_eq_isSome] at h ⊢
    rw [mget_mset_ne m k k' v hk]
    exact h

theorem mhas_of_mget_eq_some {α : Type} {m : List (String × α)} {k : String} {v : α}
    (h : mget m k = some v) : mhas m k = true := by
  unfold mget at h
  unfold mhas
  cases hf : m.find? (fun kv => kv.1 = k) with
  | none => rw [hf] at h; simp at h
  | some w => simp

theorem mhas_fold_guard_in {α : Type} (f : String → α) :
    ∀ (l : List (String × Person)) (dm : List (String × α)) (k : String),
      (k ∈ l.map Prod.fst ∨ mhas dm k = true) →
      mhas (l.foldl (fun dm kv => if mhas dm kv.1 then dm else mset dm kv.1 (f kv.1)) dm) k
        = true := by
  intro l
  induction l with
  | nil =>
    intro dm k h
    rcases h with h | h
    · simp at h
    · simpa using h
  | cons kv rest ih =>
    intro dm k h
    simp only [List.foldl_cons]
    set dm1 := if mhas dm kv.1 then dm else mset dm kv.1 (f kv.1) with hdm1
    have hmono : ∀ k', mhas dm k' = true → mhas dm1 k' = true := by
      intro k' h'
      rw [hdm1]
      split
      · exact h'
      · exact mhas_mset_mono h' _ _
    rcases h with h | h
    · rw [List.map_cons] at h
      rcases List.mem_cons.mp h with rfl | hmem
      · refine ih dm1 kv.1 (Or.inr ?_)
        rw [hdm1]
        split
        · assumption
        · exact mhas_mset_self _ _ _
      · exact ih dm1 k (Or.inl hmem)
    · exact ih dm1 k (Or.inr (hmono k h))

theorem levelGroups_add_mem_new :
    ∀ (groups : List (Int × List String)) (d : Int) (id : String),
      ∃ g ∈ addToLevelGroups groups d id, g.1 = d ∧ id ∈ g.2 := by
  intro groups
  induction groups with
  | nil => intro d id; exact ⟨(d, [id]), by simp [addToLevelGroups]⟩
  | cons g gs ih =>
    intro d id
    by_cases hd : g.1 = d
    · rw [addToLevelGroups, if_pos hd]
      exact ⟨(g.1, g.2 ++ [id]), List.mem_cons_self _ _, hd, by simp⟩
    · rw [addToLevelGroups, if_neg hd]
      obtain ⟨g2, hg2, hcond⟩ := ih d id
      exact ⟨g2, List.mem_cons_of_mem _ hg2, hcond⟩

theorem levelGroups_add_mem_mono {k : String} {d0 : Int} :
    ∀ (groups : List (Int × List String)) (d : Int) (id : String),
      (∃ g ∈ groups, g.1 = d0 ∧ k ∈ g.2) →
      ∃ g ∈ addToLevelGroups groups d id, g.1 = d0 ∧ k ∈ g.2 := by
  intro groups
  induction groups with
  | nil => intro d id h; simp at h
  | cons g gs ih =>
    intro d id h
    obtain ⟨g0, hg0, hcond⟩ := h
    by_cases hd : g.1 = d
    · rw [addToLevelGroups, if_pos hd]
      rcases List.mem_cons.mp hg0 with rfl | hmem
      · exact ⟨(g0.1, g0.2 ++ [id]), List.mem_cons_self _ _,
          hcond.1, List.mem_append.mpr (Or.inl hcond.2)⟩
      · exact ⟨g0, List.mem_cons_of_mem _ hmem, hcond⟩
    · rw [addToLevelGroups, if_neg hd]
      rcases List.mem_cons.mp hg0 with rfl | hmem
      · exact ⟨g0, List.mem_cons_self _ _, hcond⟩
      · obtain ⟨g2, hg2, hcond2⟩ := ih d id ⟨g0, hmem, hcond⟩
        exact ⟨g2, List.mem_cons_of_mem _ hg2, hcond2⟩

theorem levelGroupsFold_mem_mono {k : String} {d0 : Int} :
    ∀ (l : List (String × Int)) (groups : List (Int × List String)),
      (∃ g ∈ groups, g.1 = d0 ∧ k ∈ g.2) →
      ∃ g ∈ l.foldl (fun gs kv => addToLevelGroups gs kv.2 kv.1) groups,
        g.1 = d0 ∧ k ∈ g.2 := by
  intro l
  induction l with
  | nil => intro groups h; simpa using h
  | cons kv rest ih =>
    intro groups h
    simp only [List.foldl_cons]
    exact ih _ (levelGroups_add_mem_mono groups kv.2 kv.1 h)

theorem levelGroups_mem :
    ∀ (tail_entries : List (String × Int)) (groups : List (Int × List String))
      (kd : String × Int), kd ∈ tail_entries →
      ∃ g ∈ tail_entries.foldl (fun gs kv => addToLevelGroups gs kv.2 kv.1) groups,
        g.1 = kd.2 ∧ kd.1 ∈ g.2 := by
  intro tail_entries
  induction tail_entries with
  | nil => intro groups kd h; simp at h
  | cons kv rest ih =>
    intro groups kd h
    simp only [List.foldl_cons]
    rcases List.mem_cons.mp h with rfl | hmem
    · exact levelGroupsFold_mem_mono rest _ (levelGroups_add_mem_new groups kd.2 kd.1)
    · exact ih _ kd hmem

theorem levelGroupsOf_mem (dm : List (String × Int)) (kd : String × Int) (h : kd ∈ dm) :
    ∃ g ∈ levelGroupsOf dm, g.1 = kd.2 ∧ kd.1 ∈ g.2 :=
  levelGroups_mem dm [] kd h

theorem insertByLe_perm {α : Type} (le : α → α → Bool) (x : α) (l : List α) :
    List.Perm (insertByLe le x l) (x :: l) := by
  induction l with
  | nil => exact List.Perm.refl _
  | cons y ys ih =>
    rw [insertByLe]
    by_cases h : le y x && !(le x y)
    · rw [if_pos h]
      exact List.Perm.trans (ih.cons y) (List.Perm.swap x y ys)
    · rw [if_neg h]

theorem sortByLe_perm {α : Type} (le : α → α → Bool) (l : List α) :
    List.Perm (sortByLe le l) l := by
  induction l with
  | nil => exact List.Perm.refl _
  | cons x xs ih =>
    exact List.Perm.trans (insertByLe_perm le x (sortByLe le xs)) (ih.cons x)

theorem pullSpouses_taken_mono (tree : TreeData) (depthMap : List (String × Int)) (level : Int)
    (st : AdjState) (id : String) :
    st.taken ⊆ (pullSpouses tree depthMap level st id).taken ∧
    id ∈ (pullSpouses tree depthMap level st id).taken := by
  unfold pullSpouses
  by_cases hid : id ∈ st.taken
  · rw [if_pos hid]
    exact ⟨fun _ h => h, hid⟩
  · rw [if_neg hid]
    have hsub : ∀ (ps : List Person) (acc : AdjState),
        acc.taken ⊆ (ps.foldl (fun acc partner =>
          { ordered := acc.ordered ++ [partner.id],
            taken := acc.taken ++ [partner.id] }) acc).taken := by
      intro ps
      induction ps with
      | nil => intro acc y h; exact h
      | cons p rest ihp =>
        intro acc y h
        simp only [List.foldl_cons]
        exact ihp _ (List.mem_append.mpr (Or.inl h))
    cases hm : mget tree.people id with
    | none =>
      exact ⟨fun y h => List.mem_append.mpr (Or.inl h), List.mem_append.mpr (Or.inr (by simp))⟩
    | some person =>
      constructor
      · intro y h
        exact hsub _ _ (List.mem_append.mpr (Or.inl h))
      · exact hsub _ _ (List.mem_append.mpr (Or.inr (by simp)))

theorem adjFold_taken (tree : TreeData) (depthMap : List (String × Int)) (level : Int) :
    ∀ (ids : List String) (st : AdjState) (k : String), k ∈ ids ∨ k ∈ st.taken →
      k ∈ (ids.foldl (pullSpouses tree depthMap level) st).taken := by
  intro ids
  induction ids with
  | nil =>
    intro st k h
    rcases h with h | h
    · simp at h
    · simpa using h
  | cons id rest ih =>
    intro st k h
    simp only [List.foldl_cons]
    rcases h with h | h
    · rcases List.mem_cons.mp h with rfl | hmem
      · exact ih _ k (Or.inr (pullSpouses_taken_mono tree depthMap level st k).2)
      · exact ih _ k (Or.inl hmem)
    · exact ih _ k (Or.inr ((pullSpouses_taken_mono tree depthMap level st id).1 h))

theorem pullSpouses_taken_eq_ordered (tree : TreeData) (depthMap : List (String × Int))
    (level : Int) (st : AdjState) (id : String) (h : st.taken = st.ordered) :
    (pullSpouses tree depthMap level st id).taken
      = (pullSpouses tree depthMap level st id).ordered := by
  unfold pullSpouses
  by_cases hid : id ∈ st.taken
  · rw [if_pos hid]
    exact h
  · rw [if_neg hid]
    have hsub : ∀ (ps : List Person) (acc : AdjState), acc.taken = acc.ordered →
        (ps.foldl (fun acc partner =>
          { ordered := acc.ordered ++ [partner.id],
            taken := acc.taken ++ [partner.id] }) acc).taken
        = (ps.foldl (fun acc partner =>
          { ordered := acc.ordered ++ [partner.id],
            taken := acc.taken ++ [partner.id] }) acc).ordered := by
      intro ps
      induction ps with
      | nil => intro acc hacc; exact hacc
      | cons p rest ihp =>
        intro acc hacc
        simp only [List.foldl_cons]
        exact ihp _ (by simp [hacc])
    cases hm : mget tree.people id with
    | none => simp [h]
    | some person => exact hsub _ _ (by simp [h])

theorem adjFold_taken_eq_ordered (tree : TreeData) (depthMap : List (String × Int))
    (level : Int) :
    ∀ (ids : List String) (st : AdjState), st.taken = st.ordered →
      (ids.foldl (pullSpouses tree depthMap level) st).taken
        = (ids.foldl (pullSpouses tree depthMap level) st).ordered := by
  intro ids
  induction ids with
  | nil => intro st h; exact h
  | cons id rest ih =>
    intro st h
    simp only [List.foldl_cons]
    exact ih _ (pullSpouses_taken_eq_ordered tree depthMap level st id h)

theorem emitRow_mhas (tree : TreeData) (sizeMap : List (String × (Nat × Nat))) (rowY : JsNum) :
    ∀ (ordered : List String) (acc : RowAccum) (k : String),
      (k ∈ ordered ∧ mhas tree.people k = true) ∨ mhas acc.positionMap k = true →
      mhas ((ordered.foldl (emitRowNode tree sizeMap rowY) acc)).positionMap k = true := by
  intro ordered
  induction ordered with
  | nil =>
    intro acc k h
    rcases h with ⟨h, _⟩ | h
    · simp at h
    · simpa using h
  | cons id rest ih =>
    intro acc k h
    simp only [List.foldl_cons]
    have hmono : ∀ k', mhas acc.positionMap k' = true →
        mhas (emitRowNode tree sizeMap rowY acc id).positionMap k' = true := by
      intro k' h'
      unfold emitRowNode
      cases hm : mget tree.people id with
      | none => exact h'
      | some person => exact mhas_mset_mono h' _ _
    rcases h with ⟨hmem, hper⟩ | h
    · rcases List.mem_cons.mp hmem with rfl | hmem'
      · refine ih _ k (Or.inr ?_)
        obtain ⟨p, hp⟩ := mhas_eq_true_exists hper
        unfold emitRowNode
        rw [hp]
        exact mhas_mset_self _ _ _
      · exact ih _ k (Or.inl ⟨hmem', hper⟩)
    · exact ih _ k (Or.inr (hmono k h))

theorem processLevel_posMap_mono (tree : TreeData) (depthMap : List (String × Int))
    (orderMap : List (String × Nat)) (sizeMap : List (String × (Nat × Nat)))
    (st : RowState) (grp : Int × List String) (k : String)
    (h : mhas st.positionMap k = true) :
    mhas (processLevel tree depthMap orderMap sizeMap st grp).positionMap k = true := by
  unfold processLevel
  exact emitRow_mhas tree sizeMap st.currentY _ _ k (Or.inr (by simpa using h))

theorem processLevel_posMap_adds (tree : TreeData) (depthMap : List (String × Int))
    (orderMap : List (String × Nat)) (sizeMap : List (String × (Nat × Nat)))
    (st : RowState) (grp : Int × List String) (k : String)
    (hk : k ∈ grp.2) (hp : mhas tree.people k = true) :
    mhas (processLevel tree depthMap orderMap sizeMap st grp).positionMap k = true := by
  unfold processLevel
  refine emitRow_mhas tree sizeMap st.currentY _ _ k (Or.inl ⟨?_, hp⟩)
  have hsorted : k ∈ sortByLe (fun a b => (mget orderMap a).getD 0 ≤ (mget orderMap b).getD 0)
      grp.2 := (sortByLe_perm _ _).mem_iff.mpr hk
  have := adjFold_taken tree depthMap grp.1 _ { ordered := [], taken := [] } k (Or.inl hsorted)
  rw [adjFold_taken_eq_ordered tree depthMap grp.1 _ _ rfl] at this
  exact this

theorem levelsFold_posMap_mono (tree : TreeData) (depthMap : List (String × Int))
    (orderMap : List (String × Nat)) (sizeMap : List (String × (Nat × Nat))) (k : String) :
    ∀ (gs : List (Int × List String)) (st : RowState), mhas st.positionMap k = true →
      mhas ((gs.foldl (processLevel tree depthMap orderMap sizeMap) st)).positionMap k
        = true := by
  intro gs
  induction gs with
  | nil => intro st h; simpa using h
  | cons g rest ih =>
    intro st h
    simp only [List.foldl_cons]
    exact ih _ (processLevel_posMap_mono tree depthMap orderMap sizeMap st g k h)

theorem layoutRows_posMap_total (tree : TreeData) (k : String)
    (hk : mhas tree.people k = true) :
    mhas (layoutPositionMap tree) k = true := by
  have hkeys : k ∈ tree.people.map Prod.fst := (mhas_iff_mem_keys _ _).mp hk
  have hdepth : mhas (layoutMaps tree).1 k = true := by
    unfold layoutMaps computePlacementMaps
    exact mhas_fold_guard_in (fun _ => (0 : Int)) tree.people _ k (Or.inl hkeys)
  obtain ⟨d, hd⟩ := mhas_eq_true_exists hdepth
  have hentry : (k, d) ∈ (layoutMaps tree).1 := mget_eq_some_mem hd
  obtain ⟨g, hg, _, hgk⟩ := levelGroupsOf_mem _ _ hentry
  have hgsorted : g ∈ layoutSortedLevels tree := by
    unfold layoutSortedLevels
    exact (sortByLe_perm _ _).mem_iff.mpr hg
  unfold layoutPositionMap layoutRows
  obtain ⟨pre, suf, hsplit⟩ := List.append_of_mem hgsorted
  rw [hsplit, List.foldl_append, List.foldl_cons]
  refine levelsFold_posMap_mono tree _ _ _ k suf _ ?_
  exact processLevel_posMap_adds tree _ _ _ _ g k hgk hk

theorem avoidReach_weaken {people : List (String × Person)} {t x : String} :
    ∀ {y : String} {visited : List String}, AvoidReach people (x :: visited) t y →
      AvoidReach people visited t y := by
  intro y visited h
  induction h with
  | refl => exact .refl
  | step ha hs _ ih =>
    exact .step (fun hc => ha (List.mem_cons_of_mem _ hc)) hs ih

theorem avoidReach_cons {people : List (String × Person)} {t : String} (x : String) :
    ∀ {y : String} {visited : List String}, AvoidReach people visited t y →
      AvoidReach people (x :: visited) t y ∨
        ∃ z, childStep people x z ∧ AvoidReach people (x :: visited) t z := by
  intro y visited h
  induction h with
  | refl => exact Or.inl .refl
  | @step a b ha hs _ ih =>
    by_cases hax : a = x
    · subst hax
      rcases ih with ih | ih
      · exact Or.inr ⟨b, hs, ih⟩
      · exact Or.inr ih
    · rcases ih with ih | ih
      · exact Or.inl (.step (by simp [hax, ha]) hs ih)
      · exact Or.inr ih

theorem descendLoop_iff (people : List (String × Person)) (target : String) :
    ∀ (visited queue : List String),
      descendLoop people target visited queue = true ↔
        ∃ x ∈ queue, AvoidReach people visited target x := by
  intro visited queue
  induction visited, queue using descendLoop.induct people target with
  | case1 visited =>
    simp [descendLoop]
  | case2 visited xs =>
    have hT : descendLoop people target visited (target :: xs) = true := by
      rw [descendLoop]
      simp
    rw [hT]
    simp only [true_iff]
    exact ⟨target, List.mem_cons_self _ _, .refl⟩
  | case3 visited x xs hne hvis ih =>
    rw [descendLoop, if_neg hne, if_pos hvis]
    rw [ih]
    constructor
    · rintro ⟨y, hy, hr⟩
      exact ⟨y, List.mem_cons_of_mem _ hy, hr⟩
    · rintro ⟨y, hy, hr⟩
      rcases List.mem_cons.mp hy with rfl | hy
      · cases hr with
        | refl => exact absurd rfl hne
        | step ha _ _ => exact absurd hvis ha
      · exact ⟨y, hy, hr⟩
  | case4 visited x xs hne hvis hnone ih =>
    rw [descendLoop, if_neg hne, if_neg hvis, hnone]
    rw [ih]
    constructor
    · rintro ⟨y, hy, hr⟩
      exact ⟨y, List.mem_cons_of_mem _ hy, avoidReach_weaken hr⟩
    · rintro ⟨y, hy, hr⟩
      rcases List.mem_cons.mp hy with rfl | hy
      · cases hr with
        | refl => exact absurd rfl hne
        | step _ hs _ =>
          obtain ⟨p, hp, _⟩ := hs
          rw [hnone] at hp
          cases hp
      · rcases avoidReach_cons x hr with hr' | ⟨z, hz, _⟩
        · exact ⟨y, hy, hr'⟩
        · obtain ⟨p, hp, _⟩ := hz
          rw [hnone] at hp
          cases hp
  | case5 visited x xs hne hvis current hsome ih =>
    rw [descendLoop, if_neg hne, if_neg hvis, hsome]
    rw [ih]
    constructor
    · rintro ⟨y, hy, hr⟩
      rcases List.mem_append.mp hy with hy | hy
      · exact ⟨y, List.mem_cons_of_mem _ hy, avoidReach_weaken hr⟩
      · refine ⟨x, List.mem_cons_self _ _, .step hvis ⟨current, hsome, hy⟩
          (avoidReach_weaken hr)⟩
    · rintro ⟨y, hy, hr⟩
      rcases List.mem_cons.mp hy with rfl | hy
      · cases hr with
        | refl => exact absurd rfl hne
        | step _ hs hr' =>
          obtain ⟨p, hp, hmem⟩ := hs
          rw [hsome] at hp
          cases hp
          rcases avoidReach_cons y hr' with hr'' | ⟨z, hz, hzr⟩
          · exact ⟨_, List.mem_append.mpr (Or.inr hmem), hr''⟩
          · obtain ⟨p', hp', hmem'⟩ := hz
            rw [hsome] at hp'
            cases hp'
            exact ⟨z, List.mem_append.mpr (Or.inr hmem'), hzr⟩
      · rcases avoidReach_cons x hr with hr' | ⟨z, hz, hzr⟩
        · exact ⟨y, List.mem_append.mpr (Or.inl hy), hr'⟩
        · obtain ⟨p', hp', hmem'⟩ := hz
          rw [hsome] at hp'
          cases hp'
          exact ⟨z, List.mem_append.mpr (Or.inr hmem'), hzr⟩

theorem avoidReach_nil_iff {people : List (String × Person)} {t y : String} :
    AvoidReach people [] t y ↔ Relation.ReflTransGen (childStep people) y t := by
  constructor
  · intro h
    induction h with
    | refl => exact Relation.ReflTransGen.refl
    | step _ hs _ ih => exact Relation.ReflTransGen.head hs ih
  · intro h
    induction h using Relation.ReflTransGen.head_induction_on with
    | refl => exact .refl
    | head hs _ ih => exact .step (by simp) hs ih

/-!
## Claim theorems
-/

/-- C2: the spec's invariant "a person cannot be listed as its own parent
or child" is broken by the code.  On a snapshot holding a single person
`x` with empty parents and children (so the invariant holds), dispatching
`LinkParentChild("x", "x")` produces a snapshot in which `x` lists itself
as a parent: the reducer builds `updatedParent` and `updatedChild` from
the same original record and writes both under the same key, the child
update winning, so `x.parents` becomes `["x"]`. -/
theorem linkParentChild_self_parent_bug :
    (∀ kv ∈ selfLinkTree.people, kv.1 ∉ kv.2.parents ∧ kv.1 ∉ kv.2.children) ∧
    (mget (treeReducer selfLinkTree (.linkParentChild "x" "x")).people "x").map Person.parents
      = some ["x"] := by decide

/-- C4: the Store's transition function is total (it is a Lean function),
and actions whose referenced identifiers are absent from the people
mapping return the input snapshot unchanged: `LINK_PARENT_CHILD` when
either id is absent, `LINK_SPOUSE` when either id is absent,
`DELETE_PERSON` when its id is absent, `REASSIGN_PARENTS` when the child
id is absent, and an action outside the typed vocabulary (the reducer's
`default` branch). -/
theorem treeReducer_noop_degradation (state : TreeData) :
    (∀ parentId childId,
      mget state.people parentId = none ∨ mget state.people childId = none →
      treeReducer state (.linkParentChild parentId childId) = state) ∧
    (∀ personId spouseId marriageDate unionId,
      mget state.people personId = none ∨ mget state.people spouseId = none →
      treeReducer state (.linkSpouse personId spouseId marriageDate unionId) = state) ∧
    (∀ personId, mget state.people personId = none →
      treeReducer state (.deletePersonAct personId) = state) ∧
    (∀ childId parentIds, mget state.people childId = none →
      treeReducer state (.reassignParentsAct childId parentIds) = state) ∧
    treeReducer state .unknownAction = state := by
  refine ⟨?_, ?_, ?_, ?_, rfl⟩
  · intro parentId childId h
    cases hp : mget state.people parentId <;> cases hc : mget state.people childId <;>
      simp [treeReducer, hp, hc] <;> rcases h with h | h <;> simp [hp, hc] at h
  · intro personId spouseId marriageDate unionId h
    cases hp : mget state.people personId <;> cases hc : mget state.people spouseId <;>
      simp [treeReducer, hp, hc] <;> rcases h with h | h <;> simp [hp, hc] at h
  · intro personId h
    simp [treeReducer, deletePerson, h]
  · intro childId parentIds h
    simp [treeReducer, reassignParents, h]

/-- Witness for `treeReducer_noop_degradation`: on the empty snapshot all
referenced ids are absent, and each action is a no-op. -/
theorem treeReducer_noop_degradation_witness :
    treeReducer EMPTY_TREE (.linkParentChild "p" "c") = EMPTY_TREE ∧
    treeReducer EMPTY_TREE (.linkSpouse "p" "s" none "u") = EMPTY_TREE ∧
    treeReducer EMPTY_TREE (.deletePersonAct "p") = EMPTY_TREE ∧
    treeReducer EMPTY_TREE (.reassignParentsAct "c" ["p"]) = EMPTY_TREE ∧
    treeReducer EMPTY_TREE .unknownAction = EMPTY_TREE :=
  ⟨(treeReducer_noop_degradation EMPTY_TREE).1 "p" "c" (Or.inl (by decide)),
   (treeReducer_noop_degradation EMPTY_TREE).2.1 "p" "s" none "u" (Or.inl (by decide)),
   (treeReducer_noop_degradation EMPTY_TREE).2.2.1 "p" (by decide),
   (treeReducer_noop_degradation EMPTY_TREE).2.2.2.1 "c" ["p"] (by decide),
   (treeReducer_noop_degradation EMPTY_TREE).2.2.2.2⟩

/-- C7: `isDescendant(g, A, B)` returns true exactly when `B` is
reachable from `A` by one or more children edges: a non-empty
`childStep` chain whose first node is `A` (each step requires the source
person to exist; the final id may be a dangling reference).  The
traversal terminates on every graph, cyclic children data included — the
loop `descendLoop` is a total Lean function.  Siblings, ancestors and
unrelated persons are exactly the ids with no such chain, for which the
function returns false. -/
theorem isDescendant_iff_transGen (tree : TreeData) (a b : String) :
    isDescendant tree a b = true ↔ Relation.TransGen (childStep tree.people) a b := by
  unfold isDescendant
  cases h : mget tree.people a with
  | none =>
    simp only
    rw [descendLoop_iff]
    constructor
    · rintro ⟨x, hx, _⟩
      simp at hx
    · intro htg
      rcases Relation.TransGen.head'_iff.mp htg with ⟨c, hc, _⟩
      obtain ⟨p, hp, _⟩ := hc
      rw [h] at hp
      cases hp
  | some p =>
    simp only
    rw [descendLoop_iff]
    constructor
    · rintro ⟨x, hx, hr⟩
      exact Relation.TransGen.head'_iff.mpr ⟨x, ⟨p, h, hx⟩, avoidReach_nil_iff.mp hr⟩
    · intro htg
      rcases Relation.TransGen.head'_iff.mp htg with ⟨c, hc, hrtg⟩
      obtain ⟨p', hp', hmem⟩ := hc
      rw [h] at hp'
      cases hp'
      exact ⟨c, hmem, avoidReach_nil_iff.mpr hrtg⟩

/-- C8 counterexample: the claim states the result is `[p, s]` whenever
the person holds exactly one Partnership, but on a person whose sole
Partnership references an id absent from the mapping the code returns
`[p]`, not `[p, "gone"]`. -/
theorem resolveDefaultPartnerIds_counterexample :
    (mget soleSpouseTree.people "p").map (fun p => p.spouses.length) = some 1 ∧
    (mget soleSpouseTree.people "p").map (fun p => p.spouses.map Partnership.spouseId)
      = some ["gone"] ∧
    resolveDefaultPartnerIds soleSpouseTree "p" = ["p"] ∧
    (["p"] : List String) ≠ ["p", "gone"] := by decide

/-- C8 (amended): `resolveDefaultPartnerIds` returns `[person.id]` when
the person's Partnership list has length other than one, and when the
sole entry's spouse id is absent from the mapping; it returns
`[person.id, partner.id]` when the list has exactly one entry whose
spouse id resolves to a person. -/
theorem resolveDefaultPartnerIds_cases (tree : TreeData) (personId : String) (person : Person)
    (h : mget tree.people personId = some person) :
    (person.spouses.length ≠ 1 → resolveDefaultPartnerIds tree personId = [person.id]) ∧
    (∀ sp, person.spouses = [sp] →
      (mget tree.people sp.spouseId = none →
        resolveDefaultPartnerIds tree personId = [person.id]) ∧
      (∀ partner, mget tree.people sp.spouseId = some partner →
        resolveDefaultPartnerIds tree personId = [person.id, partner.id])) := by
  constructor
  · intro hlen
    simp [resolveDefaultPartnerIds, h, hlen]
  · intro sp hsp
    constructor
    · intro hnone
      simp [resolveDefaultPartnerIds, h, hsp, hnone]
    · intro partner hsome
      simp [resolveDefaultPartnerIds, h, hsp, hsome]

theorem mset_same {α : Type} {m : List (String × α)} {k : String} {v : α}
    (h : mget m k = some v) : mset m k v = m := by
  induction m with
  | nil => simp [mget, List.find?] at h
  | cons kv rest ih =>
    rw [mget_cons] at h
    by_cases hk : kv.1 = k
    · rw [if_pos hk] at h
      rw [mset, if_pos hk]
      have : (k, v) = kv := by
        apply Prod.ext
        · exact hk.symm
        · simpa using h.symm
      rw [this]
    · rw [if_neg hk] at h
      rw [mset, if_neg hk, ih h]

theorem mem_ensurePartnershipUnique_self (l : List Partnership) (p : Partnership) :
    p ∈ ensurePartnershipUnique l p := by
  unfold ensurePartnershipUnique
  cases hf : l.findIdx? (fun item => item.unionId = p.unionId) with
  | none => simp
  | some i =>
    obtain ⟨hi, _, _⟩ := List.findIdx?_eq_some_iff_getElem.mp hf
    have hlen : i < (l.set i p).length := by simpa using hi
    show p ∈ l.set i p
    have heq : (l.set i p)[i] = p := List.getElem_set_self hlen
    have hmem := List.getElem_mem hlen
    rw [heq] at hmem
    exact hmem

theorem countP_set_of_pred_eq {α : Type} (p : α → Bool) :
    ∀ (l : List α) (i : Nat) (a : α) (hi : i < l.length), p (l.get ⟨i, hi⟩) = p a →
      (l.set i a).countP p = l.countP p := by
  intro l
  induction l with
  | nil => intro i a hi; simp at hi
  | cons x xs ih =>
    intro i a hi h
    cases i with
    | zero =>
      simp only [List.get] at h
      simp [List.set, List.countP_cons, h]
    | succ n =>
      simp only [List.get] at h
      have hn : n < xs.length := by simpa using hi
      simp [List.set, List.countP_cons, ih n a hn h]

theorem countU_ensurePartnershipUnique (l : List Partnership) (p : Partnership)
    (hc : l.countP (fun q => q.unionId = p.unionId) ≤ 1) :
    (ensurePartnershipUnique l p).countP (fun q => q.unionId = p.unionId) = 1 := by
  unfold ensurePartnershipUnique
  cases hf : l.findIdx? (fun item => item.unionId = p.unionId) with
  | none =>
    have h0 : l.countP (fun q => q.unionId = p.unionId) = 0 :=
      List.countP_eq_zero.mpr (fun a ha => by simpa using List.findIdx?_eq_none_iff.mp hf a ha)
    rw [List.countP_append, h0]
    simp [List.countP_cons]
  | some i =>
    obtain ⟨hi, hpi, _⟩ := List.findIdx?_eq_some_iff_getElem.mp hf
    have heq : (l.set i p).countP (fun q => q.unionId = p.unionId)
        = l.countP (fun q => q.unionId = p.unionId) := by
      refine countP_set_of_pred_eq _ l i p hi ?_
      have : l.get ⟨i, hi⟩ = l[i] := rfl
      rw [this]
      simp only [hpi]
      simp
    rw [heq]
    have hpos : 0 < l.countP (fun q => q.unionId = p.unionId) :=
      List.countP_pos_iff.mpr ⟨l[i], List.getElem_mem hi, hpi⟩
    omega

theorem ensurePartnershipUnique_stable (l : List Partnership) (p : Partnership) :
    ensurePartnershipUnique (ensurePartnershipUnique l p) p = ensurePartnershipUnique l p := by
  cases hf : l.findIdx? (fun item => item.unionId = p.unionId) with
  | none =>
    have h1 : ensurePartnershipUnique l p = l ++ [p] := by
      unfold ensurePartnershipUnique
      rw [hf]
    rw [h1]
    have h2 : (l ++ [p]).findIdx? (fun item => item.unionId = p.unionId) = some l.length := by
      rw [List.findIdx?_append, hf]
      simp [List.findIdx?_cons]
    unfold ensurePartnershipUnique
    rw [h2]
    show (l ++ [p]).set l.length p = l ++ [p]
    apply List.ext_getElem
    · simp
    · intro n h1' h2'
      by_cases hn : n = l.length
      · subst hn
        rw [List.getElem_set_self h1']
        exact (List.getElem_concat_length l p _ rfl h2').symm
      · exact List.getElem_set_ne (fun hc => hn hc.symm) h1'
  | some i =>
    obtain ⟨hi, hpi, hbefore⟩ := List.findIdx?_eq_some_iff_getElem.mp hf
    have h1 : ensurePartnershipUnique l p = l.set i p := by
      unfold ensurePartnershipUnique
      rw [hf]
    rw [h1]
    have h2 : (l.set i p).findIdx? (fun item => item.unionId = p.unionId) = some i := by
      refine List.findIdx?_eq_some_iff_getElem.mpr ⟨by simpa using hi, ?_, ?_⟩
      · rw [List.getElem_set_self (by simpa using hi)]
        simp
      · intro j hj
        rw [List.getElem_set_ne (by omega) (by simp; omega)]
        exact hbefore j hj
    unfold ensurePartnershipUnique
    rw [h2]
    show (l.set i p).set i p = l.set i p
    rw [List.set_set]

theorem linkSpouse_unfold (state : TreeData) (a b : String) (d : Option String) (u : String)
    (pa pb : Person) (ha : mget state.people a = some pa) (hb : mget state.people b = some pb) :
    treeReducer state (.linkSpouse a b d u)
      = { state with people := mset (mset state.people a { pa with spouses := ensurePartnershipUnique pa.spouses ⟨b, d, u⟩ }) b { pb with spouses := ensurePartnershipUnique pb.spouses ⟨a, d, u⟩ } } := by
  simp [treeReducer, ha, hb]

theorem mget_addChildToParents_not_mem (childId : String) :
    ∀ (ps : List String) (base : List (String × Person)) (k : String), k ∉ ps →
      mget (addChildToParents childId base ps) k = mget base k := by
  intro ps
  induction ps with
  | nil => intro base k _; rfl
  | cons p rest ih =>
    intro base k hk
    have hkp : k ≠ p := fun hc => hk (hc ▸ List.mem_cons_self p rest)
    have hkr : k ∉ rest := fun hc => hk (List.mem_cons_of_mem _ hc)
    have hstep : addChildToParents childId base (p :: rest)
        = addChildToParents childId (match mget base p with
          | none => base
          | some parent =>
            mset base p (sanitizePerson
              { parent with children := ensureUnique (parent.children ++ [childId]) })) rest := rfl
    rw [hstep, ih _ k hkr]
    cases hm : mget base p with
    | none => rfl
    | some parent => exact mget_mset_ne _ _ _ _ hkp

theorem mget_addChildToParents_mem (childId : String) :
    ∀ (ps : List String) (base : List (String × Person)) (k : String) (pk : Person),
      ps.Nodup → k ∈ ps → mget base k = some pk →
      mget (addChildToParents childId base ps) k
        = some (sanitizePerson { pk with children := ensureUnique (pk.children ++ [childId]) }) := by
  intro ps
  induction ps with
  | nil => intro base k pk _ hk; simp at hk
  | cons p rest ih =>
    intro base k pk hnd hk hbk
    have hstep : addChildToParents childId base (p :: rest)
        = addChildToParents childId (match mget base p with
          | none => base
          | some parent =>
            mset base p (sanitizePerson
              { parent with children := ensureUnique (parent.children ++ [childId]) })) rest := rfl
    rcases List.mem_cons.mp hk with rfl | hkr
    · have hknr : k ∉ rest := (List.nodup_cons.mp hnd).1
      rw [hstep]
      rw [mget_addChildToParents_not_mem childId rest _ k hknr]
      rw [hbk]
      exact mget_mset_self _ _ _
    · have hkp : k ≠ p := by
        intro hc
        exact (List.nodup_cons.mp hnd).1 (hc ▸ hkr)
      rw [hstep]
      cases hm : mget base p with
      | none => exact ih base k pk (List.nodup_cons.mp hnd).2 hkr hbk
      | some parent =>
        refine ih _ k pk (List.nodup_cons.mp hnd).2 hkr ?_
        rw [mget_mset_ne _ _ _ _ hkp]
        exact hbk

theorem mget_filter_map_sanitize (c : String) :
    ∀ (people : List (String × Person)) (k : String), k ≠ c →
      mget ((people.filter (fun kv => kv.1 ≠ c)).map (fun kv =>
          (kv.1, sanitizePerson
            { kv.2 with children := kv.2.children.filter (fun x => x ≠ c) }))) k
        = (mget people k).map (fun p => sanitizePerson
            { p with children := p.children.filter (fun x => x ≠ c) }) := by
  intro people
  induction people with
  | nil => intro k _; rfl
  | cons kv rest ih =>
    intro k hk
    by_cases hkc : kv.1 = c
    · rw [List.filter_cons_of_neg (by simp [hkc])]
      rw [mget_cons, if_neg (by rw [hkc]; exact Ne.symm hk)]
      exact ih k hk
    · rw [List.filter_cons_of_pos (by simp [hkc])]
      rw [List.map_cons, mget_cons, mget_cons]
      by_cases hkk : kv.1 = k
      · rw [if_pos hkk, if_pos hkk]
        rfl
      · rw [if_neg hkk, if_neg hkk]
        exact ih k hk

/-- Entries produced by the parent-update loop of `reassignParents` are
sanitization fixed points whenever the base entries are. -/
theorem sanitized_entries_addChildToParents (childId : String) :
    ∀ (ps : List String) (base : List (String × Person)),
      (∀ kv ∈ base, sanitizePerson kv.2 = kv.2) →
      ∀ kv ∈ addChildToParents childId base ps, sanitizePerson kv.2 = kv.2 := by
  intro ps
  induction ps with
  | nil => intro base hb kv hkv; exact hb kv (by simpa [addChildToParents] using hkv)
  | cons p rest ih =>
    intro base hb kv hkv
    have hstep : ∀ kv ∈ (match mget base p with
        | none => base
        | some parent =>
          mset base p (sanitizePerson
            { parent with children := ensureUnique (parent.children ++ [childId]) })),
        sanitizePerson kv.2 = kv.2 := by
      intro kv' hkv'
      cases hm : mget base p with
      | none => exact hb kv' (by rw [hm] at hkv'; exact hkv')
      | some parent =>
        rw [hm] at hkv'
        rcases mem_mset hkv' with h' | h'
        · exact hb kv' h'
        · rw [h']
          exact sanitizePerson_idem _
    have : addChildToParents childId base (p :: rest)
        = addChildToParents childId (match mget base p with
          | none => base
          | some parent =>
            mset base p (sanitizePerson
              { parent with children := ensureUnique (parent.children ++ [childId]) })) rest := by
      rfl
    rw [this] at hkv
    exact ih _ hstep kv hkv

/-- C1 counterexample: `LINK_PARENT_CHILD` writes the updated parent
record without sanitizing it — on a parent whose own parents list holds a
duplicate, the written record keeps the duplicate, so it is not a
sanitization fixed point (sanitizing it would de-duplicate the list). -/
theorem link_writes_unsanitized_counterexample :
    mget (treeReducer linkUnsanitizedTree (.linkParentChild "a" "b")).people "a"
      = some linkWrittenA ∧
    sanitizePerson linkWrittenA ≠ linkWrittenA := by decide

/-- C1 (amended): `UPSERT_PERSON` writes the sanitized payload (itself a
sanitization fixed point); `DELETE_PERSON` and `REASSIGN_PARENTS` (on
present ids) pass every record they write through sanitization, so every
record of their output snapshots is a sanitization fixed point;
`LINK_PARENT_CHILD` and `LINK_SPOUSE` (on present, distinct ids) write
records that only update the affected list — children/parents
de-duplicated preserving first-seen order, the Partnership entry replaced
in place by union id or appended — and copy all other fields, the date
fields and the remaining lists included, without sanitization; `SET_TREE`
installs its payload verbatim. -/
theorem treeReducer_sanitization (state : TreeData) :
    (∀ payload,
      mget (treeReducer state (.upsertPerson payload)).people (sanitizePerson payload).id
        = some (sanitizePerson payload) ∧
      sanitizePerson (sanitizePerson payload) = sanitizePerson payload) ∧
    (∀ personId, mhas state.people personId = true →
      ∀ kv ∈ (treeReducer state (.deletePersonAct personId)).people,
        sanitizePerson kv.2 = kv.2) ∧
    (∀ childId parentIds, mhas state.people childId = true →
      ∀ kv ∈ (treeReducer state (.reassignParentsAct childId parentIds)).people,
        sanitizePerson kv.2 = kv.2) ∧
    (∀ parentId childId parent child, parentId ≠ childId →
      mget state.people parentId = some parent → mget state.people childId = some child →
      (∃ q, mget (treeReducer state (.linkParentChild parentId childId)).people parentId
          = some q ∧
        q.children = ensureUnique (parent.children ++ [childId]) ∧ q.children.Nodup ∧
        q.parents = parent.parents ∧ q.birthDate = parent.birthDate ∧
        q.deathDate = parent.deathDate ∧ q.spouses = parent.spouses) ∧
      (∃ q, mget (treeReducer state (.linkParentChild parentId childId)).people childId
          = some q ∧
        q.parents = ensureUnique (child.parents ++ [parentId]) ∧ q.parents.Nodup ∧
        q.children = child.children ∧ q.birthDate = child.birthDate ∧
        q.deathDate = child.deathDate ∧ q.spouses = child.spouses)) ∧
    (∀ personId spouseId marriageDate unionId personA personB, personId ≠ spouseId →
      mget state.people personId = some personA → mget state.people spouseId = some personB →
      (∃ q, mget (treeReducer state (.linkSpouse personId spouseId marriageDate unionId)).people
          personId = some q ∧
        q.spouses = ensurePartnershipUnique personA.spouses ⟨spouseId, marriageDate, unionId⟩ ∧
        q.birthDate = personA.birthDate ∧ q.deathDate = personA.deathDate ∧
        q.parents = personA.parents ∧ q.children = personA.children) ∧
      (∃ q, mget (treeReducer state (.linkSpouse personId spouseId marriageDate unionId)).people
          spouseId = some q ∧
        q.spouses = ensurePartnershipUnique personB.spouses ⟨personId, marriageDate, unionId⟩ ∧
        q.birthDate = personB.birthDate ∧ q.deathDate = personB.deathDate ∧
        q.parents = personB.parents ∧ q.children = personB.children)) ∧
    (∀ payload, treeReducer state (.setTree payload) = payload) := by
  refine ⟨?_, ?_, ?_, ?_, ?_, fun _ => rfl⟩
  · intro payload
    exact ⟨mget_mset_self _ _ _, sanitizePerson_idem payload⟩
  · intro personId hhas kv hkv
    obtain ⟨px, hx⟩ := mhas_eq_true_exists hhas
    have hred : treeReducer state (.deletePersonAct personId) = deletePerson state personId := rfl
    rw [hred] at hkv
    unfold deletePerson at hkv
    rw [hx] at hkv
    simp only at hkv
    rcases List.mem_map.mp hkv with ⟨kv0, _, hmapped⟩
    rw [← hmapped]
    exact sanitizePerson_idem _
  · intro childId parentIds hhas kv hkv
    obtain ⟨cx, hx⟩ := mhas_eq_true_exists hhas
    have hred : treeReducer state (.reassignParentsAct childId parentIds)
        = reassignParents state childId parentIds := rfl
    rw [hred] at hkv
    unfold reassignParents at hkv
    rw [hx] at hkv
    simp only at hkv
    rcases mem_mset hkv with h' | h'
    · refine sanitized_entries_addChildToParents childId _ _ ?_ kv h'
      intro kv' hkv'
      rcases List.mem_map.mp hkv' with ⟨kv0, _, hmapped⟩
      rw [← hmapped]
      exact sanitizePerson_idem _
    · rw [h']
      exact sanitizePerson_idem _
  · intro parentId childId parent child hne hp hc
    have hmain : (treeReducer state (.linkParentChild parentId childId)).people
        = mset
            (mset state.people parentId
              { parent with children := ensureUnique (parent.children ++ [childId]) })
            childId
            { child with parents := ensureUnique (child.parents ++ [parentId]) } := by
      simp [treeReducer, hp, hc]
    constructor
    · refine ⟨{ parent with children := ensureUnique (parent.children ++ [childId]) },
        ?_, rfl, nodup_ensureUnique _, rfl, rfl, rfl, rfl⟩
      rw [hmain, mget_mset_ne _ _ _ _ hne, mget_mset_self]
    · refine ⟨{ child with parents := ensureUnique (child.parents ++ [parentId]) },
        ?_, rfl, nodup_ensureUnique _, rfl, rfl, rfl, rfl⟩
      rw [hmain, mget_mset_self]
  · intro personId spouseId marriageDate unionId personA personB hne hp hc
    have hmain : (treeReducer state (.linkSpouse personId spouseId marriageDate unionId)).people
        = mset
            (mset state.people personId
              { personA with
                spouses := ensurePartnershipUnique personA.spouses
                  ⟨spouseId, marriageDate, unionId⟩ })
            spouseId
            { personB with
              spouses := ensurePartnershipUnique personB.spouses
                ⟨personId, marriageDate, unionId⟩ } := by
      simp [treeReducer, hp, hc]
    constructor
    · refine ⟨{ personA with
          spouses := ensurePartnershipUnique personA.spouses
            ⟨spouseId, marriageDate, unionId⟩ },
        ?_, rfl, rfl, rfl, rfl, rfl⟩
      rw [hmain, mget_mset_ne _ _ _ _ hne, mget_mset_self]
    · refine ⟨{ personB with
          spouses := ensurePartnershipUnique personB.spouses
            ⟨personId, marriageDate, unionId⟩ },
        ?_, rfl, rfl, rfl, rfl, rfl⟩
      rw [hmain, mget_mset_self]

/-- Witness for `treeReducer_sanitization`: deleting `a` leaves only
sanitization fixed points, and linking `a` to `b` writes the two records
with de-duplicated updated lists and otherwise unchanged fields. -/
theorem treeReducer_sanitization_witness :
    (∀ kv ∈ (treeReducer linkUnsanitizedTree (.deletePersonAct "a")).people,
      sanitizePerson kv.2 = kv.2) ∧
    (∃ q, mget (treeReducer linkUnsanitizedTree (.linkParentChild "a" "b")).people "a"
        = some q ∧
      q.children = ensureUnique (linkSourceA.children ++ ["b"]) ∧ q.children.Nodup ∧
      q.parents = linkSourceA.parents ∧ q.birthDate = linkSourceA.birthDate ∧
      q.deathDate = linkSourceA.deathDate ∧ q.spouses = linkSourceA.spouses) :=
  ⟨(treeReducer_sanitization linkUnsanitizedTree).2.1 "a" (by decide),
   (((treeReducer_sanitization linkUnsanitizedTree).2.2.2.1 "a" "b" linkSourceA
      (mkPerson "b" [] [] []) (by decide) (by decide) (by decide))).1⟩

/-- C3 counterexample: the claim demands that when the deleted person was
the root, the new root is the first remaining person (or null), but with
a root whose id is the empty string (falsy in JavaScript) the code keeps
the dangling empty-string root: `state.rootPersonId && …` short-circuits
to the `??` branch, which keeps `""` because it is not nullish. -/
theorem deletePerson_empty_root_counterexample :
    emptyRootTree.rootPersonId = some "" ∧
    mhas emptyRootTree.people "" = true ∧
    ((emptyRootTree.people.filter (fun kv => kv.1 ≠ "")).head?).map Prod.fst = some "a" ∧
    (treeReducer emptyRootTree (.deletePersonAct "")).rootPersonId = some "" ∧
    (some "" : Option String) ≠ some "a" ∧ (some "" : Option String) ≠ none := by decide

/-- C3 (amended): deleting a present person `x` removes `x` from the
people mapping and every remaining record's parents, children and
Partnership lists; if `x` was the root and `x` is not the empty string,
the new root is the first remaining person in mapping order (null when
none remain); if the previous root was set but was the empty string or a
different id, it is kept; with no previous root, the root falls back to
the first remaining person. -/
theorem deletePerson_cascade (state : TreeData) (x : String) (px : Person)
    (h : mget state.people x = some px) :
    mget (treeReducer state (.deletePersonAct x)).people x = none ∧
    (∀ kv ∈ (treeReducer state (.deletePersonAct x)).people,
      x ∉ kv.2.parents ∧ x ∉ kv.2.children ∧ ∀ sp ∈ kv.2.spouses, sp.spouseId ≠ x) ∧
    (state.rootPersonId = some x → x ≠ "" →
      (treeReducer state (.deletePersonAct x)).rootPersonId
        = ((state.people.filter (fun kv => kv.1 ≠ x)).head?).map Prod.fst) ∧
    (∀ r, state.rootPersonId = some r → r = "" ∨ r ≠ x →
      (treeReducer state (.deletePersonAct x)).rootPersonId = some r) ∧
    (state.rootPersonId = none →
      (treeReducer state (.deletePersonAct x)).rootPersonId
        = ((state.people.filter (fun kv => kv.1 ≠ x)).head?).map Prod.fst) := by
  have hred : treeReducer state (.deletePersonAct x) = deletePerson state x := rfl
  rw [hred]
  unfold deletePerson
  rw [h]
  simp only
  refine ⟨?_, ?_, ?_, ?_, ?_⟩
  · rw [mget_eq_none_iff]
    intro kv hkv
    rcases List.mem_map.mp hkv with ⟨kv0, hkv0, hmapped⟩
    have hne : kv0.1 ≠ x := by
      have := List.mem_filter.mp hkv0
      simpa using this.2
    rw [← hmapped]
    exact hne
  · intro kv hkv
    rcases List.mem_map.mp hkv with ⟨kv0, hkv0, hmapped⟩
    rw [← hmapped]
    refine ⟨?_, ?_, ?_⟩
    · intro hc
      simp only [sanitizePerson] at hc
      rw [mem_ensureUnique] at hc
      have := List.mem_filter.mp hc
      simp at this
    · intro hc
      simp only [sanitizePerson] at hc
      rw [mem_ensureUnique] at hc
      have := List.mem_filter.mp hc
      simp at this
    · intro sp hsp
      simp only [sanitizePerson] at hsp
      have hsp' := mem_dedupePartnerships hsp
      have := List.mem_filter.mp hsp'
      simpa using this.2
  · intro hr hne
    rw [hr]
    simp [hne]
  · intro r hr hcase
    rw [hr]
    rcases hcase with hcase | hcase
    · simp [hcase]
    · simp [hcase]
  · intro hr
    rw [hr]

/-- Witness for `deletePerson_cascade`: deleting the spouse `x` of the
root `r` strips the Partnership and child references from `r` and keeps
the root pointer. -/
theorem deletePerson_cascade_witness :
    mget deleteWitnessTree.people "x" = some deleteWitnessX ∧
    (mget (treeReducer deleteWitnessTree (.deletePersonAct "x")).people "x" = none ∧
     (∀ kv ∈ (treeReducer deleteWitnessTree (.deletePersonAct "x")).people,
       "x" ∉ kv.2.parents ∧ "x" ∉ kv.2.children ∧ ∀ sp ∈ kv.2.spouses, sp.spouseId ≠ "x") ∧
     (deleteWitnessTree.rootPersonId = some "x" → "x" ≠ "" →
       (treeReducer deleteWitnessTree (.deletePersonAct "x")).rootPersonId
         = ((deleteWitnessTree.people.filter (fun kv => kv.1 ≠ "x")).head?).map Prod.fst) ∧
     (∀ r, deleteWitnessTree.rootPersonId = some r → r = "" ∨ r ≠ "x" →
       (treeReducer deleteWitnessTree (.deletePersonAct "x")).rootPersonId = some r) ∧
     (deleteWitnessTree.rootPersonId = none →
       (treeReducer deleteWitnessTree (.deletePersonAct "x")).rootPersonId
         = ((deleteWitnessTree.people.filter (fun kv => kv.1 ≠ "x")).head?).map Prod.fst)) :=
  ⟨by decide, deletePerson_cascade deleteWitnessTree "x" deleteWitnessX (by decide)⟩

/-- C5 counterexample: on a snapshot in which `a` already holds two
Partnership entries with union id `u`, `LinkSpouse(a, b, d, u)` replaces
only the first matching entry, so `a` is left with two entries for union
`u`, not exactly one as the claim states. -/
theorem linkSpouse_count_counterexample :
    mhas dupUnionTree.people "a" = true ∧ mhas dupUnionTree.people "b" = true ∧
    ("a" : String) ≠ "b" ∧
    (mget (treeReducer dupUnionTree (.linkSpouse "a" "b" none "u")).people "a").map
      (fun p => p.spouses.countP (fun q => q.unionId = "u")) = some 2 := by decide

/-- C5 (amended): on a snapshot containing distinct persons `a` and `b`
where `a` holds at most one Partnership for union `u`, after
`LinkSpouse(a, b, d, u)` person `a` holds `{spouseId: b, unionId: u,
marriageDate: d}` with exactly one entry for union `u`, `b` holds the
mirror entry, dispatching the identical action again leaves the snapshot
unchanged, and any further `LinkSpouse(a, b2, d2, u)` (with `b2` present
and distinct from `a`) keeps `a`'s entry count for union `u` at exactly
one. -/
theorem linkSpouse_symmetry (state : TreeData) (a b : String) (d : Option String) (u : String)
    (pa pb : Person) (hne : a ≠ b)
    (ha : mget state.people a = some pa) (hb : mget state.people b = some pb)
    (hcount : pa.spouses.countP (fun q => q.unionId = u) ≤ 1) :
    (∃ qa, mget (treeReducer state (.linkSpouse a b d u)).people a = some qa ∧
      (⟨b, d, u⟩ : Partnership) ∈ qa.spouses ∧
      qa.spouses.countP (fun q => q.unionId = u) = 1) ∧
    (∃ qb, mget (treeReducer state (.linkSpouse a b d u)).people b = some qb ∧
      (⟨a, d, u⟩ : Partnership) ∈ qb.spouses) ∧
    treeReducer (treeReducer state (.linkSpouse a b d u)) (.linkSpouse a b d u)
      = treeReducer state (.linkSpouse a b d u) ∧
    (∀ b2 d2 pb2, b2 ≠ a →
      mget (treeReducer state (.linkSpouse a b d u)).people b2 = some pb2 →
      ∃ qa2, mget (treeReducer (treeReducer state (.linkSpouse a b d u))
          (.linkSpouse a b2 d2 u)).people a = some qa2 ∧
        qa2.spouses.countP (fun q => q.unionId = u) = 1) := by
  have hmain := linkSpouse_unfold state a b d u pa pb ha hb
  have hqa : mget (treeReducer state (.linkSpouse a b d u)).people a
      = some { pa with spouses := ensurePartnershipUnique pa.spouses ⟨b, d, u⟩ } := by
    rw [hmain]
    show mget (mset (mset state.people a _) b _) a = _
    rw [mget_mset_ne _ _ _ _ hne, mget_mset_self]
  have hqb : mget (treeReducer state (.linkSpouse a b d u)).people b
      = some { pb with spouses := ensurePartnershipUnique pb.spouses ⟨a, d, u⟩ } := by
    rw [hmain]
    show mget (mset (mset state.people a _) b _) b = _
    rw [mget_mset_self]
  refine ⟨⟨_, hqa, ?_, ?_⟩, ⟨_, hqb, ?_⟩, ?_, ?_⟩
  · exact mem_ensurePartnershipUnique_self _ _
  · exact countU_ensurePartnershipUnique pa.spouses ⟨b, d, u⟩ hcount
  · exact mem_ensurePartnershipUnique_self _ _
  · have hmain2 := linkSpouse_unfold (treeReducer state (.linkSpouse a b d u)) a b d u _ _ hqa hqb
    rw [hmain2]
    have hs1 : ensurePartnershipUnique (ensurePartnershipUnique pa.spouses ⟨b, d, u⟩) ⟨b, d, u⟩
        = ensurePartnershipUnique pa.spouses ⟨b, d, u⟩ :=
      ensurePartnershipUnique_stable _ _
    have hs2 : ensurePartnershipUnique (ensurePartnershipUnique pb.spouses ⟨a, d, u⟩) ⟨a, d, u⟩
        = ensurePartnershipUnique pb.spouses ⟨a, d, u⟩ :=
      ensurePartnershipUnique_stable _ _
    have hpe : mset (mset (treeReducer state (.linkSpouse a b d u)).people a
          { pa with spouses := ensurePartnershipUnique (ensurePartnershipUnique pa.spouses ⟨b, d, u⟩) ⟨b, d, u⟩ })
        b
        { pb with spouses := ensurePartnershipUnique (ensurePartnershipUnique pb.spouses ⟨a, d, u⟩) ⟨a, d, u⟩ }
        = (treeReducer state (.linkSpouse a b d u)).people := by
      rw [hs1, hs2]
      rw [mset_same hqa]
      rw [mset_same hqb]
    rw [hpe]
  · intro b2 d2 pb2 hne2 hb2
    have hmain3 := linkSpouse_unfold (treeReducer state (.linkSpouse a b d u)) a b2 d2 u _ _ hqa hb2
    refine ⟨{ pa with spouses := ensurePartnershipUnique (ensurePartnershipUnique pa.spouses ⟨b, d, u⟩) ⟨b2, d2, u⟩ }, ?_, ?_⟩
    · rw [hmain3]
      show mget (mset (mset _ a _) b2 _) a = _
      rw [mget_mset_ne _ _ _ _ (Ne.symm hne2), mget_mset_self]
    · have h1 : (ensurePartnershipUnique pa.spouses ⟨b, d, u⟩).countP
          (fun q => q.unionId = u) = 1 :=
        countU_ensurePartnershipUnique pa.spouses ⟨b, d, u⟩ hcount
      exact countU_ensurePartnershipUnique _ ⟨b2, d2, u⟩ (by rw [h1])

/-- Witness for `linkSpouse_symmetry`: marrying the two unrelated persons
of `linkSpouseWitnessTree`. -/
theorem linkSpouse_symmetry_witness :
    ("a" : String) ≠ "b" ∧
    mget linkSpouseWitnessTree.people "a" = some spouseWitnessA ∧
    spouseWitnessA.spouses.countP (fun q => q.unionId = "u") ≤ 1 ∧
    ((∃ qa, mget (treeReducer linkSpouseWitnessTree (.linkSpouse "a" "b" none "u")).people "a"
        = some qa ∧
      (⟨"b", none, "u"⟩ : Partnership) ∈ qa.spouses ∧
      qa.spouses.countP (fun q => q.unionId = "u") = 1) ∧
    (∃ qb, mget (treeReducer linkSpouseWitnessTree (.linkSpouse "a" "b" none "u")).people "b"
        = some qb ∧
      (⟨"a", none, "u"⟩ : Partnership) ∈ qb.spouses) ∧
    treeReducer (treeReducer linkSpouseWitnessTree (.linkSpouse "a" "b" none "u"))
        (.linkSpouse "a" "b" none "u")
      = treeReducer linkSpouseWitnessTree (.linkSpouse "a" "b" none "u") ∧
    (∀ b2 d2 pb2, b2 ≠ "a" →
      mget (treeReducer linkSpouseWitnessTree (.linkSpouse "a" "b" none "u")).people b2
        = some pb2 →
      ∃ qa2, mget (treeReducer (treeReducer linkSpouseWitnessTree (.linkSpouse "a" "b" none "u"))
          (.linkSpouse "a" b2 d2 "u")).people "a" = some qa2 ∧
        qa2.spouses.countP (fun q => q.unionId = "u") = 1)) :=
  ⟨by decide, by decide, by decide,
   linkSpouse_symmetry linkSpouseWitnessTree "a" "b" none "u" spouseWitnessA
     (mkPerson "b" [] [] []) (by decide) (by decide) (by decide) (by decide)⟩

/-- C6: `ReassignParents(c, parentIds)` (with `c` present) sets `c`'s
parents to exactly `parentIds` filtered to ids present in the mapping,
excluding `c` itself, de-duplicated preserving input order; every person
in that new set lists `c` among its children, and every other person
does not. -/
theorem reassignParents_spec (state : TreeData) (c : String) (pc : Person)
    (parentIds : List String) (hc : mget state.people c = some pc) :
    (∃ q, mget (treeReducer state (.reassignParentsAct c parentIds)).people c = some q ∧
      q.parents = ensureUnique (parentIds.filter
        (fun parentId => parentId ≠ c ∧ mhas state.people parentId))) ∧
    (∀ k, k ≠ c →
      ∀ q, mget (treeReducer state (.reassignParentsAct c parentIds)).people k = some q →
      (k ∈ ensureUnique (parentIds.filter
          (fun parentId => parentId ≠ c ∧ mhas state.people parentId)) → c ∈ q.children) ∧
      (k ∉ ensureUnique (parentIds.filter
          (fun parentId => parentId ≠ c ∧ mhas state.people parentId)) → c ∉ q.children)) := by
  have hred : (treeReducer state (.reassignParentsAct c parentIds)).people
      = mset
          (addChildToParents c
            ((state.people.filter (fun kv => kv.1 ≠ c)).map (fun kv =>
              (kv.1, sanitizePerson
                { kv.2 with children := kv.2.children.filter (fun x => x ≠ c) })))
            (ensureUnique (parentIds.filter
              (fun parentId => parentId ≠ c ∧ mhas state.people parentId))))
          c
          (sanitizePerson { pc with parents := ensureUnique (parentIds.filter
            (fun parentId => parentId ≠ c ∧ mhas state.people parentId)) }) := by
    simp [treeReducer, reassignParents, hc]
  constructor
  · refine ⟨sanitizePerson { pc with parents := ensureUnique (parentIds.filter
      (fun parentId => parentId ≠ c ∧ mhas state.people parentId)) }, ?_, ?_⟩
    · rw [hred]
      exact mget_mset_self _ _ _
    · show (sanitizePerson { pc with parents := ensureUnique (parentIds.filter
        (fun parentId => parentId ≠ c ∧ mhas state.people parentId)) }).parents = _
      show ensureUnique (ensureUnique (parentIds.filter
        (fun parentId => parentId ≠ c ∧ mhas state.people parentId))) = _
      exact ensureUnique_idem _
  · intro k hk q hq
    rw [hred, mget_mset_ne _ _ _ _ hk] at hq
    constructor
    · intro hkmem
      have hkfil := (mem_ensureUnique.mp hkmem)
      have hkp := List.mem_filter.mp hkfil
      have hkhas : mhas state.people k = true := by
        have := hkp.2
        simp only [decide_eq_true_eq] at this
        exact this.2
      obtain ⟨pk0, hpk0⟩ := mhas_eq_true_exists hkhas
      have hbase := mget_filter_map_sanitize c state.people k hk
      rw [hpk0] at hbase
      have hwp := mget_addChildToParents_mem c _ _ k _ (nodup_ensureUnique _) hkmem hbase
      rw [hwp] at hq
      have hq' : q = sanitizePerson { (sanitizePerson { pk0 with
          children := pk0.children.filter (fun x => x ≠ c) }) with
        children := ensureUnique ((sanitizePerson { pk0 with
          children := pk0.children.filter (fun x => x ≠ c) }).children ++ [c]) } := by
        exact (Option.some.injEq _ _).mp hq.symm
      rw [hq']
      show c ∈ ensureUnique (ensureUnique _)
      rw [mem_ensureUnique, mem_ensureUnique]
      simp
    · intro hknot
      rw [mget_addChildToParents_not_mem c _ _ k hknot] at hq
      rw [mget_filter_map_sanitize c state.people k hk] at hq
      cases hp0 : mget state.people k with
      | none => rw [hp0] at hq; simp at hq
      | some pk0 =>
        rw [hp0] at hq
        have hq' : q = sanitizePerson { pk0 with
            children := pk0.children.filter (fun x => x ≠ c) } := by
          exact (Option.some.injEq _ _).mp (by simpa using hq.symm)
        rw [hq']
        show c ∉ ensureUnique (pk0.children.filter (fun x => x ≠ c))
        rw [mem_ensureUnique]
        intro hmem
        have := List.mem_filter.mp hmem
        simp at this

/-- Witness for `reassignParents_spec`: the claim's particular instance —
`ReassignParents("c", ["p1", "p2", "c", "p1", "missing"])` on a snapshot
where only `p1` exists (besides `c` and the former parent `p0`). -/
theorem reassignParents_spec_witness :
    mget reassignWitnessTree.people "c" = some reassignWitnessC ∧
    ((∃ q, mget (treeReducer reassignWitnessTree
          (.reassignParentsAct "c" ["p1", "p2", "c", "p1", "missing"])).people "c" = some q ∧
      q.parents = ensureUnique ((["p1", "p2", "c", "p1", "missing"] : List String).filter
        (fun parentId => parentId ≠ "c" ∧ mhas reassignWitnessTree.people parentId))) ∧
    (∀ k, k ≠ "c" →
      ∀ q, mget (treeReducer reassignWitnessTree
          (.reassignParentsAct "c" ["p1", "p2", "c", "p1", "missing"])).people k = some q →
      (k ∈ ensureUnique ((["p1", "p2", "c", "p1", "missing"] : List String).filter
          (fun parentId => parentId ≠ "c" ∧ mhas reassignWitnessTree.people parentId)) →
        "c" ∈ q.children) ∧
      (k ∉ ensureUnique ((["p1", "p2", "c", "p1", "missing"] : List String).filter
          (fun parentId => parentId ≠ "c" ∧ mhas reassignWitnessTree.people parentId)) →
        "c" ∉ q.children))) ∧
    ensureUnique ((["p1", "p2", "c", "p1", "missing"] : List String).filter
      (fun parentId => parentId ≠ "c" ∧ mhas reassignWitnessTree.people parentId)) = ["p1"] :=
  ⟨by decide,
   reassignParents_spec reassignWitnessTree "c" reassignWitnessC
     ["p1", "p2", "c", "p1", "missing"] (by decide),
   by decide⟩

/-- Witness for `resolveDefaultPartnerIds_cases`: a married pair resolves
to the two partner ids. -/
theorem resolveDefaultPartnerIds_cases_witness :
    mget marriedPairTree.people "a" = some marriedA ∧
    resolveDefaultPartnerIds marriedPairTree "a" = ["a", "b"] := by
  constructor
  · decide
  · have h := (resolveDefaultPartnerIds_cases marriedPairTree "a" marriedA (by decide)).2
      ⟨"b", none, "u1"⟩ (by decide)
    exact h.2 (mkPerson "b" [] [⟨"a", none, "u1"⟩] []) (by decide)

/-!
## The union pass on a married couple (C9) and person-node totality (C10)
-/

/-!
## The union pass on a married couple (C9)
-/

theorem string_ne_of_char {s t : String} {ch : Char} (h1 : ch ∈ s.data)
    (h2 : ch ∉ t.data) : s ≠ t :=
  fun he => h2 (he ▸ h1)

theorem append_ne_append {a b s t : String} (hlen : s.length = t.length)
    (hne : a ≠ b) : a ++ s ≠ b ++ t := by
  intro h
  apply hne
  apply String.ext
  have hd : a.data ++ s.data = b.data ++ t.data := by
    rw [← String.data_append, ← String.data_append, h]
  exact (List.append_inj' hd hlen).1

theorem append_cancel_left_str {a s t : String} (h : a ++ s = a ++ t) : s = t := by
  apply String.ext
  refine @List.append_cancel_left _ a.data s.data t.data ?_
  rw [← String.data_append, ← String.data_append, h]

theorem child_id_ne_u1partner (uid cid : String) :
    uid ++ "-child-" ++ cid ≠ "u1-partner-0" ∧ uid ++ "-child-" ++ cid ≠ "u1-partner-1" := by
  have hm : 'h' ∈ (uid ++ "-child-" ++ cid).data := by
    rw [String.data_append, String.data_append]
    exact List.mem_append_left _ (List.mem_append_right _ (by decide))
  exact ⟨string_ne_of_char hm (by decide), string_ne_of_char hm (by decide)⟩

theorem child_id_inj {cid c : String} (uid : String)
    (h : uid ++ "-child-" ++ cid = uid ++ "-child-" ++ c) : cid = c :=
  append_cancel_left_str (a := uid ++ "-child-") h

theorem direct_id_ne_u1partner (p c2 : String) :
    "direct-" ++ p ++ "-" ++ c2 ≠ "u1-partner-0" ∧
    "direct-" ++ p ++ "-" ++ c2 ≠ "u1-partner-1" := by
  have hm : 'd' ∈ ("direct-" ++ p ++ "-" ++ c2).data := by
    rw [String.data_append, String.data_append, String.data_append]
    exact List.mem_append_left _ (List.mem_append_left _ (List.mem_append_left _ (by decide)))
  exact ⟨string_ne_of_char hm (by decide), string_ne_of_char hm (by decide)⟩

theorem partner_id_ne {uid : String} (huid : uid ≠ "u1") {i j : String}
    (hi : i = "-partner-0" ∨ i = "-partner-1") (hj : j = "-partner-0" ∨ j = "-partner-1") :
    uid ++ i ≠ "u1" ++ j := by
  rcases hi with rfl | rfl <;> rcases hj with rfl | rfl <;>
    exact append_ne_append (by decide) huid

theorem isU1PartnerEdge_child (uid cid : String) (s d2 : JsNum × JsNum) :
    isU1PartnerEdge ⟨uid ++ "-child-" ++ cid, s, d2⟩ = false := by
  have h := child_id_ne_u1partner uid cid
  simp [isU1PartnerEdge, h.1, h.2]

theorem isU1PartnerEdge_direct (p c2 : String) (s d2 : JsNum × JsNum) :
    isU1PartnerEdge ⟨"direct-" ++ p ++ "-" ++ c2, s, d2⟩ = false := by
  have h := direct_id_ne_u1partner p c2
  simp [isU1PartnerEdge, h.1, h.2]

theorem isU1PartnerEdge_new {uid : String} (h : uid ≠ "u1") (s d2 : JsNum × JsNum)
    {i : String} (hi : i = "-partner-0" ∨ i = "-partner-1") :
    isU1PartnerEdge ⟨uid ++ i, s, d2⟩ = false := by
  have h0 : uid ++ i ≠ "u1-partner-0" := by
    have he : ("u1-partner-0" : String) = "u1" ++ "-partner-0" := rfl
    rw [he]
    exact partner_id_ne h hi (Or.inl rfl)
  have h1 : uid ++ i ≠ "u1-partner-1" := by
    have he : ("u1-partner-1" : String) = "u1" ++ "-partner-1" := rfl
    rw [he]
    exact partner_id_ne h hi (Or.inr rfl)
  simp [isU1PartnerEdge, h0, h1]

theorem isU1PartnerEdge_true0 (s d2 : JsNum × JsNum) :
    isU1PartnerEdge ⟨"u1-partner-0", s, d2⟩ = true := by
  simp [isU1PartnerEdge]

theorem isU1PartnerEdge_true1 (s d2 : JsNum × JsNum) :
    isU1PartnerEdge ⟨"u1-partner-1", s, d2⟩ = true := by
  simp [isU1PartnerEdge]

theorem mem_unionChildEdgeList {pm : List (String × PersonLayoutNode)} {uid : String}
    {uc : JsNum × JsNum} {children : List String} {e : LayoutEdge}
    (h : e ∈ unionChildEdgeList pm uid uc children) :
    ∃ cid cn, cid ∈ children ∧ mget pm cid = some cn ∧
      e = ⟨uid ++ "-child-" ++ cid, (uc.1, jadd uc.2 (jhalf UNION_NODE_SIZE)),
           (jadd cn.x (jhalf cn.width), cn.y)⟩ := by
  unfold unionChildEdgeList at h
  rw [List.mem_filterMap] at h
  obtain ⟨cid, hc, he⟩ := h
  cases hm : mget pm cid with
  | none => rw [hm] at he; exact absurd he (by simp)
  | some cn =>
    rw [hm] at he
    simp only [Option.some.injEq] at he
    exact ⟨cid, cn, hc, hm, he.symm⟩

theorem filter_isU1_unionChildEdgeList (pm : List (String × PersonLayoutNode))
    (uid : String) (uc : JsNum × JsNum) (children : List String) :
    (unionChildEdgeList pm uid uc children).filter isU1PartnerEdge = [] := by
  rw [List.filter_eq_nil_iff]
  intro e he
  obtain ⟨cid, cn, _, _, rfl⟩ := mem_unionChildEdgeList he
  simp [isU1PartnerEdge_child]

theorem unionChildLinkAdds_mem (pm : List (String × PersonLayoutNode))
    (partners : String × String) {children : List String} {cid : String} {cn : PersonLayoutNode}
    (h1 : cid ∈ children) (h2 : mget pm cid = some cn) :
    partners.1 ++ "-" ++ cid ∈ unionChildLinkAdds pm partners children ∧
    partners.2 ++ "-" ++ cid ∈ unionChildLinkAdds pm partners children := by
  unfold unionChildLinkAdds
  constructor <;> (rw [List.mem_flatMap]; exact ⟨cid, h1, by rw [h2]; simp⟩)

theorem processSpouseEntry_skip (tree : TreeData) (pm : List (String × PersonLayoutNode))
    (person : Person) (st : UnionPassState) (sp : Partnership)
    (h : sp.unionId ∈ st.processedUnions) :
    processSpouseEntry tree pm person st sp = st := by
  unfold processSpouseEntry
  rw [if_pos h]

theorem processSpouseEntry_create (tree : TreeData) (pm : List (String × PersonLayoutNode))
    (person : Person) (st : UnionPassState) (sp : Partnership) (partner : Person)
    (pn qn : PersonLayoutNode)
    (h1 : sp.unionId ∉ st.processedUnions)
    (h2 : mget tree.people sp.spouseId = some partner)
    (h3 : mget pm person.id = some pn) (h4 : mget pm partner.id = some qn) :
    processSpouseEntry tree pm person st sp =
      { unionNodes := st.unionNodes ++
          [⟨sp.unionId, (person.id, partner.id),
            jsub (ucOf pn qn).1 (jhalf UNION_NODE_SIZE),
            jsub (ucOf pn qn).2 (jhalf UNION_NODE_SIZE),
            findUnionChildren tree person.id partner.id⟩]
        edges := st.edges ++
          [⟨sp.unionId ++ "-partner-0", nodeCenter pn, ucOf pn qn⟩,
           ⟨sp.unionId ++ "-partner-1", nodeCenter qn, ucOf pn qn⟩] ++
          unionChildEdgeList pm sp.unionId (ucOf pn qn)
            (findUnionChildren tree person.id partner.id)
        processedUnions := st.processedUnions ++ [sp.unionId]
        unionChildLinks := st.unionChildLinks ++
          unionChildLinkAdds pm (person.id, partner.id)
            (findUnionChildren tree person.id partner.id) } := by
  unfold processSpouseEntry
  rw [if_neg h1]
  simp only [h2, h3, h4]
  rfl

theorem processSpouseEntry_cases (tree : TreeData) (pm : List (String × PersonLayoutNode))
    (person : Person) (st : UnionPassState) (sp : Partnership) :
    processSpouseEntry tree pm person st sp = st ∨
    ∃ partner pn qn, sp.unionId ∉ st.processedUnions ∧
      mget tree.people sp.spouseId = some partner ∧
      mget pm person.id = some pn ∧ mget pm partner.id = some qn := by
  by_cases h1 : sp.unionId ∈ st.processedUnions
  · exact Or.inl (processSpouseEntry_skip tree pm person st sp h1)
  · cases h2 : mget tree.people sp.spouseId with
    | none => left; unfold processSpouseEntry; rw [if_neg h1]; simp only [h2]
    | some partner =>
      cases h3 : mget pm person.id with
      | none =>
        left; unfold processSpouseEntry; rw [if_neg h1]; simp only [h2, h3]
      | some pn =>
        cases h4 : mget pm partner.id with
        | none => left; unfold processSpouseEntry; rw [if_neg h1]; simp only [h2, h3, h4]
        | some qn => exact Or.inr ⟨partner, pn, qn, h1, rfl, rfl, h4⟩

theorem findUnionChildren_symm (tree : TreeData) (x y : String) :
    findUnionChildren tree x y = findUnionChildren tree y x := by
  unfold findUnionChildren
  congr 1
  apply List.filter_congr
  intro p _
  exact decide_eq_decide.mpr ⟨fun h => ⟨h.2, h.1⟩, fun h => ⟨h.2, h.1⟩⟩

theorem value_unique_of_nodup_keys {α : Type} {m : List (String × α)}
    (hnd : (m.map Prod.fst).Nodup) {k : String} {v w : α}
    (h1 : (k, v) ∈ m) (h2 : (k, w) ∈ m) : v = w := by
  have e1 := mget_of_mem_nodup hnd h1
  have e2 := mget_of_mem_nodup hnd h2
  rw [e1] at e2
  exact Option.some.inj e2

theorem c9_child_mem (tree : TreeData) {a b c : String} {PC : Person}
    (hmemc : (c, PC) ∈ tree.people) (hid : PC.id = c)
    (hpa : a ∈ PC.parents) (hpb : b ∈ PC.parents) : c ∈ findUnionChildren tree a b := by
  unfold findUnionChildren
  rw [List.mem_map]
  refine ⟨PC, ?_, hid⟩
  rw [List.mem_filter]
  exact ⟨List.mem_map.mpr ⟨(c, PC), hmemc, rfl⟩, by simp [hpa, hpb]⟩

theorem filter_isU1_newPartnerPair {uid : String} (h : uid ≠ "u1")
    (s1 d1 s2 d2 : JsNum × JsNum) :
    List.filter isU1PartnerEdge
      [⟨uid ++ "-partner-0", s1, d1⟩, ⟨uid ++ "-partner-1", s2, d2⟩] = [] := by
  have h0 : ¬(isU1PartnerEdge ⟨uid ++ "-partner-0", s1, d1⟩ = true) := by
    simp [isU1PartnerEdge_new h s1 d1 (Or.inl rfl)]
  have h1 : ¬(isU1PartnerEdge ⟨uid ++ "-partner-1", s2, d2⟩ = true) := by
    simp [isU1PartnerEdge_new h s2 d2 (Or.inr rfl)]
  rw [List.filter_cons_of_neg h0, List.filter_cons_of_neg h1, List.filter_nil]

theorem c9Inv_step (tree : TreeData) (pm : List (String × PersonLayoutNode))
    (a b c : String) (na nb : PersonLayoutNode) (person : Person) (st : UnionPassState)
    (sp : Partnership) (hsp : sp.unionId ≠ "u1")
    (hInv : C9Inv tree pm a b c na nb st) :
    C9Inv tree pm a b c na nb (processSpouseEntry tree pm person st sp) := by
  rcases processSpouseEntry_cases tree pm person st sp with heq | ⟨partner, pn, qn, h1, h2, h3, h4⟩
  · rw [heq]; exact hInv
  · rw [processSpouseEntry_create tree pm person st sp partner pn qn h1 h2 h3 h4]
    rcases hInv with ⟨hnp, hfe, hfn⟩ | ⟨hp, hpost⟩
    · left
      refine ⟨?_, ?_, ?_⟩
      · intro hmem
        rcases List.mem_append.mp hmem with h | h
        · exact hnp h
        · simp at h; exact hsp h.symm
      · rw [List.filter_append, List.filter_append, hfe, filter_isU1_unionChildEdgeList,
          List.nil_append, List.append_nil, filter_isU1_newPartnerPair hsp]
      · intro u hu hid
        rcases List.mem_append.mp hu with h | h
        · exact hfn u h hid
        · simp at h; rw [h] at hid; exact hsp hid
    · right
      constructor
      · exact List.mem_append_left _ hp
      · obtain ⟨u, uc, hufilt, huid, hsides, hx, hy, hch, hce, hl1, hl2⟩ := hpost
        refine ⟨u, uc, ?_, huid, ?_, hx, hy, hch, ?_,
          List.mem_append_left _ hl1, List.mem_append_left _ hl2⟩
        · rw [List.filter_append, hufilt]
          simp [hsp]
        · have hrw : (st.edges ++
              ([⟨sp.unionId ++ "-partner-0", nodeCenter pn, ucOf pn qn⟩,
                ⟨sp.unionId ++ "-partner-1", nodeCenter qn, ucOf pn qn⟩] : List LayoutEdge) ++
              unionChildEdgeList pm sp.unionId (ucOf pn qn)
                (findUnionChildren tree person.id partner.id)).filter isU1PartnerEdge
              = st.edges.filter isU1PartnerEdge := by
            rw [List.filter_append, List.filter_append, filter_isU1_unionChildEdgeList,
              List.append_nil, filter_isU1_newPartnerPair hsp, List.append_nil]
          rcases hsides with ⟨hpart, huceq, hfilt⟩ | ⟨hpart, huceq, hfilt⟩
          · exact Or.inl ⟨hpart, huceq, by rw [hrw, hfilt]⟩
          · exact Or.inr ⟨hpart, huceq, by rw [hrw, hfilt]⟩
        · intro e he
          exact List.mem_append_left _ (List.mem_append_left _ (hce e he))

theorem c9Inv_establish (tree : TreeData) (pm : List (String × PersonLayoutNode))
    (a b c : String) (na nb : PersonLayoutNode) (person : Person) (st : UnionPassState)
    (sp : Partnership) (partner : Person) (n1 n2 : PersonLayoutNode)
    (hspu : sp.unionId = "u1")
    (h2 : mget tree.people sp.spouseId = some partner)
    (h3 : mget pm person.id = some n1) (h4 : mget pm partner.id = some n2)
    (hside : (person.id = a ∧ partner.id = b ∧ n1 = na ∧ n2 = nb) ∨
             (person.id = b ∧ partner.id = a ∧ n1 = nb ∧ n2 = na))
    (hcmem : c ∈ findUnionChildren tree a b)
    (hcpos : mhas pm c = true)
    (hnp : "u1" ∉ st.processedUnions)
    (hfe : st.edges.filter isU1PartnerEdge = [])
    (hfn : ∀ u ∈ st.unionNodes, u.id ≠ "u1") :
    "u1" ∈ (processSpouseEntry tree pm person st sp).processedUnions ∧
    C9Post tree pm a b c na nb (processSpouseEntry tree pm person st sp).unionNodes
      (processSpouseEntry tree pm person st sp).edges
      (processSpouseEntry tree pm person st sp).unionChildLinks := by
  have h1 : sp.unionId ∉ st.processedUnions := by rw [hspu]; exact hnp
  obtain ⟨cn, hcn⟩ := mhas_eq_true_exists hcpos
  rw [processSpouseEntry_create tree pm person st sp partner n1 n2 h1 h2 h3 h4]
  rw [hspu]
  constructor
  · exact List.mem_append_right _ (by simp)
  · have hchn : findUnionChildren tree person.id partner.id = findUnionChildren tree a b := by
      rcases hside with ⟨hpa, hpb, _, _⟩ | ⟨hpb, hpa, _, _⟩
      · rw [hpa, hpb]
      · rw [hpb, hpa, findUnionChildren_symm]
    refine ⟨⟨"u1", (person.id, partner.id),
        jsub (ucOf n1 n2).1 (jhalf UNION_NODE_SIZE),
        jsub (ucOf n1 n2).2 (jhalf UNION_NODE_SIZE),
        findUnionChildren tree person.id partner.id⟩, ucOf n1 n2,
      ?_, rfl, ?_, rfl, rfl, ?_, ?_, ?_, ?_⟩
    · rw [List.filter_append]
      have h0 : List.filter (fun u2 : UnionLayoutNode => u2.id = "u1") st.unionNodes = [] := by
        rw [List.filter_eq_nil_iff]
        intro x hx
        simp [hfn x hx]
      rw [h0, List.nil_append]
      simp
    · have hfilt : (st.edges ++
          ([⟨"u1" ++ "-partner-0", nodeCenter n1, ucOf n1 n2⟩,
            ⟨"u1" ++ "-partner-1", nodeCenter n2, ucOf n1 n2⟩] : List LayoutEdge) ++
          unionChildEdgeList pm "u1" (ucOf n1 n2)
            (findUnionChildren tree person.id partner.id)).filter isU1PartnerEdge
          = [⟨"u1-partner-0", nodeCenter n1, ucOf n1 n2⟩,
             ⟨"u1-partner-1", nodeCenter n2, ucOf n1 n2⟩] := by
        rw [List.filter_append, List.filter_append, hfe, filter_isU1_unionChildEdgeList,
          List.nil_append, List.append_nil]
        have he0 : ("u1" : String) ++ "-partner-0" = "u1-partner-0" := rfl
        have he1 : ("u1" : String) ++ "-partner-1" = "u1-partner-1" := rfl
        rw [he0, he1]
        rw [List.filter_cons_of_pos (by exact isU1PartnerEdge_true0 _ _),
          List.filter_cons_of_pos (by exact isU1PartnerEdge_true1 _ _), List.filter_nil]
      rcases hside with ⟨hpa, hpb, hn1, hn2⟩ | ⟨hpb, hpa, hn1, hn2⟩
      · exact Or.inl ⟨by rw [hpa, hpb], by rw [hn1, hn2], by rw [hfilt, hn1, hn2]⟩
      · exact Or.inr ⟨by rw [hpb, hpa], by rw [hn1, hn2], by rw [hfilt, hn1, hn2]⟩
    · exact hchn
    · intro e he
      exact List.mem_append_right _ (by simpa using he)
    · have hcm2 : c ∈ findUnionChildren tree person.id partner.id := by rw [hchn]; exact hcmem
      have hadd := unionChildLinkAdds_mem pm (person.id, partner.id) hcm2 hcn
      rcases hside with ⟨hpa, hpb, _, _⟩ | ⟨hpb, hpa, _, _⟩
      · exact List.mem_append_right _ (by rw [← hpa]; exact hadd.1)
      · exact List.mem_append_right _ (by rw [← hpa]; exact hadd.2)
    · have hcm2 : c ∈ findUnionChildren tree person.id partner.id := by rw [hchn]; exact hcmem
      have hadd := unionChildLinkAdds_mem pm (person.id, partner.id) hcm2 hcn
      rcases hside with ⟨hpa, hpb, _, _⟩ | ⟨hpb, hpa, _, _⟩
      · exact List.mem_append_right _ (by rw [← hpb]; exact hadd.2)
      · exact List.mem_append_right _ (by rw [← hpb]; exact hadd.1)

theorem processSpouseEntry_processed_mono (tree : TreeData)
    (pm : List (String × PersonLayoutNode)) (person : Person) (st : UnionPassState)
    (sp : Partnership) {x : String} (hx : x ∈ st.processedUnions) :
    x ∈ (processSpouseEntry tree pm person st sp).processedUnions := by
  rcases processSpouseEntry_cases tree pm person st sp with heq | ⟨partner, pn, qn, h1, h2, h3, h4⟩
  · rw [heq]; exact hx
  · rw [processSpouseEntry_create tree pm person st sp partner pn qn h1 h2 h3 h4]
    exact List.mem_append_left _ hx

theorem foldl_processed_mono (tree : TreeData) (pm : List (String × PersonLayoutNode))
    (person : Person) :
    ∀ (l : List Partnership) (st : UnionPassState) {x : String}, x ∈ st.processedUnions →
      x ∈ (l.foldl (processSpouseEntry tree pm person) st).processedUnions := by
  intro l
  induction l with
  | nil => intro st x hx; exact hx
  | cons sp rest ih =>
    intro st x hx
    rw [List.foldl_cons]
    exact ih _ (processSpouseEntry_processed_mono tree pm person st sp hx)

theorem peopleFold_processed_mono (tree : TreeData) (pm : List (String × PersonLayoutNode)) :
    ∀ (l : List (String × Person)) (st : UnionPassState) {x : String},
      x ∈ st.processedUnions →
      x ∈ ((l.map (fun kv => kv.2)).foldl
        (fun st person => person.spouses.foldl (processSpouseEntry tree pm person) st)
        st).processedUnions := by
  intro l
  induction l with
  | nil => intro st x hx; exact hx
  | cons kv rest ih =>
    intro st x hx
    rw [List.map_cons, List.foldl_cons]
    exact ih _ (foldl_processed_mono tree pm kv.2 kv.2.spouses st hx)

theorem c9Inv_fold_entries (tree : TreeData) (pm : List (String × PersonLayoutNode))
    (a b c : String) (na nb : PersonLayoutNode) (person : Person) :
    ∀ (l : List Partnership), (∀ sp ∈ l, sp.unionId ≠ "u1") →
      ∀ st, C9Inv tree pm a b c na nb st →
        C9Inv tree pm a b c na nb (l.foldl (processSpouseEntry tree pm person) st) := by
  intro l
  induction l with
  | nil => intro _ st h; exact h
  | cons sp rest ih =>
    intro hno st h
    rw [List.foldl_cons]
    exact ih (fun q hq => hno q (List.mem_cons_of_mem _ hq)) _
      (c9Inv_step tree pm a b c na nb person st sp (hno sp (List.mem_cons_self _ _)) h)

theorem c9Inv_person_a (tree : TreeData) (pm : List (String × PersonLayoutNode))
    (a b c : String) (PA PB PC : Person) (da db : Option String) (na nb : PersonLayoutNode)
    (hs : C9Scenario tree a b c PA PB PC da db)
    (hna : mget pm a = some na) (hnb : mget pm b = some nb) (hcpos : mhas pm c = true)
    (st : UnionPassState) (hInv : C9Inv tree pm a b c na nb st) :
    C9Inv tree pm a b c na nb (PA.spouses.foldl (processSpouseEntry tree pm PA) st) ∧
    "u1" ∈ (PA.spouses.foldl (processSpouseEntry tree pm PA) st).processedUnions := by
  obtain ⟨hnd, hids, hma, hmb, hmc, hsa, hsb, hpc, hab, hac, hbc, honly⟩ := hs
  have hPAid : PA.id = a := hids (a, PA) hma
  have hPBid : PB.id = b := hids (b, PB) hmb
  have hPCid : PC.id = c := hids (c, PC) hmc
  rw [hsa, List.foldl_cons, List.foldl_nil]
  rcases hInv with ⟨hnp, hfe, hfn⟩ | ⟨hp, hpost⟩
  · have h2 : mget tree.people (Partnership.mk b da "u1").spouseId = some PB :=
      mget_of_mem_nodup hnd hmb
    have hcm : c ∈ findUnionChildren tree a b :=
      c9_child_mem tree hmc hPCid (by rw [hpc]; simp) (by rw [hpc]; simp)
    have hest := c9Inv_establish tree pm a b c na nb PA st ⟨b, da, "u1"⟩ PB na nb rfl h2
      (by rw [hPAid]; exact hna) (by rw [hPBid]; exact hnb)
      (Or.inl ⟨hPAid, hPBid, rfl, rfl⟩) hcm hcpos hnp hfe hfn
    exact ⟨Or.inr ⟨hest.1, hest.2⟩, hest.1⟩
  · rw [processSpouseEntry_skip tree pm PA st ⟨b, da, "u1"⟩ hp]
    exact ⟨Or.inr ⟨hp, hpost⟩, hp⟩

theorem c9Inv_person_b (tree : TreeData) (pm : List (String × PersonLayoutNode))
    (a b c : String) (PA PB PC : Person) (da db : Option String) (na nb : PersonLayoutNode)
    (hs : C9Scenario tree a b c PA PB PC da db)
    (hna : mget pm a = some na) (hnb : mget pm b = some nb) (hcpos : mhas pm c = true)
    (st : UnionPassState) (hInv : C9Inv tree pm a b c na nb st) :
    C9Inv tree pm a b c na nb (PB.spouses.foldl (processSpouseEntry tree pm PB) st) := by
  obtain ⟨hnd, hids, hma, hmb, hmc, hsa, hsb, hpc, hab, hac, hbc, honly⟩ := hs
  have hPAid : PA.id = a := hids (a, PA) hma
  have hPBid : PB.id = b := hids (b, PB) hmb
  have hPCid : PC.id = c := hids (c, PC) hmc
  rw [hsb, List.foldl_cons, List.foldl_nil]
  rcases hInv with ⟨hnp, hfe, hfn⟩ | ⟨hp, hpost⟩
  · have h2 : mget tree.people (Partnership.mk a db "u1").spouseId = some PA :=
      mget_of_mem_nodup hnd hma
    have hcm : c ∈ findUnionChildren tree a b :=
      c9_child_mem tree hmc hPCid (by rw [hpc]; simp) (by rw [hpc]; simp)
    have hest := c9Inv_establish tree pm a b c na nb PB st ⟨a, db, "u1"⟩ PA nb na rfl h2
      (by rw [hPBid]; exact hnb) (by rw [hPAid]; exact hna)
      (Or.inr ⟨hPBid, hPAid, rfl, rfl⟩) hcm hcpos hnp hfe hfn
    exact Or.inr ⟨hest.1, hest.2⟩
  · rw [processSpouseEntry_skip tree pm PB st ⟨a, db, "u1"⟩ hp]
    exact Or.inr ⟨hp, hpost⟩

theorem c9Inv_person (tree : TreeData) (pm : List (String × PersonLayoutNode))
    (a b c : String) (PA PB PC : Person) (da db : Option String) (na nb : PersonLayoutNode)
    (hs : C9Scenario tree a b c PA PB PC da db)
    (hna : mget pm a = some na) (hnb : mget pm b = some nb) (hcpos : mhas pm c = true)
    (kv : String × Person) (hkv : kv ∈ tree.people) (st : UnionPassState)
    (hInv : C9Inv tree pm a b c na nb st) :
    C9Inv tree pm a b c na nb (kv.2.spouses.foldl (processSpouseEntry tree pm kv.2) st) := by
  obtain ⟨hnd, hids, hma, hmb, hmc, hsa, hsb, hpc, hab, hac, hbc, honly⟩ := hs
  by_cases hka : kv.1 = a
  · have hkv2 : (a, kv.2) ∈ tree.people := by rw [← hka]; exact hkv
    have hveq : kv.2 = PA := value_unique_of_nodup_keys hnd hkv2 hma
    rw [hveq]
    exact (c9Inv_person_a tree pm a b c PA PB PC da db na nb
      ⟨hnd, hids, hma, hmb, hmc, hsa, hsb, hpc, hab, hac, hbc, honly⟩
      hna hnb hcpos st hInv).1
  · by_cases hkb : kv.1 = b
    · have hkv2 : (b, kv.2) ∈ tree.people := by rw [← hkb]; exact hkv
      have hveq : kv.2 = PB := value_unique_of_nodup_keys hnd hkv2 hmb
      rw [hveq]
      exact c9Inv_person_b tree pm a b c PA PB PC da db na nb
        ⟨hnd, hids, hma, hmb, hmc, hsa, hsb, hpc, hab, hac, hbc, honly⟩
        hna hnb hcpos st hInv
    · have hno : ∀ sp ∈ kv.2.spouses, sp.unionId ≠ "u1" := by
        intro sp hsp h
        rcases honly kv hkv sp hsp h with h' | h'
        · exact hka h'
        · exact hkb h'
      exact c9Inv_fold_entries tree pm a b c na nb kv.2 kv.2.spouses hno st hInv

theorem c9Inv_fold_people (tree : TreeData) (pm : List (String × PersonLayoutNode))
    (a b c : String) (PA PB PC : Person) (da db : Option String) (na nb : PersonLayoutNode)
    (hs : C9Scenario tree a b c PA PB PC da db)
    (hna : mget pm a = some na) (hnb : mget pm b = some nb) (hcpos : mhas pm c = true) :
    ∀ (l : List (String × Person)), (∀ kv ∈ l, kv ∈ tree.people) →
      ∀ st, C9Inv tree pm a b c na nb st →
        C9Inv tree pm a b c na nb ((l.map (fun kv => kv.2)).foldl
          (fun st person => person.spouses.foldl (processSpouseEntry tree pm person) st) st) := by
  intro l
  induction l with
  | nil => intro _ st h; exact h
  | cons kv rest ih =>
    intro hmem st h
    rw [List.map_cons, List.foldl_cons]
    exact ih (fun q hq => hmem q (List.mem_cons_of_mem _ hq)) _
      (c9Inv_person tree pm a b c PA PB PC da db na nb hs hna hnb hcpos kv
        (hmem kv (List.mem_cons_self _ _)) st h)

theorem c9_unionPass (tree : TreeData) (pm : List (String × PersonLayoutNode))
    (a b c : String) (PA PB PC : Person) (da db : Option String) (na nb : PersonLayoutNode)
    (hs : C9Scenario tree a b c PA PB PC da db)
    (hna : mget pm a = some na) (hnb : mget pm b = some nb) (hcpos : mhas pm c = true) :
    C9Post tree pm a b c na nb (unionPass tree pm).unionNodes (unionPass tree pm).edges
      (unionPass tree pm).unionChildLinks := by
  obtain ⟨l1, l2, hsplit⟩ := List.append_of_mem hs.2.2.1
  have hInit : C9Inv tree pm a b c na nb
      { unionNodes := [], edges := [], processedUnions := [], unionChildLinks := [] } :=
    Or.inl ⟨by simp, rfl, by simp⟩
  unfold unionPass
  rw [hsplit, List.map_append, List.foldl_append, List.map_cons, List.foldl_cons]
  have hmem1 : ∀ kv ∈ l1, kv ∈ tree.people := by
    intro kv hkv; rw [hsplit]; exact List.mem_append_left _ hkv
  have hst1 := c9Inv_fold_people tree pm a b c PA PB PC da db na nb hs hna hnb hcpos
    l1 hmem1 _ hInit
  have hstep := c9Inv_person_a tree pm a b c PA PB PC da db na nb hs hna hnb hcpos _ hst1
  have hmem2 : ∀ kv ∈ l2, kv ∈ tree.people := by
    intro kv hkv; rw [hsplit]
    exact List.mem_append_right _ (List.mem_cons_of_mem _ hkv)
  have hfin := c9Inv_fold_people tree pm a b c PA PB PC da db na nb hs hna hnb hcpos
    l2 hmem2 _ hstep.1
  have hproc := peopleFold_processed_mono tree pm l2 _ hstep.2
  rcases hfin with ⟨hnp, _, _⟩ | ⟨_, hpost⟩
  · exact absurd hproc hnp
  · exact hpost

theorem count_map_eq_countP {α β : Type} [DecidableEq β] (f : α → β) (y : β) :
    ∀ l : List α, (l.map f).count y = l.countP (fun x => f x = y) := by
  intro l
  induction l with
  | nil => rfl
  | cons x rest ih =>
    rw [List.map_cons, List.count_cons, List.countP_cons, ih]
    simp [beq_iff_eq]

theorem countP_key_eq_one {α : Type} (k : String) :
    ∀ (m : List (String × α)), (m.map Prod.fst).Nodup → (∃ v, (k, v) ∈ m) →
      m.countP (fun kv => kv.1 = k) = 1 := by
  intro m
  induction m with
  | nil => intro _ hv; obtain ⟨v, hv⟩ := hv; simp at hv
  | cons kv0 rest ih =>
    intro hnd hv
    obtain ⟨v, hm⟩ := hv
    rw [List.map_cons, List.nodup_cons] at hnd
    rw [List.countP_cons]
    by_cases hk : kv0.1 = k
    · have hzero : rest.countP (fun kv => kv.1 = k) = 0 := by
        apply List.countP_eq_zero.mpr
        intro q hq hqk
        simp at hqk
        exact hnd.1 (List.mem_map.mpr ⟨q, hq, hqk.trans hk.symm⟩)
      rw [hzero, if_pos (by simp [hk])]
    · have hmem : (k, v) ∈ rest := by
        rcases List.mem_cons.mp hm with h | h
        · exact absurd ((congrArg Prod.fst h).symm) hk
        · exact h
      rw [ih hnd.2 ⟨v, hmem⟩, if_neg (by simp [hk])]

theorem findUnionChildren_count (tree : TreeData) {a b c : String} {PC : Person}
    (hnd : (tree.people.map Prod.fst).Nodup)
    (hids : ∀ kv ∈ tree.people, kv.2.id = kv.1)
    (hmc : (c, PC) ∈ tree.people)
    (hpa : a ∈ PC.parents) (hpb : b ∈ PC.parents) :
    (findUnionChildren tree a b).count c = 1 := by
  unfold findUnionChildren
  rw [count_map_eq_countP, List.countP_filter, List.countP_map]
  have hc := countP_key_eq_one c tree.people hnd ⟨PC, hmc⟩
  rw [← hc]
  apply List.countP_congr
  intro kv hkv
  simp only [Function.comp]
  by_cases hk : kv.1 = c
  · have hveq : kv.2 = PC := by
      apply value_unique_of_nodup_keys hnd ?_ hmc
      rw [← hk]
      exact hkv
    have hidc : PC.id = c := hids (c, PC) hmc
    simp [hveq, hidc, hpa, hpb, hk]
  · have hid : kv.2.id = kv.1 := hids kv hkv
    simp [hid, hk]

theorem unionChildEdgeList_cons (pm : List (String × PersonLayoutNode)) (uid : String)
    (uc : JsNum × JsNum) (k : String) (rest : List String) :
    unionChildEdgeList pm uid uc (k :: rest) =
      (match mget pm k with
        | none => []
        | some cn => [⟨uid ++ "-child-" ++ k, (uc.1, jadd uc.2 (jhalf UNION_NODE_SIZE)),
            (jadd cn.x (jhalf cn.width), cn.y)⟩]) ++ unionChildEdgeList pm uid uc rest := by
  unfold unionChildEdgeList
  rw [List.filterMap_cons]
  cases hm : mget pm k <;> simp [hm]

theorem filter_child_nil (pm : List (String × PersonLayoutNode)) (uc : JsNum × JsNum)
    {c : String} {rest : List String} (hno : c ∉ rest) :
    (unionChildEdgeList pm "u1" uc rest).filter
      (fun e => e.id = "u1" ++ "-child-" ++ c) = [] := by
  rw [List.filter_eq_nil_iff]
  intro e he
  obtain ⟨cid, cn, hcid, _, rfl⟩ := mem_unionChildEdgeList he
  simp only [decide_eq_true_eq]
  intro heq
  exact hno (child_id_inj "u1" heq ▸ hcid)

theorem unionChildEdgeList_filter_child (pm : List (String × PersonLayoutNode))
    (uc : JsNum × JsNum) {c : String} {nc : PersonLayoutNode} (hc : mget pm c = some nc) :
    ∀ (children : List String), children.count c = 1 →
      (unionChildEdgeList pm "u1" uc children).filter
          (fun e => e.id = "u1" ++ "-child-" ++ c) =
        [⟨"u1" ++ "-child-" ++ c, (uc.1, jadd uc.2 (jhalf UNION_NODE_SIZE)),
          (jadd nc.x (jhalf nc.width), nc.y)⟩] := by
  intro children
  induction children with
  | nil => intro h; simp at h
  | cons k rest ih =>
    intro h
    rw [unionChildEdgeList_cons]
    by_cases hk : k = c
    · subst hk
      rw [hc, List.filter_append]
      have hcount : rest.count k = 0 := by
        rw [List.count_cons_self] at h
        omega
      rw [filter_child_nil pm uc (List.count_eq_zero.mp hcount), List.append_nil]
      rw [List.filter_cons_of_pos (by simp), List.filter_nil]
    · have hcount : rest.count c = 1 := by
        rw [List.count_cons_of_ne (fun hcc => hk hcc.symm)] at h
        exact h
      rw [List.filter_append, ih hcount]
      cases hm : mget pm k with
      | none => simp
      | some kn =>
        have hne : ¬(("u1-child-" : String) ++ k = "u1-child-" ++ c) :=
          fun heq => hk (append_cancel_left_str (a := "u1-child-") heq)
        simp [hne]

theorem filter_isU1_directPass (tree : TreeData) (pm : List (String × PersonLayoutNode))
    (links : List String) :
    (directPass tree pm links).filter isU1PartnerEdge = [] := by
  rw [List.filter_eq_nil_iff]
  intro e he
  unfold directPass at he
  rw [List.mem_flatMap] at he
  obtain ⟨p, hp, he⟩ := he
  unfold directEdgesForParent at he
  cases hpp : mget pm p.id with
  | none => rw [hpp] at he; simp at he
  | some pn =>
    rw [hpp] at he
    rw [List.mem_filterMap] at he
    obtain ⟨cid, hcid, hde⟩ := he
    unfold directEdgeFor at hde
    by_cases hl : p.id ++ "-" ++ cid ∈ links
    · rw [if_pos hl] at hde
      exact absurd hde (by simp)
    · rw [if_neg hl] at hde
      cases hcn : mget pm cid with
      | none => rw [hcn] at hde; exact absurd hde (by simp)
      | some cn =>
        rw [hcn] at hde
        have := Option.some.inj hde
        rw [← this]
        simp [isU1PartnerEdge_direct]

theorem computeTreeLayout_parts {tree : TreeData} (h : tree.people ≠ []) :
    (computeTreeLayout tree).personNodes = (layoutRows tree).personNodes ∧
    (computeTreeLayout tree).unionNodes = (layoutUnions tree).unionNodes ∧
    (computeTreeLayout tree).edges = (layoutUnions tree).edges ++ layoutDirectEdges tree := by
  unfold computeTreeLayout
  rw [if_neg (by simpa [List.isEmpty_iff] using h)]
  exact ⟨rfl, rfl, rfl⟩

/-- In `foreignUnionTree`, persons `a` and `b` each hold exactly one
Partnership, with union id `u1`, referencing each other, and `c`'s
parents are exactly `[a, b]`; yet because `d` and `e` also carry union id
`u1` and appear first, the single `u1` union marker belongs to `(d, e)`,
no union marker joins `a` and `b`, and a direct parent-to-child edge from
`a` to `c` is emitted. -/
theorem layout_union_foreign_counterexample :
    (∃ u ∈ (computeTreeLayout foreignUnionTree).unionNodes,
      u.id = "u1" ∧ u.partners = ("d", "e")) ∧
    (∀ u ∈ (computeTreeLayout foreignUnionTree).unionNodes,
      u.partners ≠ ("a", "b") ∧ u.partners ≠ ("b", "a")) ∧
    (∃ e ∈ (computeTreeLayout foreignUnionTree).edges, e.id = "direct-a-c") := by
  decide

/-- C9: in every graph in which `a` and `b` each hold exactly one
Partnership, with union id `u1`, referencing each other, `c`'s parents
are exactly `[a, b]`, keys are unique and match the id fields, and no
third person carries union id `u1`, the layout emits exactly one union
node with id `u1` (its node list filtered to id `u1` is the one-element
list), offset half the marker size up-left of the midpoint `ucOf` of the
two partner centers and owning the children of the couple; exactly the
two `u1-partner` edges from the two partner centers to that midpoint;
exactly one `u1-child-c` edge in the union's child-edge block (which is
contained in the final edge list); and no direct parent-to-child edge
from `a` or `b` to `c`. -/
theorem computeTreeLayout_married_union (tree : TreeData) (a b c : String)
    (PA PB PC : Person) (da db : Option String)
    (hs : C9Scenario tree a b c PA PB PC da db) :
    ∃ na nb nc u uc,
      mget (layoutPositionMap tree) a = some na ∧
      mget (layoutPositionMap tree) b = some nb ∧
      mget (layoutPositionMap tree) c = some nc ∧
      (computeTreeLayout tree).unionNodes.filter (fun u2 => u2.id = "u1") = [u] ∧
      u.id = "u1" ∧
      ((u.partners = (a, b) ∧ uc = ucOf na nb ∧
          (computeTreeLayout tree).edges.filter isU1PartnerEdge =
            [⟨"u1-partner-0", nodeCenter na, uc⟩, ⟨"u1-partner-1", nodeCenter nb, uc⟩]) ∨
        (u.partners = (b, a) ∧ uc = ucOf nb na ∧
          (computeTreeLayout tree).edges.filter isU1PartnerEdge =
            [⟨"u1-partner-0", nodeCenter nb, uc⟩, ⟨"u1-partner-1", nodeCenter na, uc⟩])) ∧
      u.x = jsub uc.1 (jhalf UNION_NODE_SIZE) ∧
      u.y = jsub uc.2 (jhalf UNION_NODE_SIZE) ∧
      u.children.count c = 1 ∧
      (unionChildEdgeList (layoutPositionMap tree) "u1" uc u.children).filter
          (fun e => e.id = "u1" ++ "-child-" ++ c) =
        [⟨"u1" ++ "-child-" ++ c, (uc.1, jadd uc.2 (jhalf UNION_NODE_SIZE)),
          (jadd nc.x (jhalf nc.width), nc.y)⟩] ∧
      (∀ e ∈ unionChildEdgeList (layoutPositionMap tree) "u1" uc u.children,
        e ∈ (computeTreeLayout tree).edges) ∧
      directEdgeFor (layoutPositionMap tree) (layoutUnions tree).unionChildLinks
        PA na c = none ∧
      directEdgeFor (layoutPositionMap tree) (layoutUnions tree).unionChildLinks
        PB nb c = none := by
  obtain ⟨hnd, hids, hma, hmb, hmc, hsa, hsb, hpc, hab, hac, hbc, honly⟩ := hs
  have hne : tree.people ≠ [] := by intro h; rw [h] at hma; simp at hma
  obtain ⟨hpn, hun, hed⟩ := computeTreeLayout_parts hne
  have hhas : ∀ k (v : Person), (k, v) ∈ tree.people →
      mhas (layoutPositionMap tree) k = true := by
    intro k v hm
    apply layoutRows_posMap_total
    rw [mhas_iff_mem_keys]
    exact List.mem_map.mpr ⟨(k, v), hm, rfl⟩
  obtain ⟨na, hna⟩ := mhas_eq_true_exists (hhas a PA hma)
  obtain ⟨nb, hnb⟩ := mhas_eq_true_exists (hhas b PB hmb)
  obtain ⟨nc, hnc⟩ := mhas_eq_true_exists (hhas c PC hmc)
  have hcpos : mhas (layoutPositionMap tree) c = true := hhas c PC hmc
  have hpost := c9_unionPass tree (layoutPositionMap tree) a b c PA PB PC da db na nb
    ⟨hnd, hids, hma, hmb, hmc, hsa, hsb, hpc, hab, hac, hbc, honly⟩ hna hnb hcpos
  obtain ⟨u, uc, hufilt, huid, hsides, hx, hy, hch, hce, hl1, hl2⟩ := hpost
  have hPAid : PA.id = a := hids (a, PA) hma
  have hPBid : PB.id = b := hids (b, PB) hmb
  have hcnt : u.children.count c = 1 := by
    rw [hch]
    exact findUnionChildren_count tree hnd hids hmc (by rw [hpc]; simp) (by rw [hpc]; simp)
  have hfull : (computeTreeLayout tree).edges.filter isU1PartnerEdge =
      (layoutUnions tree).edges.filter isU1PartnerEdge := by
    rw [hed, List.filter_append,
      show (layoutDirectEdges tree).filter isU1PartnerEdge = [] from
        filter_isU1_directPass tree (layoutPositionMap tree)
          (layoutUnions tree).unionChildLinks,
      List.append_nil]
  refine ⟨na, nb, nc, u, uc, hna, hnb, hnc, ?_, huid, ?_, hx, hy, hcnt, ?_, ?_, ?_, ?_⟩
  · rw [hun]; exact hufilt
  · rcases hsides with ⟨hp1, huc1, hf1⟩ | ⟨hp1, huc1, hf1⟩
    · exact Or.inl ⟨hp1, huc1, by rw [hfull]; exact hf1⟩
    · exact Or.inr ⟨hp1, huc1, by rw [hfull]; exact hf1⟩
  · exact unionChildEdgeList_filter_child (layoutPositionMap tree) uc hnc u.children hcnt
  · intro e he
    rw [hed]
    exact List.mem_append_left _ (hce e he)
  · unfold directEdgeFor
    rw [if_pos (by rw [hPAid]; exact hl1)]
  · unfold directEdgeFor
    rw [if_pos (by rw [hPBid]; exact hl2)]

/-- Witness: the married-couple scenario hypotheses hold in
`marriedChildTree` and the union-pass specification follows for it. -/
theorem computeTreeLayout_married_union_witness :
    C9Scenario marriedChildTree "a" "b" "c" (mkPerson "a" [] [⟨"b", none, "u1"⟩] ["c"])
      (mkPerson "b" [] [⟨"a", none, "u1"⟩] ["c"]) (mkPerson "c" ["a", "b"] [] []) none none ∧
    (∃ na nb nc u uc,
      mget (layoutPositionMap marriedChildTree) "a" = some na ∧
      mget (layoutPositionMap marriedChildTree) "b" = some nb ∧
      mget (layoutPositionMap marriedChildTree) "c" = some nc ∧
      (computeTreeLayout marriedChildTree).unionNodes.filter (fun u2 => u2.id = "u1") = [u] ∧
      u.id = "u1" ∧
      ((u.partners = ("a", "b") ∧ uc = ucOf na nb ∧
          (computeTreeLayout marriedChildTree).edges.filter isU1PartnerEdge =
            [⟨"u1-partner-0", nodeCenter na, uc⟩, ⟨"u1-partner-1", nodeCenter nb, uc⟩]) ∨
        (u.partners = ("b", "a") ∧ uc = ucOf nb na ∧
          (computeTreeLayout marriedChildTree).edges.filter isU1PartnerEdge =
            [⟨"u1-partner-0", nodeCenter nb, uc⟩, ⟨"u1-partner-1", nodeCenter na, uc⟩])) ∧
      u.x = jsub uc.1 (jhalf UNION_NODE_SIZE) ∧
      u.y = jsub uc.2 (jhalf UNION_NODE_SIZE) ∧
      u.children.count "c" = 1 ∧
      (unionChildEdgeList (layoutPositionMap marriedChildTree) "u1" uc u.children).filter
          (fun e => e.id = "u1" ++ "-child-" ++ "c") =
        [⟨"u1" ++ "-child-" ++ "c", (uc.1, jadd uc.2 (jhalf UNION_NODE_SIZE)),
          (jadd nc.x (jhalf nc.width), nc.y)⟩] ∧
      (∀ e ∈ unionChildEdgeList (layoutPositionMap marriedChildTree) "u1" uc u.children,
        e ∈ (computeTreeLayout marriedChildTree).edges) ∧
      directEdgeFor (layoutPositionMap marriedChildTree)
        (layoutUnions marriedChildTree).unionChildLinks
        (mkPerson "a" [] [⟨"b", none, "u1"⟩] ["c"]) na "c" = none ∧
      directEdgeFor (layoutPositionMap marriedChildTree)
        (layoutUnions marriedChildTree).unionChildLinks
        (mkPerson "b" [] [⟨"a", none, "u1"⟩] ["c"]) nb "c" = none) :=
  ⟨by decide, computeTreeLayout_married_union marriedChildTree "a" "b" "c"
    (mkPerson "a" [] [⟨"b", none, "u1"⟩] ["c"]) (mkPerson "b" [] [⟨"a", none, "u1"⟩] ["c"])
    (mkPerson "c" ["a", "b"] [] []) none none (by decide)⟩

/-!
## Person-node totality of the layout (C10)
-/

theorem mhas_mset_ne {α : Type} (m : List (String × α)) (k k' : String) (v : α)
    (h : k' ≠ k) : mhas (mset m k v) k' = mhas m k' := by
  rw [mhas_eq_isSome, mhas_eq_isSome, mget_mset_ne m k k' v h]

theorem keys_nodup_append_fresh {α : Type} {m : List (String × α)} {k : String} {v : α}
    (hnd : (m.map Prod.fst).Nodup) (h : mhas m k = false) :
    ((mset m k v).map Prod.fst).Nodup := by
  rw [keys_mset_of_not_mhas _ _ _ h]
  rw [List.nodup_append]
  refine ⟨hnd, by simp, ?_⟩
  intro x hx hx2
  simp at hx2
  rw [hx2] at hx
  rw [← mhas_iff_mem_keys] at hx
  rw [h] at hx
  exact absurd hx (by simp)

theorem bfsInv_visitNeighbor (d : Int) (st : BfsState) (n : String × Int)
    (h : BfsInv st) : BfsInv (visitNeighbor d st n) := by
  obtain ⟨hdk, hok, hov, hoc, hdv⟩ := h
  by_cases hd : mhas st.depthMap n.1
  · simp only [visitNeighbor, hd, if_true]
    by_cases hv : n.1 ∈ st.visited
    · rw [if_pos hv]
      exact ⟨hdk, hok, hov, hoc, hdv⟩
    · rw [if_neg hv]
      have hno : mhas st.orderMap n.1 = false := by
        cases hh : mhas st.orderMap n.1
        · rfl
        · exact absurd ((hov n.1).mp hh) hv
      refine ⟨hdk, keys_nodup_append_fresh hok hno, ?_, ?_, ?_⟩
      · intro k
        constructor
        · intro hk
          by_cases hkn : k = n.1
          · exact List.mem_append_right _ (by simp [hkn])
          · rw [mhas_mset_ne _ _ _ _ hkn] at hk
            exact List.mem_append_left _ ((hov k).mp hk)
        · intro hk
          rcases List.mem_append.mp hk with hk | hk
          · exact mhas_mset_mono ((hov k).mpr hk) _ _
          · simp at hk
            rw [hk]
            exact mhas_mset_self _ _ _
      · intro kd hkd
        rcases mem_mset hkd with hold | hnew
        · exact Nat.lt_succ_of_lt (hoc kd hold)
        · rw [hnew]
          exact Nat.lt_succ_self _
      · intro k hk
        exact List.mem_append_left _ (hdv k hk)
  · have hdf : mhas st.depthMap n.1 = false := by
      cases hh : mhas st.depthMap n.1
      · rfl
      · exact absurd hh hd
    simp only [visitNeighbor, hdf, Bool.false_eq_true, if_false]
    by_cases hv : n.1 ∈ st.visited
    · rw [if_pos hv]
      refine ⟨keys_nodup_append_fresh hdk hdf, hok, hov, hoc, ?_⟩
      intro k hk
      by_cases hkn : k = n.1
      · rw [hkn]; exact hv
      · rw [mhas_mset_ne _ _ _ _ hkn] at hk
        exact hdv k hk
    · rw [if_neg hv]
      have hno : mhas st.orderMap n.1 = false := by
        cases hh : mhas st.orderMap n.1
        · rfl
        · exact absurd ((hov n.1).mp hh) hv
      refine ⟨keys_nodup_append_fresh hdk hdf, keys_nodup_append_fresh hok hno, ?_, ?_, ?_⟩
      · intro k
        constructor
        · intro hk
          by_cases hkn : k = n.1
          · exact List.mem_append_right _ (by simp [hkn])
          · rw [mhas_mset_ne _ _ _ _ hkn] at hk
            exact List.mem_append_left _ ((hov k).mp hk)
        · intro hk
          rcases List.mem_append.mp hk with hk | hk
          · exact mhas_mset_mono ((hov k).mpr hk) _ _
          · simp at hk
            rw [hk]
            exact mhas_mset_self _ _ _
      · intro kd hkd
        rcases mem_mset hkd with hold | hnew
        · exact Nat.lt_succ_of_lt (hoc kd hold)
        · rw [hnew]
          exact Nat.lt_succ_self _
      · intro k hk
        by_cases hkn : k = n.1
        · exact List.mem_append_right _ (by simp [hkn])
        · rw [mhas_mset_ne _ _ _ _ hkn] at hk
          exact List.mem_append_left _ (hdv k hk)

theorem bfsInv_neighborFold (d : Int) :
    ∀ (ns : List (String × Int)) (st : BfsState), BfsInv st →
      BfsInv (ns.foldl (visitNeighbor d) st) := by
  intro ns
  induction ns with
  | nil => intro st h; exact h
  | cons n rest ih =>
    intro st h
    rw [List.foldl_cons]
    exact ih _ (bfsInv_visitNeighbor d st n h)

theorem bfsInv_queue (st : BfsState) (q : List String) (h : BfsInv st) :
    BfsInv { st with queue := q } := h

theorem bfsInv_placementStep (people : List (String × Person)) (st : BfsState)
    (cur : String) (rest : List String) (h : BfsInv st) :
    BfsInv (placementStep people st cur rest) := by
  unfold placementStep
  cases mget people cur with
  | none => exact bfsInv_queue st rest h
  | some person => exact bfsInv_neighborFold _ _ _ (bfsInv_queue st rest h)

theorem bfsInv_placementLoopF (people : List (String × Person)) :
    ∀ (fuel : Nat) (st : BfsState), BfsInv st → BfsInv (placementLoopF people fuel st) := by
  intro fuel
  induction fuel with
  | zero => intro st h; exact h
  | succ n ih =>
    intro st h
    rw [placementLoopF]
    cases st.queue with
    | nil => exact h
    | cons cur rest => exact ih _ (bfsInv_placementStep people st cur rest h)

theorem bfsInv_layoutBfs (tree : TreeData) : BfsInv (layoutBfs tree) := by
  unfold layoutBfs placementLoop
  apply bfsInv_placementLoopF
  refine ⟨by simp, by simp, ?_, ?_, ?_⟩
  · intro k
    constructor
    · intro hk
      by_cases he : layoutRootId tree = k
      · simp [he]
      · simp [mhas, mget, List.find?, he] at hk
    · intro hk
      simp at hk
      simp [mhas, mget, List.find?, hk]
  · intro kd hkd
    simp at hkd
    rw [hkd]
    exact Nat.lt_succ_self _
  · intro k hk
    by_cases he : layoutRootId tree = k
    · simp [he]
    · simp [mhas, mget, List.find?, he] at hk

theorem foldl_guard_mget_preserved {α : Type} (f : String → α) :
    ∀ (l : List (String × Person)) (dm : List (String × α)) (k : String) (v : α),
      mget dm k = some v →
      mget (l.foldl (fun dm kv => if mhas dm kv.1 then dm else mset dm kv.1 (f kv.1)) dm) k
        = some v := by
  intro l
  induction l with
  | nil => intro dm k v h; exact h
  | cons kv rest ih =>
    intro dm k v h
    rw [List.foldl_cons]
    by_cases hm : mhas dm kv.1
    · rw [if_pos hm]
      exact ih dm k v h
    · rw [if_neg hm]
      by_cases hk : kv.1 = k
      · exact absurd (by rw [hk]; exact mhas_of_mget_eq_some h) hm
      · refine ih _ k v ?_
        rw [mget_mset_ne _ _ _ _ (fun he => hk he.symm)]
        exact h

theorem foldl_guard_mget_zero {α : Type} (f : String → α) :
    ∀ (l : List (String × Person)) (dm : List (String × α)) (k : String),
      k ∈ l.map Prod.fst → mhas dm k = false →
      mget (l.foldl (fun dm kv => if mhas dm kv.1 then dm else mset dm kv.1 (f kv.1)) dm) k
        = some (f k) := by
  intro l
  induction l with
  | nil => intro dm k h _; simp at h
  | cons kv rest ih =>
    intro dm k hmem hno
    rw [List.foldl_cons]
    by_cases hk : kv.1 = k
    · rw [if_neg (by rw [hk, hno]; simp)]
      refine foldl_guard_mget_preserved f rest _ k (f k) ?_
      rw [hk]
      exact mget_mset_self _ _ _
    · have hmem2 : k ∈ rest.map Prod.fst := by
        rcases List.mem_cons.mp hmem with h | h
        · exact absurd h.symm hk
        · exact h
      by_cases hm : mhas dm kv.1
      · rw [if_pos hm]
        exact ih dm k hmem2 hno
      · rw [if_neg hm]
        refine ih _ k hmem2 ?_
        rw [mhas_mset_ne _ _ _ _ (fun he => hk he.symm)]
        exact hno

theorem orderFold_mget_preserved :
    ∀ (l : List (String × Person)) (oc : (List (String × Nat)) × Nat) (k : String) (o : Nat),
      mget oc.1 k = some o →
      mget ((l.foldl
        (fun oc kv => if mhas oc.1 kv.1 then oc else (mset oc.1 kv.1 oc.2, oc.2 + 1)) oc).1) k
        = some o := by
  intro l
  induction l with
  | nil => intro oc k o h; exact h
  | cons kv rest ih =>
    intro oc k o h
    rw [List.foldl_cons]
    by_cases hm : mhas oc.1 kv.1
    · rw [if_pos hm]
      exact ih oc k o h
    · rw [if_neg hm]
      by_cases hk : kv.1 = k
      · exact absurd (by rw [hk]; exact mhas_of_mget_eq_some h) hm
      · refine ih _ k o ?_
        show mget (mset oc.1 kv.1 oc.2) k = some o
        rw [mget_mset_ne _ _ _ _ (fun he => hk he.symm)]
        exact h

theorem orderFold_unseen :
    ∀ (l : List (String × Person)) (oc : (List (String × Nat)) × Nat) (k : String),
      k ∈ l.map Prod.fst → mhas oc.1 k = false →
      ∃ o, mget ((l.foldl
        (fun oc kv => if mhas oc.1 kv.1 then oc else (mset oc.1 kv.1 oc.2, oc.2 + 1)) oc).1) k
          = some o ∧ oc.2 ≤ o := by
  intro l
  induction l with
  | nil => intro oc k h _; simp at h
  | cons kv rest ih =>
    intro oc k hmem hno
    rw [List.foldl_cons]
    by_cases hk : kv.1 = k
    · rw [if_neg (by rw [hk, hno]; simp)]
      refine ⟨oc.2, ?_, Nat.le_refl _⟩
      refine orderFold_mget_preserved rest _ k oc.2 ?_
      show mget (mset oc.1 kv.1 oc.2) k = some oc.2
      rw [hk]
      exact mget_mset_self _ _ _
    · have hmem2 : k ∈ rest.map Prod.fst := by
        rcases List.mem_cons.mp hmem with h | h
        · exact absurd h.symm hk
        · exact h
      by_cases hm : mhas oc.1 kv.1
      · rw [if_pos hm]
        exact ih oc k hmem2 hno
      · rw [if_neg hm]
        have hno2 : mhas (mset oc.1 kv.1 oc.2) k = false := by
          rw [mhas_mset_ne _ _ _ _ (fun he => hk he.symm)]
          exact hno
        obtain ⟨o, ho, hle⟩ := ih (mset oc.1 kv.1 oc.2, oc.2 + 1) k hmem2 hno2
        exact ⟨o, ho, Nat.le_of_succ_le hle⟩

theorem layoutMaps_depth_eq (tree : TreeData) :
    (layoutMaps tree).1 = tree.people.foldl
      (fun dm kv => if mhas dm kv.1 then dm else mset dm kv.1 0)
      (layoutBfs tree).depthMap := rfl

theorem layoutMaps_order_eq (tree : TreeData) :
    (layoutMaps tree).2 = (tree.people.foldl
      (fun oc kv => if mhas oc.1 kv.1 then oc else (mset oc.1 kv.1 oc.2, oc.2 + 1))
      ((layoutBfs tree).orderMap, (layoutBfs tree).counter)).1 := rfl

theorem layout_unreachable_spec (tree : TreeData) (k : String)
    (hk : mhas tree.people k = true) (hunv : k ∉ (layoutBfs tree).visited) :
    mget (layoutMaps tree).1 k = some 0 ∧
    ∀ k2 ∈ (layoutBfs tree).visited, ∃ o2 o : Nat,
      mget (layoutMaps tree).2 k2 = some o2 ∧ mget (layoutMaps tree).2 k = some o ∧ o2 < o := by
  obtain ⟨hdk, hok, hov, hoc, hdv⟩ := bfsInv_layoutBfs tree
  have hkeys : k ∈ tree.people.map Prod.fst := (mhas_iff_mem_keys _ _).mp hk
  have hdn : mhas (layoutBfs tree).depthMap k = false := by
    cases hh : mhas (layoutBfs tree).depthMap k
    · rfl
    · exact absurd (hdv k hh) hunv
  have hno : mhas (layoutBfs tree).orderMap k = false := by
    cases hh : mhas (layoutBfs tree).orderMap k
    · rfl
    · exact absurd ((hov k).mp hh) hunv
  constructor
  · rw [layoutMaps_depth_eq]
    exact foldl_guard_mget_zero (fun _ => (0 : Int)) tree.people _ k hkeys hdn
  · intro k2 hk2
    obtain ⟨o, ho, hge⟩ := orderFold_unseen tree.people
      ((layoutBfs tree).orderMap, (layoutBfs tree).counter) k hkeys hno
    obtain ⟨o2v, ho2⟩ := mhas_eq_true_exists ((hov k2).mpr hk2)
    have hlt : o2v < (layoutBfs tree).counter := hoc _ (mget_eq_some_mem ho2)
    refine ⟨o2v, o, ?_, ?_, ?_⟩
    · rw [layoutMaps_order_eq]
      exact orderFold_mget_preserved tree.people _ k2 o2v ho2
    · rw [layoutMaps_order_eq]
      exact ho
    · omega

theorem foldl_guard_keys_nodup {α : Type} (f : String → α) :
    ∀ (l : List (String × Person)) (dm : List (String × α)),
      (dm.map Prod.fst).Nodup →
      ((l.foldl (fun dm kv => if mhas dm kv.1 then dm else mset dm kv.1 (f kv.1)) dm).map
        Prod.fst).Nodup := by
  intro l
  induction l with
  | nil => intro dm h; exact h
  | cons kv rest ih =>
    intro dm h
    rw [List.foldl_cons]
    by_cases hm : mhas dm kv.1
    · rw [if_pos hm]
      exact ih dm h
    · rw [if_neg hm]
      refine ih _ (keys_nodup_append_fresh h ?_)
      cases hh : mhas dm kv.1
      · rfl
      · exact absurd hh hm

theorem layoutDepth_keys_nodup (tree : TreeData) :
    ((layoutMaps tree).1.map Prod.fst).Nodup := by
  rw [layoutMaps_depth_eq]
  exact foldl_guard_keys_nodup (fun _ => (0 : Int)) tree.people _ (bfsInv_layoutBfs tree).1

theorem flattenGroups_cons (g : Int × List String) (gs : List (Int × List String)) :
    flattenGroups (g :: gs) = g.2 ++ flattenGroups gs := rfl

theorem count_singleton_ite (x id : String) :
    List.count x [id] = if id = x then 1 else 0 := by
  by_cases hx : id = x <;> simp [List.count_cons, hx]

theorem count_flatten_add (x : String) :
    ∀ (gs : List (Int × List String)) (d : Int) (id : String),
      (flattenGroups (addToLevelGroups gs d id)).count x
        = (flattenGroups gs).count x + (if id = x then 1 else 0) := by
  intro gs
  induction gs with
  | nil =>
    intro d id
    show List.count x [id] = List.count x [] + _
    rw [count_singleton_ite, List.count_nil, Nat.zero_add]
  | cons g gs ih =>
    intro d id
    by_cases hd : g.1 = d
    · rw [addToLevelGroups, if_pos hd, flattenGroups_cons, flattenGroups_cons,
        List.count_append, List.count_append, List.count_append, count_singleton_ite]
      omega
    · rw [addToLevelGroups, if_neg hd, flattenGroups_cons, flattenGroups_cons,
        List.count_append, List.count_append, ih]
      omega

theorem count_flatten_levelGroups (x : String) :
    ∀ (l : List (String × Int)) (gs : List (Int × List String)),
      (flattenGroups (l.foldl (fun gs kv => addToLevelGroups gs kv.2 kv.1) gs)).count x
        = (flattenGroups gs).count x + (l.map Prod.fst).count x := by
  intro l
  induction l with
  | nil => intro gs; simp
  | cons kv rest ih =>
    intro gs
    rw [List.foldl_cons, ih, count_flatten_add, List.map_cons, List.count_cons]
    by_cases hx : kv.1 = x <;> simp [hx] <;> omega

theorem nodup_flatten_levelGroupsOf {dm : List (String × Int)}
    (hnd : (dm.map Prod.fst).Nodup) : (flattenGroups (levelGroupsOf dm)).Nodup := by
  rw [List.nodup_iff_count_le_one] at hnd ⊢
  intro x
  have h := count_flatten_levelGroups x dm []
  have h0 : (flattenGroups []).count x = 0 := rfl
  rw [h0, Nat.zero_add] at h
  calc (flattenGroups (levelGroupsOf dm)).count x
      = (dm.map Prod.fst).count x := h
    _ ≤ 1 := hnd x

theorem addToLevelGroups_mem :
    ∀ (gs : List (Int × List String)) (d : Int) (id : String) (g : Int × List String),
      g ∈ addToLevelGroups gs d id →
      g ∈ gs ∨ (∃ g0 ∈ gs, g0.1 = d ∧ g = (d, g0.2 ++ [id])) ∨ g = (d, [id]) := by
  intro gs
  induction gs with
  | nil =>
    intro d id g hg
    simp [addToLevelGroups] at hg
    exact Or.inr (Or.inr hg)
  | cons g0 gs ih =>
    intro d id g hg
    by_cases hd : g0.1 = d
    · rw [addToLevelGroups, if_pos hd] at hg
      rcases List.mem_cons.mp hg with rfl | hmem
      · exact Or.inr (Or.inl ⟨g0, List.mem_cons_self _ _, hd, by rw [hd]⟩)
      · exact Or.inl (List.mem_cons_of_mem _ hmem)
    · rw [addToLevelGroups, if_neg hd] at hg
      rcases List.mem_cons.mp hg with rfl | hmem
      · exact Or.inl (List.mem_cons_self _ _)
      · rcases ih d id g hmem with h | ⟨g1, hg1, hc⟩ | h
        · exact Or.inl (List.mem_cons_of_mem _ h)
        · exact Or.inr (Or.inl ⟨g1, List.mem_cons_of_mem _ hg1, hc⟩)
        · exact Or.inr (Or.inr h)

theorem levelGroups_entries :
    ∀ (l : List (String × Int)) (gs : List (Int × List String)) (dm0 : List (String × Int)),
      (∀ g ∈ gs, ∀ id ∈ g.2, (id, g.1) ∈ dm0) → (∀ kv ∈ l, kv ∈ dm0) →
      ∀ g ∈ l.foldl (fun gs kv => addToLevelGroups gs kv.2 kv.1) gs, ∀ id ∈ g.2,
        (id, g.1) ∈ dm0 := by
  intro l
  induction l with
  | nil => intro gs dm0 hgs _ g hg; exact hgs g hg
  | cons kv rest ih =>
    intro gs dm0 hgs hl
    rw [List.foldl_cons]
    refine ih _ dm0 ?_ (fun q hq => hl q (List.mem_cons_of_mem _ hq))
    intro g hg id hid
    rcases addToLevelGroups_mem gs kv.2 kv.1 g hg with h | ⟨g0, hg0, hd, rfl⟩ | rfl
    · exact hgs g h id hid
    · rcases List.mem_append.mp hid with h2 | h2
      · rw [← hd]
        exact hgs g0 hg0 id h2
      · simp at h2
        rw [h2]
        exact hl kv (List.mem_cons_self _ _)
    · simp at hid
      rw [hid]
      exact hl kv (List.mem_cons_self _ _)

theorem levelGroupsOf_entries (dm : List (String × Int)) :
    ∀ g ∈ levelGroupsOf dm, ∀ id ∈ g.2, (id, g.1) ∈ dm := by
  refine levelGroups_entries dm [] dm ?_ (fun kv h => h)
  intro g hg
  simp at hg

theorem addToLevelGroups_depths :
    ∀ (gs : List (Int × List String)) (d : Int) (id : String),
      (addToLevelGroups gs d id).map Prod.fst
        = if d ∈ gs.map Prod.fst then gs.map Prod.fst else gs.map Prod.fst ++ [d] := by
  intro gs
  induction gs with
  | nil => intro d id; simp [addToLevelGroups]
  | cons g gs ih =>
    intro d id
    by_cases hd : g.1 = d
    · rw [addToLevelGroups, if_pos hd]
      have hmem : d ∈ (g :: gs).map Prod.fst := by
        rw [List.map_cons, ← hd]
        exact List.mem_cons_self _ _
      rw [if_pos hmem]
      simp
    · rw [addToLevelGroups, if_neg hd, List.map_cons, List.map_cons, ih]
      by_cases hmem : d ∈ gs.map Prod.fst
      · rw [if_pos hmem, if_pos (List.mem_cons_of_mem _ hmem)]
      · rw [if_neg hmem, if_neg ?_, List.cons_append]
        intro hc
        rcases List.mem_cons.mp hc with h | h
        · exact hd h.symm
        · exact hmem h

theorem levelGroups_depths_nodup :
    ∀ (l : List (String × Int)) (gs : List (Int × List String)),
      ((gs.map Prod.fst).Nodup) →
      ((l.foldl (fun gs kv => addToLevelGroups gs kv.2 kv.1) gs).map Prod.fst).Nodup := by
  intro l
  induction l with
  | nil => intro gs h; exact h
  | cons kv rest ih =>
    intro gs h
    rw [List.foldl_cons]
    refine ih _ ?_
    rw [addToLevelGroups_depths]
    by_cases hmem : kv.2 ∈ gs.map Prod.fst
    · rw [if_pos hmem]
      exact h
    · rw [if_neg hmem]
      rw [List.nodup_append]
      refine ⟨h, by simp, ?_⟩
      intro x hx hx2
      simp at hx2
      rw [hx2] at hx
      exact hmem hx

theorem levelGroupsOf_depths_nodup (dm : List (String × Int)) :
    ((levelGroupsOf dm).map Prod.fst).Nodup := by
  refine levelGroups_depths_nodup dm [] (by simp)

theorem pullSpouses_eq (tree : TreeData) (dm : List (String × Int)) (lv : Int)
    (st : AdjState) (id : String) (hmem : id ∉ st.taken) :
    pullSpouses tree dm lv st id =
      match mget tree.people id with
      | none => { ordered := st.ordered ++ [id], taken := st.taken ++ [id] }
      | some person =>
        ((person.spouses.map (fun sp => mget tree.people sp.spouseId)).filterMap
          (fun partnerOpt => match partnerOpt with
            | none => none
            | some partner =>
              if partner.id ∉ st.taken ++ [id] ∧ (mget dm partner.id).getD 0 = lv
              then some partner else none)).foldl
          (fun acc partner =>
            { ordered := acc.ordered ++ [partner.id], taken := acc.taken ++ [partner.id] })
          { ordered := st.ordered ++ [id], taken := st.taken ++ [id] } := by
  unfold pullSpouses
  rw [if_neg hmem]

theorem adjAppend_fold :
    ∀ (P : List Person) (acc : AdjState),
      P.foldl (fun acc partner =>
          { ordered := acc.ordered ++ [partner.id], taken := acc.taken ++ [partner.id] }) acc
        = { ordered := acc.ordered ++ P.map (fun p => p.id),
            taken := acc.taken ++ P.map (fun p => p.id) } := by
  intro P
  induction P with
  | nil => intro acc; simp
  | cons p rest ih =>
    intro acc
    rw [List.foldl_cons, ih]
    simp

theorem nodup_resolved_ids (F : Partnership → Option Person)
    (hF : ∀ sp p, F sp = some p → p.id = sp.spouseId) :
    ∀ (l : List Partnership), (l.map (fun sp => sp.spouseId)).Nodup →
      ((l.filterMap F).map (fun p => p.id)).Nodup := by
  intro l
  induction l with
  | nil => intro _; simp
  | cons sp rest ih =>
    intro hnd
    rw [List.map_cons, List.nodup_cons] at hnd
    rw [List.filterMap_cons]
    cases hF2 : F sp with
    | none => exact ih hnd.2
    | some p =>
      rw [List.map_cons, List.nodup_cons]
      refine ⟨?_, ih hnd.2⟩
      intro hc
      obtain ⟨q, hq, hqid⟩ := List.mem_map.mp hc
      obtain ⟨sp2, hsp2, hFsp2⟩ := List.mem_filterMap.mp hq
      apply hnd.1
      have h1 : p.id = sp.spouseId := hF sp p hF2
      have h2 : q.id = sp2.spouseId := hF sp2 q hFsp2
      rw [← h1, ← hqid, h2]
      exact List.mem_map.mpr ⟨sp2, hsp2, rfl⟩

theorem adjInv_pullSpouses (tree : TreeData) (dm : List (String × Int)) (lv : Int)
    (hids : ∀ kv ∈ tree.people, kv.2.id = kv.1)
    (hspnd : ∀ kv ∈ tree.people, (kv.2.spouses.map (fun sp => sp.spouseId)).Nodup)
    (hsub : ∀ k, mhas tree.people k = true → mhas dm k = true)
    (st : AdjState) (id : String) (hid : (id, lv) ∈ dm)
    (hinv : AdjInv dm lv st) : AdjInv dm lv (pullSpouses tree dm lv st id) := by
  obtain ⟨hte, hnd, hdep⟩ := hinv
  by_cases hmem : id ∈ st.taken
  · rw [pullSpouses, if_pos hmem]
    exact ⟨hte, hnd, hdep⟩
  · rw [pullSpouses_eq tree dm lv st id hmem]
    have hnd1 : (st.ordered ++ [id]).Nodup := by
      rw [List.nodup_append]
      refine ⟨hnd, by simp, ?_⟩
      intro x hx hx2
      simp at hx2
      rw [hx2] at hx
      rw [hte] at hmem
      exact hmem hx
    have hdep1 : ∀ x ∈ st.ordered ++ [id], (x, lv) ∈ dm := by
      intro x hx
      rcases List.mem_append.mp hx with h | h
      · exact hdep x h
      · simp at h
        rw [h]
        exact hid
    set F : Option Person → Option Person := fun partnerOpt => match partnerOpt with
      | none => none
      | some partner =>
        if partner.id ∉ st.taken ++ [id] ∧ (mget dm partner.id).getD 0 = lv
        then some partner else none with hFdef
    cases hp : mget tree.people id with
    | none => exact ⟨by rw [hte], hnd1, hdep1⟩
    | some person =>
      show AdjInv dm lv (((person.spouses.map
        (fun sp => mget tree.people sp.spouseId)).filterMap F).foldl
        (fun acc partner =>
          { ordered := acc.ordered ++ [partner.id], taken := acc.taken ++ [partner.id] })
        { ordered := st.ordered ++ [id], taken := st.taken ++ [id] })
      rw [adjAppend_fold]
      have hentry : (id, person) ∈ tree.people := mget_eq_some_mem hp
      have hPfacts : ∀ p ∈ (person.spouses.map
          (fun sp => mget tree.people sp.spouseId)).filterMap F,
          mget tree.people p.id = some p ∧ p.id ∉ st.taken ++ [id] ∧
            (mget dm p.id).getD 0 = lv := by
        intro p hpmem
        obtain ⟨po, hpo, hFpo⟩ := List.mem_filterMap.mp hpmem
        obtain ⟨sp, hsp, hspv⟩ := List.mem_map.mp hpo
        cases hcase : po with
        | none => rw [hcase, hFdef] at hFpo; exact absurd hFpo (by simp)
        | some partner =>
          rw [hcase, hFdef] at hFpo
          simp only at hFpo
          by_cases hcond : partner.id ∉ st.taken ++ [id] ∧ (mget dm partner.id).getD 0 = lv
          · rw [if_pos hcond] at hFpo
            have hpeq : partner = p := Option.some.inj hFpo
            rw [hcase] at hspv
            have hpm : (sp.spouseId, partner) ∈ tree.people := mget_eq_some_mem hspv
            have hpid : partner.id = sp.spouseId := hids (sp.spouseId, partner) hpm
            rw [← hpeq]
            refine ⟨?_, hcond.1, hcond.2⟩
            rw [hpid]
            exact hspv
          · rw [if_neg hcond] at hFpo
            exact absurd hFpo (by simp)
      have hPids : (((person.spouses.map
          (fun sp => mget tree.people sp.spouseId)).filterMap F).map
          (fun p => p.id)).Nodup := by
        rw [List.filterMap_map]
        refine nodup_resolved_ids _ ?_ person.spouses (hspnd (id, person) hentry)
        intro sp p hFp
        simp only [Function.comp] at hFp
        cases hcase : mget tree.people sp.spouseId with
        | none => rw [hcase, hFdef] at hFp; exact absurd hFp (by simp)
        | some partner =>
          rw [hcase, hFdef] at hFp
          simp only at hFp
          by_cases hcond : partner.id ∉ st.taken ++ [id] ∧ (mget dm partner.id).getD 0 = lv
          · rw [if_pos hcond] at hFp
            have hpeq : partner = p := Option.some.inj hFp
            have hpm : (sp.spouseId, partner) ∈ tree.people := mget_eq_some_mem hcase
            rw [← hpeq]
            exact hids (sp.spouseId, partner) hpm
          · rw [if_neg hcond] at hFp
            exact absurd hFp (by simp)
      refine ⟨by rw [hte], ?_, ?_⟩
      · rw [List.nodup_append]
        refine ⟨hnd1, hPids, ?_⟩
        intro x hx hx2
        obtain ⟨p, hpmem, hpid⟩ := List.mem_map.mp hx2
        have := (hPfacts p hpmem).2.1
        rw [hpid] at this
        rw [← hte] at hx
        exact this hx
      · intro x hx
        rcases List.mem_append.mp hx with h | h
        · exact hdep1 x h
        · obtain ⟨p, hpmem, hpid⟩ := List.mem_map.mp h
          obtain ⟨hpg, _, hpd⟩ := hPfacts p hpmem
          have hhas : mhas dm p.id = true := hsub p.id (mhas_of_mget_eq_some hpg)
          obtain ⟨d, hd⟩ := mhas_eq_true_exists hhas
          rw [hd] at hpd
          simp at hpd
          rw [← hpid, ← hpd]
          exact mget_eq_some_mem hd

theorem adjInv_fold (tree : TreeData) (dm : List (String × Int)) (lv : Int)
    (hids : ∀ kv ∈ tree.people, kv.2.id = kv.1)
    (hspnd : ∀ kv ∈ tree.people, (kv.2.spouses.map (fun sp => sp.spouseId)).Nodup)
    (hsub : ∀ k, mhas tree.people k = true → mhas dm k = true) :
    ∀ (ids : List String) (st : AdjState), (∀ id ∈ ids, (id, lv) ∈ dm) → AdjInv dm lv st →
      AdjInv dm lv (ids.foldl (pullSpouses tree dm lv) st) := by
  intro ids
  induction ids with
  | nil => intro st _ h; exact h
  | cons id rest ih =>
    intro st hmem h
    rw [List.foldl_cons]
    exact ih _ (fun q hq => hmem q (List.mem_cons_of_mem _ hq))
      (adjInv_pullSpouses tree dm lv hids hspnd hsub st id
        (hmem id (List.mem_cons_self _ _)) h)

theorem rowOrderOf_spec (tree : TreeData)
    (hids : ∀ kv ∈ tree.people, kv.2.id = kv.1)
    (hspnd : ∀ kv ∈ tree.people, (kv.2.spouses.map (fun sp => sp.spouseId)).Nodup)
    (grp : Int × List String)
    (hgrp : ∀ id ∈ grp.2, (id, grp.1) ∈ (layoutMaps tree).1) :
    (rowOrderOf tree grp).Nodup ∧
    (∀ x ∈ rowOrderOf tree grp, (x, grp.1) ∈ (layoutMaps tree).1) ∧
    (∀ id ∈ grp.2, id ∈ rowOrderOf tree grp) := by
  have hsub : ∀ k, mhas tree.people k = true → mhas (layoutMaps tree).1 k = true := by
    intro k hk
    rw [layoutMaps_depth_eq]
    exact mhas_fold_guard_in (fun _ => (0 : Int)) tree.people _ k
      (Or.inl ((mhas_iff_mem_keys _ _).mp hk))
  have hsort : ∀ id ∈ sortByLe (fun a b =>
      (mget (layoutMaps tree).2 a).getD 0 ≤ (mget (layoutMaps tree).2 b).getD 0) grp.2,
      (id, grp.1) ∈ (layoutMaps tree).1 := by
    intro id hid
    exact hgrp id ((sortByLe_perm _ _).mem_iff.mp hid)
  have hinv := adjInv_fold tree (layoutMaps tree).1 grp.1 hids hspnd hsub _
    { ordered := [], taken := [] } hsort ⟨rfl, by simp, by simp⟩
  obtain ⟨hte, hnd, hdep⟩ := hinv
  refine ⟨hnd, hdep, ?_⟩
  intro id hid
  have htaken := adjFold_taken tree (layoutMaps tree).1 grp.1
    (sortByLe (fun a b =>
      (mget (layoutMaps tree).2 a).getD 0 ≤ (mget (layoutMaps tree).2 b).getD 0) grp.2)
    { ordered := [], taken := [] } id
    (Or.inl ((sortByLe_perm _ grp.2).mem_iff.mpr hid))
  rw [hte] at htaken
  exact htaken

theorem emitRowNode_person_step (tree : TreeData) (sizeMap : List (String × (Nat × Nat)))
    (rowY : JsNum) (acc : RowAccum) (id : String) :
    ((emitRowNode tree sizeMap rowY acc id).personNodes).map (fun n => n.person)
      = acc.personNodes.map (fun n => n.person)
        ++ (mget tree.people id).toList := by
  unfold emitRowNode
  cases hm : mget tree.people id with
  | none => simp
  | some person => simp

theorem emitRow_personNodes (tree : TreeData) (sizeMap : List (String × (Nat × Nat)))
    (rowY : JsNum) :
    ∀ (ordered : List String) (acc : RowAccum),
      ((ordered.foldl (emitRowNode tree sizeMap rowY) acc).personNodes).map (fun n => n.person)
        = acc.personNodes.map (fun n => n.person)
          ++ ordered.filterMap (fun id => mget tree.people id) := by
  intro ordered
  induction ordered with
  | nil => intro acc; simp
  | cons id rest ih =>
    intro acc
    rw [List.foldl_cons, ih, emitRowNode_person_step]
    have hsplit : (id :: rest).filterMap (fun i => mget tree.people i)
        = (mget tree.people id).toList ++ rest.filterMap (fun i => mget tree.people i) := by
      rw [List.filterMap_cons]
      cases mget tree.people id <;> simp
    rw [hsplit, List.append_assoc]

theorem processLevel_personNodes (tree : TreeData) (st : RowState) (grp : Int × List String) :
    ((processLevel tree (layoutMaps tree).1 (layoutMaps tree).2 (layoutSizeMap tree)
        st grp).personNodes).map (fun n => n.person)
      = st.personNodes.map (fun n => n.person)
        ++ (rowOrderOf tree grp).filterMap (fun id => mget tree.people id) := by
  show ((rowOrderOf tree grp).foldl
      (emitRowNode tree (layoutSizeMap tree) st.currentY)
      { personNodes := st.personNodes, positionMap := st.positionMap,
        currentX := CANVAS_PADDING, levelMaxHeight := jofNat 0 }).personNodes.map
        (fun n => n.person)
      = st.personNodes.map (fun n => n.person)
        ++ (rowOrderOf tree grp).filterMap (fun id => mget tree.people id)
  rw [emitRow_personNodes]

theorem levelsFold_personNodes (tree : TreeData) :
    ∀ (lvls : List (Int × List String)) (st : RowState),
      ((lvls.foldl (processLevel tree (layoutMaps tree).1 (layoutMaps tree).2
          (layoutSizeMap tree)) st).personNodes).map (fun n => n.person)
        = st.personNodes.map (fun n => n.person)
          ++ lvls.flatMap (fun grp =>
              (rowOrderOf tree grp).filterMap (fun id => mget tree.people id)) := by
  intro lvls
  induction lvls with
  | nil => intro st; simp
  | cons grp rest ih =>
    intro st
    rw [List.foldl_cons, ih, processLevel_personNodes, List.flatMap_cons, List.append_assoc]

theorem layoutRows_personNodes (tree : TreeData) :
    ((layoutRows tree).personNodes).map (fun n => n.person)
      = (layoutSortedLevels tree).flatMap (fun grp =>
          (rowOrderOf tree grp).filterMap (fun id => mget tree.people id)) := by
  unfold layoutRows
  rw [levelsFold_personNodes]
  simp

theorem filterMap_flatMap_eq {α β : Type} (f : α → List String) (g : String → Option β) :
    ∀ l : List α, (l.flatMap f).filterMap g = l.flatMap (fun x => (f x).filterMap g) := by
  intro l
  induction l with
  | nil => simp
  | cons x rest ih => rw [List.flatMap_cons, List.flatMap_cons, List.filterMap_append, ih]

theorem layoutRows_personNodes_filterMap (tree : TreeData) :
    ((layoutRows tree).personNodes).map (fun n => n.person)
      = (bigRowOrder tree).filterMap (fun id => mget tree.people id) := by
  rw [layoutRows_personNodes, bigRowOrder, filterMap_flatMap_eq]

theorem nodup_flat_rows (tree : TreeData)
    (hids : ∀ kv ∈ tree.people, kv.2.id = kv.1)
    (hspnd : ∀ kv ∈ tree.people, (kv.2.spouses.map (fun sp => sp.spouseId)).Nodup)
    (hdmnd : ((layoutMaps tree).1.map Prod.fst).Nodup) :
    ∀ (S : List (Int × List String)), (S.map Prod.fst).Nodup →
      (∀ g ∈ S, ∀ id ∈ g.2, (id, g.1) ∈ (layoutMaps tree).1) →
      (S.flatMap (fun grp => rowOrderOf tree grp)).Nodup := by
  intro S
  induction S with
  | nil => intro _ _; simp
  | cons g rest ih =>
    intro hSnd hgrps
    rw [List.map_cons, List.nodup_cons] at hSnd
    rw [List.flatMap_cons, List.nodup_append]
    have hspec := rowOrderOf_spec tree hids hspnd g (hgrps g (List.mem_cons_self _ _))
    refine ⟨hspec.1, ih hSnd.2 (fun g2 hg2 => hgrps g2 (List.mem_cons_of_mem _ hg2)), ?_⟩
    intro x hx hx2
    obtain ⟨g2, hg2, hxg2⟩ := List.mem_flatMap.mp hx2
    have hd1 : (x, g.1) ∈ (layoutMaps tree).1 := hspec.2.1 x hx
    have hd2 : (x, g2.1) ∈ (layoutMaps tree).1 :=
      (rowOrderOf_spec tree hids hspnd g2
        (hgrps g2 (List.mem_cons_of_mem _ hg2))).2.1 x hxg2
    have heq : g.1 = g2.1 := value_unique_of_nodup_keys hdmnd hd1 hd2
    apply hSnd.1
    rw [heq]
    exact List.mem_map.mpr ⟨g2, hg2, rfl⟩

theorem bigRowOrder_nodup (tree : TreeData)
    (hids : ∀ kv ∈ tree.people, kv.2.id = kv.1)
    (hspnd : ∀ kv ∈ tree.people, (kv.2.spouses.map (fun sp => sp.spouseId)).Nodup) :
    (bigRowOrder tree).Nodup := by
  have hSperm : List.Perm (layoutSortedLevels tree) (levelGroupsOf (layoutMaps tree).1) :=
    sortByLe_perm _ _
  refine nodup_flat_rows tree hids hspnd (layoutDepth_keys_nodup tree)
    (layoutSortedLevels tree) ?_ ?_
  · exact ((hSperm.map Prod.fst).nodup_iff).mpr (levelGroupsOf_depths_nodup _)
  · intro g hg
    exact levelGroupsOf_entries _ g (hSperm.mem_iff.mp hg)

theorem bigRowOrder_covers (tree : TreeData)
    (hids : ∀ kv ∈ tree.people, kv.2.id = kv.1)
    (hspnd : ∀ kv ∈ tree.people, (kv.2.spouses.map (fun sp => sp.spouseId)).Nodup)
    (k : String) (hk : mhas tree.people k = true) : k ∈ bigRowOrder tree := by
  have hsub : mhas (layoutMaps tree).1 k = true := by
    rw [layoutMaps_depth_eq]
    exact mhas_fold_guard_in (fun _ => (0 : Int)) tree.people _ k
      (Or.inl ((mhas_iff_mem_keys _ _).mp hk))
  obtain ⟨d, hd⟩ := mhas_eq_true_exists hsub
  obtain ⟨g, hgmem, _, hgk⟩ := levelGroupsOf_mem _ (k, d) (mget_eq_some_mem hd)
  have hgS : g ∈ layoutSortedLevels tree := (sortByLe_perm _ _).mem_iff.mpr hgmem
  have hrow := rowOrderOf_spec tree hids hspnd g (levelGroupsOf_entries _ g hgmem)
  exact List.mem_flatMap.mpr ⟨g, hgS, hrow.2.2 k hgk⟩

theorem filterMap_mget_perm {α : Type} :
    ∀ (m : List (String × α)) (l : List String), (m.map Prod.fst).Nodup → l.Nodup →
      (∀ k, mhas m k = true → k ∈ l) →
      List.Perm (l.filterMap (fun k => mget m k)) (m.map (fun kv => kv.2)) := by
  intro m
  induction m with
  | nil =>
    intro l _ _ _
    have hnil : l.filterMap (fun k => mget ([] : List (String × α)) k) = [] := by
      rw [List.filterMap_eq_nil_iff]
      intro a _
      rfl
    rw [hnil, List.map_nil]
  | cons kv rest ih =>
    intro l hmnd hlnd hsub
    rw [List.map_cons, List.nodup_cons] at hmnd
    have hself : mget (kv :: rest) kv.1 = some kv.2 := by rw [mget_cons, if_pos rfl]
    have hkl : kv.1 ∈ l := hsub kv.1 (mhas_of_mget_eq_some hself)
    obtain ⟨l1, l2, rfl⟩ := List.append_of_mem hkl
    have hmid := List.nodup_middle.mp hlnd
    rw [List.nodup_cons] at hmid
    have hc1 : ∀ x ∈ l1, (fun k => mget (kv :: rest) k) x = (fun k => mget rest k) x := by
      intro x hx
      show mget (kv :: rest) x = mget rest x
      rw [mget_cons, if_neg]
      intro he
      apply hmid.1
      rw [he]
      exact List.mem_append_left _ hx
    have hc2 : ∀ x ∈ l2, (fun k => mget (kv :: rest) k) x = (fun k => mget rest k) x := by
      intro x hx
      show mget (kv :: rest) x = mget rest x
      rw [mget_cons, if_neg]
      intro he
      apply hmid.1
      rw [he]
      exact List.mem_append_right _ hx
    have hstep : (kv.1 :: l2).filterMap (fun k => mget (kv :: rest) k)
        = kv.2 :: l2.filterMap (fun k => mget (kv :: rest) k) := by
      rw [List.filterMap_cons]
      simp [hself]
    rw [List.filterMap_append, hstep, List.filterMap_congr hc1, List.filterMap_congr hc2,
      List.map_cons]
    refine List.Perm.trans List.perm_middle ?_
    rw [← List.filterMap_append]
    refine List.Perm.cons kv.2 (ih (l1 ++ l2) hmnd.2 hmid.2 ?_)
    intro k2 hk2
    have hne : k2 ≠ kv.1 := by
      intro he
      apply hmnd.1
      rw [← he]
      exact (mhas_iff_mem_keys rest k2).mp hk2
    have hkl2 : k2 ∈ l1 ++ kv.1 :: l2 := by
      apply hsub
      rw [mhas_eq_isSome, mget_cons, if_neg (fun he2 => hne he2.symm), ← mhas_eq_isSome]
      exact hk2
    rcases List.mem_append.mp hkl2 with h | h
    · exact List.mem_append_left _ h
    · rcases List.mem_cons.mp h with h2 | h2
      · exact absurd h2 hne
      · exact List.mem_append_right _ h2

/-- In `dupSpouseTree` the two persons `a` and `b` hold two Partnership
entries for each other (under distinct union ids), and the layout emits
three person nodes for the two persons: the partner-adjacency pass
filters the spouse list against the taken set before placing any of it,
so `b` is placed twice in `a`'s row. -/
theorem layout_duplicate_partner_counterexample :
    dupSpouseTree.people.length = 2 ∧
    (computeTreeLayout dupSpouseTree).personNodes.length = 3 ∧
    ((computeTreeLayout dupSpouseTree).personNodes.filter
      (fun n => n.person.id = "b")).length = 2 := by
  decide

/-- C10: when keys are unique, id fields match keys and no person repeats
a spouse id in its Partnership list, the layout's person nodes are in
one-to-one correspondence with the people mapping entries (in
particular, ids referenced by relation fields but absent from the
mapping get no node), and every person key the placement traversal never
reaches is assigned depth 0 and a visitation order strictly greater than
every reached id's order. -/
theorem computeTreeLayout_personNodes_spec (tree : TreeData) (hs : C10Scenario tree) :
    List.Perm ((computeTreeLayout tree).personNodes.map (fun n => n.person))
      (tree.people.map (fun kv => kv.2)) ∧
    (∀ k, mhas tree.people k = true → k ∉ (layoutBfs tree).visited →
      mget (layoutMaps tree).1 k = some 0 ∧
      ∀ k2 ∈ (layoutBfs tree).visited, ∃ o2 o : Nat,
        mget (layoutMaps tree).2 k2 = some o2 ∧ mget (layoutMaps tree).2 k = some o ∧
        o2 < o) := by
  obtain ⟨hnd, hids, hspnd⟩ := hs
  constructor
  · by_cases hempty : tree.people = []
    · have h1 : computeTreeLayout tree =
          { personNodes := [], unionNodes := [], edges := [],
            width := jofNat 0, height := jofNat 0 } := by
        unfold computeTreeLayout
        rw [if_pos (by rw [hempty]; rfl)]
      rw [h1, hempty]
      simp only [List.map_nil]
      exact List.Perm.refl _
    · obtain ⟨hpn, _, _⟩ := computeTreeLayout_parts hempty
      rw [hpn, layoutRows_personNodes_filterMap]
      exact filterMap_mget_perm tree.people (bigRowOrder tree) hnd
        (bigRowOrder_nodup tree hids hspnd) (bigRowOrder_covers tree hids hspnd)
  · intro k hk hunv
    exact layout_unreachable_spec tree k hk hunv

/-- Witness: the well-formedness hypotheses hold in `disconnectedTree`
(whose person `z` is unreachable from the root `r`) and the person-node
specification follows for it. -/
theorem computeTreeLayout_personNodes_spec_witness :
    C10Scenario disconnectedTree ∧
    (List.Perm ((computeTreeLayout disconnectedTree).personNodes.map (fun n => n.person))
      (disconnectedTree.people.map (fun kv => kv.2)) ∧
    (∀ k, mhas disconnectedTree.people k = true → k ∉ (layoutBfs disconnectedTree).visited →
      mget (layoutMaps disconnectedTree).1 k = some 0 ∧
      ∀ k2 ∈ (layoutBfs disconnectedTree).visited, ∃ o2 o : Nat,
        mget (layoutMaps disconnectedTree).2 k2 = some o2 ∧
        mget (layoutMaps disconnectedTree).2 k = some o ∧ o2 < o)) :=
  ⟨by decide, computeTreeLayout_personNodes_spec disconnectedTree (by decide)⟩
